import Mathlib

/-!
# TrenchBroom `Vec<T,S>`: comparison, selection and geometric predicates

A shallow embedding of `common/src/Vec.h`.

* `Vec<T,S>` holds `T v[S]`; it is embedded as a function `Fin S → T`.
* The scalar type `T` is a template parameter.  The functions whose result depends on how
  the scalars round or wrap (`equals`, `colinear`, `planeNormal`, `linearlyDependent1`,
  `linearlyDependent2`, `majorComponent`) are embedded over the operations they use, so that
  they run on exact scalars (linearly ordered rings and fields), on the floating-point
  numbers `Binary p` (`float` is `Binary32`, `double` is `Binary64`: every operation rounds
  to nearest, ties to even; overflow, subnormal numbers, infinities and NaN are outside the
  model, except that a quotient with denominator zero is tracked explicitly where the
  source tests for it) and on the 32-bit integers `CInt` (negation wraps).  The other
  functions are embedded over exact scalars.
* `std::sqrt` is a parameter `sqrt : T → T`; theorems that need it assume
  `IsSqrt sqrt`.
* `for (size_t i = 0; i < S; ++i)` loops are recursions or folds over
  `List.finRange S`, the indices `0, 1, ..., S-1` in increasing order.
-/

namespace TrenchBroom

/-! ## Scalar helpers (`MathUtils.h`, `<cmath>`) -/

/-- The function `std::abs` (`<cmath>`, `<cstdlib>`): `-x` for a negative `x`, which on a
two's complement integer type returns the most negative value unchanged. -/
def std.abs {T : Type} [Zero T] [Neg T] [LT T] [∀ a b : T, Decidable (a < b)] (x : T) : T :=
  if x < 0 then -x else x

/-- Modelled from the spec: `Math::abs` is declared in `MathUtils.h`, which is not among
the sources; it is read as `std::abs`. -/
def Math.abs {T : Type} [Zero T] [Neg T] [LT T] [∀ a b : T, Decidable (a < b)] (x : T) : T :=
  std.abs x

/-- Modelled from the spec: `Math::zero` is declared in `MathUtils.h`, which is not among
the sources; a value "vanishes within epsilon" when its magnitude is at most epsilon. -/
def Math.zero {T : Type} [Zero T] [Neg T] [LT T] [LE T] [∀ a b : T, Decidable (a < b)]
    [∀ a b : T, Decidable (a ≤ b)] (v epsilon : T) : Bool :=
  decide (std.abs v ≤ epsilon)

namespace Math

variable {T : Type} [LinearOrderedCommRing T]

/-- Modelled from the spec: `Math::lt` is declared in `MathUtils.h`, which is not among
the sources; `Math::lt(a, b, e)` is read as `a < b - e`. -/
def lt (lhs rhs epsilon : T) : Bool := decide (lhs < rhs - epsilon)

/-- Modelled from the spec: `Math::gt` is declared in `MathUtils.h`, which is not among
the sources; `Math::gt(a, b, e)` is read as `a > b + e`. -/
def gt (lhs rhs epsilon : T) : Bool := decide (lhs > rhs + epsilon)

end Math

/-- Modelled from the spec: `length()` is `sqrt(dot(v,v))`; on exact scalars `std::sqrt`
(`<cmath>`) is the nonnegative square root of a nonnegative argument. -/
def IsSqrt {T : Type} [LinearOrderedField T] (sqrt : T → T) : Prop :=
  ∀ x : T, 0 ≤ x → 0 ≤ sqrt x ∧ sqrt x * sqrt x = x

/-! ## The vector type -/

/-- The class `Vec<T,S>`: the array `T v[S]`. -/
def Vec (T : Type) (S : Nat) : Type := Fin S → T

namespace Vec

variable {T : Type} {S : Nat}

/-- The constructor `Vec(i_x, i_y, i_z)` at `S = 3`. -/
def mk3 (x y z : T) : Vec T 3 := ![x, y, z]

/-- The operator `operator+` (through `operator+=`): componentwise sum. -/
def add [Add T] (lhs rhs : Vec T S) : Vec T S := fun i => lhs i + rhs i

/-- The operator `operator-` (through `operator-=`): componentwise difference. -/
def sub [Sub T] (lhs rhs : Vec T S) : Vec T S := fun i => lhs i - rhs i

/-- The unary `operator-`: every component negated. -/
def neg [Neg T] (v : Vec T S) : Vec T S := fun i => -v i

/-- The operator `operator*(Vec, T)` (through `operator*=`): every component times `rhs`. -/
def mulScalar [Mul T] (lhs : Vec T S) (rhs : T) : Vec T S := fun i => lhs i * rhs

/-- The operator `operator/(Vec, T)` (through `operator/=`): every component over `rhs`. -/
def divScalar [Div T] (lhs : Vec T S) (rhs : T) : Vec T S := fun i => lhs i / rhs

instance [Add T] : Add (Vec T S) := ⟨add⟩
instance [Sub T] : Sub (Vec T S) := ⟨sub⟩
instance [Neg T] : Neg (Vec T S) := ⟨neg⟩

/-- The default constructor `Vec()`: the zero vector (`setNull`). -/
def null [Zero T] : Vec T S := fun _ => 0

/-- The static `Vec::axis(index)`: the zero vector with `1` stored at `index`. -/
def axis [Zero T] [One T] (index : Fin S) : Vec T S := fun i => if i = index then 1 else 0

end Vec

/-! ## Comparison operators -/

section Compare

variable {T : Type} [LinearOrderedCommRing T] {S : Nat}

/-- The loop of `compare`, over the indices still to visit. -/
def compareLoop (lhs rhs : Vec T S) (epsilon : T) : List (Fin S) → Int
  | [] => 0
  | i :: rest =>
    if Math.lt (lhs i) (rhs i) epsilon then -1
    else if Math.gt (lhs i) (rhs i) epsilon then 1
    else compareLoop lhs rhs epsilon rest

/-- The function `compare(lhs, rhs, epsilon)` on two vectors. -/
def compare (lhs rhs : Vec T S) (epsilon : T) : Int :=
  compareLoop lhs rhs epsilon (List.finRange S)

/-- The operator `operator==`: `compare(lhs, rhs) == 0` with the default epsilon `0`. -/
def operator_eq (lhs rhs : Vec T S) : Bool := decide (compare lhs rhs 0 = 0)

/-- The operator `operator!=`: `compare(lhs, rhs) != 0`. -/
def operator_ne (lhs rhs : Vec T S) : Bool := decide (compare lhs rhs 0 ≠ 0)

/-- The operator `operator<`: `compare(lhs, rhs) < 0`. -/
def operator_lt (lhs rhs : Vec T S) : Bool := decide (compare lhs rhs 0 < 0)

/-- The operator `operator<=`: `compare(lhs, rhs) <= 0`. -/
def operator_le (lhs rhs : Vec T S) : Bool := decide (compare lhs rhs 0 ≤ 0)

/-- The operator `operator>`: `compare(lhs, rhs) > 0`. -/
def operator_gt (lhs rhs : Vec T S) : Bool := decide (compare lhs rhs 0 > 0)

/-- The operator `operator>=`: `compare(lhs, rhs) >= 0`. -/
def operator_ge (lhs rhs : Vec T S) : Bool := decide (compare lhs rhs 0 ≥ 0)

end Compare

/-! ## Arithmetic functions -/

section Arithmetic

variable {T : Type} {S : Nat}

/-- The function `dot(lhs, rhs)`: `result += lhs[i] * rhs[i]` for `i = 0, ..., S-1`. -/
def dot [Zero T] [Add T] [Mul T] (lhs rhs : Vec T S) : T :=
  (List.finRange S).foldl (fun result i => result + lhs i * rhs i) 0

/-- The function `cross(lhs, rhs)` on 3d vectors. -/
def cross [Sub T] [Mul T] (lhs rhs : Vec T 3) : Vec T 3 :=
  Vec.mk3 (lhs 1 * rhs 2 - lhs 2 * rhs 1)
          (lhs 2 * rhs 0 - lhs 0 * rhs 2)
          (lhs 0 * rhs 1 - lhs 1 * rhs 0)

/-- The method `Vec::squaredLength()`. -/
def Vec.squaredLength [Zero T] [Add T] [Mul T] (v : Vec T S) : T := dot v v

/-- The method `Vec::length()`. -/
def Vec.length [Zero T] [Add T] [Mul T] (sqrt : T → T) (v : Vec T S) : T :=
  sqrt v.squaredLength

/-- The method `Vec::normalize()`: `*this /= length()`; the value of `*this` afterwards. -/
def Vec.normalize [Zero T] [Add T] [Mul T] [Div T] (sqrt : T → T) (v : Vec T S) : Vec T S :=
  v.divScalar (v.length sqrt)

/-- The function `crossed(point0, point1, point2)`. -/
def crossed [Sub T] [Mul T] (point0 point1 point2 : Vec T 3) : Vec T 3 :=
  let v1 := point2 - point0
  let v2 := point1 - point0
  cross v1 v2

end Arithmetic

/-! ## Geometric predicates -/

section Predicates

variable {T : Type} {S : Nat}

/-- The loop of `Vec::equals`, over the indices still to visit. -/
def Vec.equalsLoop [Zero T] [Sub T] [Neg T] [LT T] [∀ a b : T, Decidable (a < b)]
    (v other : Vec T S) (epsilon : T) : List (Fin S) → Bool
  | [] => true
  | i :: rest =>
    if std.abs (v i - other i) > epsilon then false
    else Vec.equalsLoop v other epsilon rest

/-- The method `Vec::equals(other, epsilon)`. -/
def Vec.equals [Zero T] [Sub T] [Neg T] [LT T] [∀ a b : T, Decidable (a < b)]
    (v other : Vec T S) (epsilon : T) : Bool :=
  Vec.equalsLoop v other epsilon (List.finRange S)

/-- The static `Vec::colinear(p1, p2, p3, epsilon)`. -/
def colinear [Zero T] [Add T] [Sub T] [Neg T] [LT T] [∀ a b : T, Decidable (a < b)]
    (p1 p2 p3 : Vec T S) (epsilon : T) : Bool :=
  let p1p2 := p2 - p1
  let p2p3 := p3 - p2
  let p1p3 := p3 - p1
  p1p3.equals (p1p2 + p2p3) epsilon

/-- The function `planeNormal(normal, point0, point1, point2, epsilon)`: the returned flag
together with the value left in `normal`.  The quotient `sin_theta` has numerator
`normal.length()` and denominator `v1.length() * v2.length()`; `Math::isnan` holds of `0/0`
and `Math::isinf` of `x/0` with `x` nonzero. -/
def planeNormal [Zero T] [Add T] [Sub T] [Mul T] [Div T] [Neg T] [LT T] [DecidableEq T]
    [∀ a b : T, Decidable (a < b)] (sqrt : T → T) (point0 point1 point2 : Vec T 3)
    (epsilon : T) : Bool × Vec T 3 :=
  let v1 := point2 - point0
  let v2 := point1 - point0
  let normal := cross v1 v2
  let num := normal.length sqrt
  let den := v1.length sqrt * v2.length sqrt
  let sin_theta := Math.abs (num / den)
  let isnan := decide (den = 0 ∧ num = 0)
  let isinf := decide (den = 0 ∧ num ≠ 0)
  if isnan || isinf || decide (sin_theta < epsilon) then
    (false, normal)
  else
    (true, normal.normalize sqrt)

/-- The loop of `linearlyDependent1`: the accumulators `(j, k, l)` after all indices. -/
def linearlyDependent1Sums [Zero T] [Add T] [Sub T] [Mul T] (a b c : Vec T S) : T × T × T :=
  (List.finRange S).foldl
    (fun acc i =>
      let ac := a i - c i
      let ba := b i - a i
      (acc.1 + ac * ba, acc.2.1 + ac * ac, acc.2.2 + ba * ba))
    (0, 0, 0)

/-- The value `j * j - k * l` that `linearlyDependent1` hands to `Math::zero`. -/
def linearlyDependent1Discriminant [Zero T] [Add T] [Sub T] [Mul T] (a b c : Vec T S) : T :=
  let (j, k, l) := linearlyDependent1Sums a b c
  j * j - k * l

/-- The function `linearlyDependent1(a, b, c)`; `colinearEpsilon` stands for the constant
`Math::Constants<T>::colinearEpsilon()` of `MathUtils.h`. -/
def linearlyDependent1 [Zero T] [Add T] [Sub T] [Mul T] [Neg T] [LT T] [LE T]
    [∀ a b : T, Decidable (a < b)] [∀ a b : T, Decidable (a ≤ b)] (colinearEpsilon : T)
    (a b c : Vec T S) : Bool :=
  Math.zero (linearlyDependent1Discriminant a b c) colinearEpsilon

/-- The function `linearlyDependent2(a, b, c)`. -/
def linearlyDependent2 [Zero T] [Add T] [Sub T] [Mul T] [LT T] [DecidableEq T]
    [∀ a b : T, Decidable (a < b)] (sqrt : T → T) (a b c : Vec T S) : Bool :=
  let ac := (c - a).length sqrt
  let bc := (c - b).length sqrt
  let ab := (b - a).length sqrt
  if ac > bc then
    if ac > ab then decide (ac = bc + ab)
    else if ab > ac then decide (ab = ac + bc)
    else decide (ac = ab + bc)
  else if bc > ac then
    if bc > ab then decide (bc = ac + ab)
    else if ab > bc then decide (ab = bc + ac)
    else decide (ab = bc + ac)
  else
    if ab > ac then decide (ab = ac + bc)
    else decide (bc = ac + ab)

/-- The function `linearlyDependent(a, b, c)`. -/
def linearlyDependent [Zero T] [Add T] [Sub T] [Mul T] [Neg T] [LT T] [LE T]
    [∀ a b : T, Decidable (a < b)] [∀ a b : T, Decidable (a ≤ b)] (colinearEpsilon : T)
    (a b c : Vec T S) : Bool :=
  linearlyDependent1 colinearEpsilon a b c

end Predicates

/-! ## Component selection -/

section Heap

variable {α : Type}

/-- The loop of `std::__push_heap(first, holeIndex, topIndex, value, comp)` as in libstdc++
(`bits/stl_heap.h`): the hole moves up while its parent compares less than `value`, then
`value` is stored in the hole.  The hole index strictly decreases, `fuel` bounds the number
of iterations. -/
def pushHeapLoop (comp : α → α → Bool) (value : α) (topIndex : Nat) :
    Nat → List α → Nat → List α
  | 0, first, holeIndex => first.set holeIndex value
  | fuel + 1, first, holeIndex =>
    let parent := (holeIndex - 1) / 2
    if holeIndex > topIndex ∧ comp (first.getD parent value) value = true then
      pushHeapLoop comp value topIndex fuel
        (first.set holeIndex (first.getD parent value)) parent
    else
      first.set holeIndex value

/-- The algorithm `std::push_heap(first, last, comp)` on the whole container: the last
element is sifted up from index `last - first - 1`. -/
def push_heap (comp : α → α → Bool) (heap : List α) : List α :=
  match heap.getLast? with
  | none => heap
  | some value => pushHeapLoop comp value 0 (heap.length - 1) heap (heap.length - 1)

/-- The `while` loop of `std::__adjust_heap` as in libstdc++: the hole moves down to the
larger child; the result is the container with the final `holeIndex` and `secondChild`. -/
def adjustHeapLoop (comp : α → α → Bool) (value : α) (len : Nat) :
    Nat → List α → Nat → Nat → List α × Nat × Nat
  | 0, first, holeIndex, secondChild => (first, holeIndex, secondChild)
  | fuel + 1, first, holeIndex, secondChild =>
    if secondChild < (len - 1) / 2 then
      let secondChild := 2 * (secondChild + 1)
      let secondChild :=
        if comp (first.getD secondChild value) (first.getD (secondChild - 1) value) = true
        then secondChild - 1 else secondChild
      adjustHeapLoop comp value len fuel
        (first.set holeIndex (first.getD secondChild value)) secondChild secondChild
    else
      (first, holeIndex, secondChild)

/-- The function `std::__adjust_heap(first, holeIndex, len, value, comp)` as in
libstdc++. -/
def adjustHeap (comp : α → α → Bool) (first : List α) (holeIndex len : Nat) (value : α) :
    List α :=
  let topIndex := holeIndex
  let (first, holeIndex, secondChild) :=
    adjustHeapLoop comp value len len first holeIndex holeIndex
  let (first, holeIndex) :=
    if len % 2 = 0 ∧ secondChild = (len - 2) / 2 then
      let secondChild := 2 * (secondChild + 1)
      (first.set holeIndex (first.getD (secondChild - 1) value), secondChild - 1)
    else
      (first, holeIndex)
  pushHeapLoop comp value topIndex holeIndex first holeIndex

/-- The function `std::__pop_heap(first, last, result, comp)` with `result = last`, as
`std::sort_heap` calls it: the top goes to index `last`, the element that was there is
sifted in from the top of the heap `[0, last)`. -/
def popHeap (comp : α → α → Bool) (first : List α) (last : Nat) : List α :=
  match first[last]?, first[0]? with
  | some value, some top => adjustHeap comp (first.set last top) 0 last value
  | _, _ => first

/-- The loop of `std::sort_heap`: `while (last - first > 1) { --last; pop_heap }`. -/
def sortHeapLoop (comp : α → α → Bool) : Nat → List α → List α
  | 0, first => first
  | last + 1, first =>
    if last + 1 > 1 then sortHeapLoop comp last (popHeap comp first last) else first

/-- The algorithm `std::sort_heap(first, last, comp)` on the whole container. -/
def sort_heap (comp : α → α → Bool) (heap : List α) : List α :=
  sortHeapLoop comp heap.length heap

end Heap

section Selection

variable {T : Type} [Zero T] [Neg T] [LT T] [∀ a b : T, Decidable (a < b)] {S : Nat}

/-- The comparator `SelectionHeapCmp::operator()`. -/
def SelectionHeapCmp (m_vec : Vec T S) (m_abs : Bool) (lhs rhs : Fin S) : Bool :=
  if m_abs then decide (std.abs (m_vec lhs) < std.abs (m_vec rhs))
  else decide (m_vec lhs < m_vec rhs)

/-- The loop of the `k == 0` branch of `Vec::majorComponent`, over the indices still to
visit, with the current `index`. -/
def majorComponentScan (v : Vec T S) (index : Fin S) : List (Fin S) → Fin S
  | [] => index
  | i :: rest =>
    majorComponentScan v (if std.abs (v i) > std.abs (v index) then i else index) rest

/-- The method `Vec::majorComponent(k)`; `none` when the assertion `k < S` fails. -/
def majorComponent (v : Vec T S) (k : Nat) : Option (Fin S) :=
  if hk : k < S then
    if k = 0 then
      some (majorComponentScan v ⟨0, by omega⟩ ((List.finRange S).drop 1))
    else
      let cmp := SelectionHeapCmp v true
      let heap := (List.finRange S).foldl (fun heap i => push_heap cmp (heap ++ [i])) []
      let heap := sort_heap cmp heap
      some (heap.getD (S - k - 1) ⟨0, by omega⟩)
  else
    none

end Selection

section SelectionAndRanges

variable {T : Type} [LinearOrderedCommRing T] {S : Nat}

/-- The method `Vec::majorAxis(k)`; `none` when the assertion of `majorComponent` fails. -/
def majorAxis (v : Vec T S) (k : Nat) : Option (Vec T S) :=
  match majorComponent v k with
  | none => none
  | some c =>
    let a : Vec T S := Vec.axis c
    if v c < 0 then some (-a) else some a

/-- The method `Vec::absMajorAxis(k)`; `none` when the assertion of `majorComponent`
fails. -/
def absMajorAxis (v : Vec T S) (k : Nat) : Option (Vec T S) :=
  match majorComponent v k with
  | none => none
  | some c => some (Vec.axis c)

/-- Modelled from the spec: `Math::Less<T, Abs>` is declared in `MathUtils.h`, which is not
among the sources; `hasMajorComponent` sorts magnitudes with `Math::Less<T, true>`, the
less-than comparison of magnitudes (as `SelectionHeapCmp` with `m_abs`). -/
def Math.Less (Abs : Bool) (lhs rhs : T) : Bool :=
  if Abs then decide (|lhs| < |rhs|) else decide (lhs < rhs)

/-- The algorithm `std::sort(first, last, comp)` on a whole array.  The standard fixes the
result up to the order of elements equivalent under `comp`; insertion sort stands for
it. -/
def sort (comp : T → T → Bool) (a : List T) : List T :=
  a.insertionSort (fun x y => comp y x = false)

set_option linter.unusedVariables false in
/-- The method `Vec::hasMajorComponent(epsilon)`; the body never reads `epsilon`. -/
def hasMajorComponent (v : Vec T S) (epsilon : T) : Bool :=
  if S = 0 then false
  else if S = 1 then true
  else
    let copy := List.ofFn v
    let less := Math.Less (T := T) true
    let copy := sort less copy
    less (copy.getD 0 0) (copy.getD 1 0)

/-- The range overload `compare(lhsCur, lhsEnd, rhsCur, rhsEnd, epsilon)`, the two ranges
given as lists; `none` when the assertion `lhsCur == lhsEnd && rhsCur == rhsEnd` after the
loop fails. -/
def compareRange : List (Vec T S) → List (Vec T S) → T → Option Int
  | lhsCur :: lhsRest, rhsCur :: rhsRest, epsilon =>
    let cmp := compare lhsCur rhsCur epsilon
    if cmp < 0 then some (-1)
    else if cmp > 0 then some 1
    else compareRange lhsRest rhsRest epsilon
  | [], [], _ => some 0
  | [], _ :: _, _ => none
  | _ :: _, [], _ => none

end SelectionAndRanges

section Segment

variable {T : Type} [LinearOrderedField T] {S : Nat}

/-- The struct `Vec::EdgeDistance`. -/
structure EdgeDistance (T : Type) (S : Nat) where
  /-- The closest point on the segment. -/
  point : Vec T S
  /-- The distance to that point. -/
  distance : T

/-- The method `Vec::distanceToSegment(start, end)`, called on `this`. -/
def Vec.distanceToSegment (sqrt : T → T) (this start end_ : Vec T S) : EdgeDistance T S :=
  let edgeVec := end_ - start
  let edgeDir := edgeVec.normalize sqrt
  let scale := dot (this - start) edgeDir
  let closestPoint :=
    if scale < 0 then start
    else if scale * scale > edgeVec.squaredLength then end_
    else start + edgeDir.mulScalar scale
  let distance := (this - closestPoint).length sqrt
  ⟨closestPoint, distance⟩

/-- The static `Vec::average(vecs)`; `none` when the assertion `!vecs.empty()` fails. -/
def Vec.average (vecs : List (Vec T S)) : Option (Vec T S) :=
  if vecs.isEmpty then none
  else
    let sum := vecs.foldl (fun sum v => sum + v) Vec.null
    some (sum.divScalar (vecs.length : T))

end Segment

section Planes

variable {T : Type} [LinearOrderedField T]

/-- Modelled from the spec: `Math::one` is declared in `MathUtils.h`, which is not among the
sources; the "dot-product edge cases" are the values within the tolerance `epsilon` of
`1`. -/
def Math.one (v epsilon : T) : Bool := decide (|v - 1| ≤ epsilon)

/-- Modelled from the spec: `Math::neg` is declared in `MathUtils.h`, which is not among the
sources; a value is negative beyond the tolerance when it is below `-epsilon`. -/
def Math.neg (v epsilon : T) : Bool := decide (v < -epsilon)

/-- The function `commonPlane(p1, p2, p3, p4, epsilon)`; `none` when the assertion
`!p1.colinear(p2, p3, epsilon)` fails. -/
def commonPlane (sqrt : T → T) (p1 p2 p3 p4 : Vec T 3) (epsilon : T) : Option Bool :=
  if colinear p1 p2 p3 epsilon then none
  else
    let normal := (cross (p3 - p1) (p2 - p1)).normalize sqrt
    let offset := dot p1 normal
    let dist := dot p4 normal - offset
    some (decide (|dist| < epsilon))

/-- The method `Vec::makePerpendicular()` (it calls `cross`, so `S = 3`); `none` when the
assertion of `majorComponent` fails. -/
def makePerpendicular (sqrt : T → T) (v : Vec T 3) : Option (Vec T 3) :=
  match majorAxis v (3 - 1) with
  | none => none
  | some leastAxis => some ((cross v leastAxis).normalize sqrt)

end Planes

/-! ## Converting constructors -/

section Constructors

variable {T U : Type} [Zero T] {S O : Nat}

/-- The assignment `v[index] = value`. -/
def Vec.assign (v : Vec T S) (index : Nat) (value : T) : Vec T S :=
  fun j => if j.val = index then value else v j

/-- The two loops shared by the converting constructors, with `n` for `S`, `S-1` or `S-2`:
`for (i = 0; i < min(n, O); ++i) v[i] = static_cast<T>(vec[i])` and
`for (i = min(n, O); i < n; ++i) v[i] = 0`.  The member array `v` starts uninitialised. -/
def Vec.convertLoops (cast : U → T) (uninitialised : Vec T S) (vec : Vec U O) (n : Nat) :
    Vec T S :=
  let v := ((List.finRange O).filter (fun i => decide (i.val < min n O))).foldl
    (fun v i => v.assign i.val (cast (vec i))) uninitialised
  ((List.range n).filter (fun i => decide (min n O ≤ i))).foldl
    (fun v i => v.assign i 0) v

/-- The constructor `Vec(const Vec<U,O>& vec)`; `cast` is `static_cast<T>`. -/
def Vec.convert (cast : U → T) (uninitialised : Vec T S) (vec : Vec U O) : Vec T S :=
  Vec.convertLoops cast uninitialised vec S

/-- The constructor `Vec(const Vec<U,O>& vec, const U last)`, for `S >= 1`. -/
def Vec.convertLast (cast : U → T) (uninitialised : Vec T S) (vec : Vec U O) (last : U) :
    Vec T S :=
  let v := Vec.convertLoops cast uninitialised vec (S - 1)
  v.assign (S - 1) (cast last)

/-- The constructor `Vec(const Vec<U,O>& vec, const U oneButLast, const U last)`, for
`S >= 2`. -/
def Vec.convertLast2 (cast : U → T) (uninitialised : Vec T S) (vec : Vec U O)
    (oneButLast last : U) : Vec T S :=
  let v := Vec.convertLoops cast uninitialised vec (S - 2)
  let v := v.assign (S - 2) (cast oneButLast)
  v.assign (S - 1) (cast last)

end Constructors

/-! ## Text interchange -/

section Text

variable {T : Type} [Zero T] {S : Nat}

/-- The index of the first character of a text that satisfies `p`; `none` stands for
`std::string::npos`. -/
def firstIndex (p : Char → Bool) : List Char → Option Nat
  | [] => none
  | c :: cs => if p c then some 0 else (firstIndex p cs).map (fun k => k + 1)

/-- The method `str.find_first_of(chars, pos)`. -/
def find_first_of (str chars : List Char) (pos : Nat) : Option Nat :=
  (firstIndex (fun c => chars.contains c) (str.drop pos)).map (fun k => k + pos)

/-- The method `str.find_first_not_of(chars, pos)`. -/
def find_first_not_of (str chars : List Char) (pos : Nat) : Option Nat :=
  (firstIndex (fun c => !chars.contains c) (str.drop pos)).map (fun k => k + pos)

/-- The constant `blank` of `doParse`: space, tab, newline, carriage return and the two
parentheses. -/
def doParseBlank : List Char := " \t\n\r()".toList

/-- The constant `blank` of `parseList`: space, tab, newline, carriage return, comma and
semicolon. -/
def parseListBlank : List Char := " \t\n\r,;".toList

/-- The loop of `doParse` over the indices still to fill: the returned flag, the value left
in `pos` and the value left in `result`.  `atof` is `static_cast<T>(std::atof(.))` applied
to the text from `pos` on. -/
def doParseLoop (atof : List Char → T) (str : List Char) :
    List (Fin S) → Nat → Vec T S → Bool × Option Nat × Vec T S
  | [], pos, result => (true, some pos, result)
  | i :: rest, pos, result =>
    match find_first_not_of str doParseBlank pos with
    | none => (false, none, result)
    | some pos =>
      let result := result.assign i.val (atof (str.drop pos))
      match find_first_of str doParseBlank pos with
      | none => (false, none, result)
      | some pos => doParseLoop atof str rest pos result

/-- The function `doParse(str, pos, result)`. -/
def doParse (atof : List Char → T) (str : List Char) (pos : Nat) (result : Vec T S) :
    Bool × Option Nat × Vec T S :=
  doParseLoop atof str (List.finRange S) pos result

/-- The static `Vec::parse(str)`: the flag returned by `doParse` is dropped. -/
def parse (atof : List Char → T) (str : List Char) : Vec T S :=
  (doParse atof str 0 Vec.null).2.2

/-- The loop `while (pos != npos)` of `parseList`; `none` when the fuel runs out before the
loop ends. -/
def parseListLoop (atof : List Char → T) (str : List Char) :
    Nat → Option Nat → List (Vec T S) → Option (List (Vec T S))
  | 0, _, _ => none
  | _ + 1, none, result => some result
  | fuel + 1, some pos, result =>
    let temp : Vec T S := Vec.null
    let (ok, pos, temp) := doParse atof str pos temp
    let result := if ok then result ++ [temp] else result
    let pos := match pos with
      | none => none
      | some pos => find_first_of str parseListBlank pos
    parseListLoop atof str fuel pos result

/-- The static `Vec::parseList(str)`, with fuel for `str.length + 2` iterations. -/
def parseList (atof : List Char → T) (str : List Char) : Option (List (Vec T S)) :=
  parseListLoop atof str (str.length + 2) (some 0) []

/-- The method `Vec::write(str, components)` with the default `components = S`: what the
stream holds afterwards; `toText` is `operator<<` on a component. -/
def Vec.write (toText : T → List Char) (v : Vec T S) (str : List Char) : List Char :=
  (List.finRange S).foldl
    (fun str i =>
      let str := str ++ toText (v i)
      if i.val < S - 1 then str ++ [' '] else str)
    str

/-- The method `Vec::asString()` with the default `components = S`. -/
def Vec.asString (toText : T → List Char) (v : Vec T S) : List Char :=
  Vec.write toText v []

/-- The loop of `atofDigits`. -/
def atofDigitsLoop : List Char → Nat → Nat
  | [], value => value
  | c :: cs, value =>
    if c.isDigit then atofDigitsLoop cs (value * 10 + (c.toNat - 48)) else value

/-- A reading of `std::atof` for the examples: the value of the decimal digits a text starts
with, as an exact integer, `0` when it starts with none.  On a text that starts with an
unsigned decimal integer followed by the end of the text, a blank character, a comma or a
semicolon, `std::atof` returns the `double` nearest to that integer (`Binary.ofInt` of it,
the integer itself below `2 ^ 53`); on a text that starts with none of white space, sign,
digit, `.`, `i`, `I`, `n`, `N` it returns `0`.  Other texts (a sign, a fraction, an
exponent, a hexadecimal number such as `0x10`) are outside this reading. -/
def atofDigits (text : List Char) : Int := (atofDigitsLoop text 0 : Nat)

/-- The text `tok i ++ post i` for the indices `i` of a list, in order: tokens, each
followed by its separator. -/
def tokenText (tok post : Fin S → List Char) : List (Fin S) → List Char
  | [] => []
  | i :: rest => tok i ++ (post i ++ tokenText tok post rest)

end Text

/-! ## Machine scalars -/

section MachineScalars

/-- The loop of `bitLength`. -/
def bitLengthLoop : Nat → Nat → Nat
  | 0, _ => 0
  | fuel + 1, n => if n = 0 then 0 else bitLengthLoop fuel (n / 2) + 1

/-- The number of binary digits of `n`. -/
def bitLength (n : Nat) : Nat := bitLengthLoop n n

/-- The loop of `trailingZeros`. -/
def trailingZerosLoop : Nat → Nat → Nat
  | 0, _ => 0
  | fuel + 1, n => if n % 2 = 0 then trailingZerosLoop fuel (n / 2) + 1 else 0

/-- The number of trailing zero binary digits of `n`, `0` for `n = 0`. -/
def trailingZeros (n : Nat) : Nat := trailingZerosLoop n n

/-- The loop of `isqrt`, from the binary digit `k - 1` down. -/
def isqrtLoop (n : Nat) : Nat → Nat → Nat
  | 0, r => r
  | k + 1, r => isqrtLoop n k (if (r + 2 ^ k) * (r + 2 ^ k) ≤ n then r + 2 ^ k else r)

/-- The integer square root: the largest `r` with `r * r ≤ n`. -/
def isqrt (n : Nat) : Nat := isqrtLoop n (bitLength n / 2 + 1) 0

/-- A finite binary floating-point number with `p` significant digits and unbounded
exponent: the value `m * 2 ^ e`, kept in lowest terms (`m` odd, or `m = 0` and `e = 0`), so
that equal values are equal records. -/
structure Binary (p : Nat) where
  /-- The significand, with its sign. -/
  m : Int
  /-- The exponent of two. -/
  e : Int
deriving DecidableEq

/-- The type `float` (IEEE 754 binary32, 24 significant digits). -/
abbrev Binary32 : Type := Binary 24

/-- The type `double` (IEEE 754 binary64, 53 significant digits). -/
abbrev Binary64 : Type := Binary 53

namespace Binary

variable {p : Nat}

/-- The number `m * 2 ^ e` in lowest terms. -/
def normal (m e : Int) : Binary p :=
  if m = 0 then ⟨0, 0⟩
  else ⟨m / (2 ^ trailingZeros m.natAbs : Nat), e + trailingZeros m.natAbs⟩

/-- Rounding of `m * 2 ^ e` to `p` significant digits: to nearest, ties to even. -/
def round (m e : Int) : Binary p :=
  let n := m.natAbs
  let k := bitLength n - p
  if k = 0 then normal m e
  else
    let q := n / 2 ^ k
    let r := n % 2 ^ k
    let half := 2 ^ (k - 1)
    let q := if r > half ∨ (r = half ∧ q % 2 = 1) then q + 1 else q
    normal (if m < 0 then -(q : Int) else (q : Int)) (e + k)

/-- The integer `x.m * 2 ^ (x.e - e)`, for an exponent `e ≤ x.e`. -/
def scaled (x : Binary p) (e : Int) : Int := x.m * (2 ^ (x.e - e).toNat : Nat)

instance : Zero (Binary p) := ⟨⟨0, 0⟩⟩

instance : One (Binary p) := ⟨⟨1, 0⟩⟩

instance : Neg (Binary p) := ⟨fun x => ⟨-x.m, x.e⟩⟩

instance : Add (Binary p) :=
  ⟨fun x y => round (x.scaled (min x.e y.e) + y.scaled (min x.e y.e)) (min x.e y.e)⟩

instance : Sub (Binary p) :=
  ⟨fun x y => round (x.scaled (min x.e y.e) - y.scaled (min x.e y.e)) (min x.e y.e)⟩

instance : Mul (Binary p) := ⟨fun x y => round (x.m * y.m) (x.e + y.e)⟩

instance : LT (Binary p) := ⟨fun x y => x.scaled (min x.e y.e) < y.scaled (min x.e y.e)⟩

instance : LE (Binary p) := ⟨fun x y => x.scaled (min x.e y.e) ≤ y.scaled (min x.e y.e)⟩

instance (x y : Binary p) : Decidable (x < y) :=
  inferInstanceAs (Decidable (x.scaled (min x.e y.e) < y.scaled (min x.e y.e)))

instance (x y : Binary p) : Decidable (x ≤ y) :=
  inferInstanceAs (Decidable (x.scaled (min x.e y.e) ≤ y.scaled (min x.e y.e)))

/-- The quotient `x / y` for `y ≠ 0`, rounded: the quotient of the significands is taken to
at least `p + 2` digits and a digit `1` is appended when the division leaves a remainder.
For `y = 0` the value is `0`; the functions that divide test for it. -/
def div (x y : Binary p) : Binary p :=
  if y.m = 0 then 0
  else
    let s := p + 2 + bitLength y.m.natAbs - bitLength x.m.natAbs
    let n := x.m.natAbs * 2 ^ s
    let q := n / y.m.natAbs
    let sticky := if n % y.m.natAbs = 0 then 0 else 1
    let sign : Int := if decide (x.m < 0) = decide (y.m < 0) then 1 else -1
    round (sign * (2 * q + sticky : Nat)) (x.e - y.e - s - 1)

instance : Div (Binary p) := ⟨div⟩

/-- The function `std::sqrt` on `x ≥ 0`, rounded: the integer square root of the significand
scaled to at least `2 * p + 4` digits, with a digit `1` appended when it is not exact.  For
negative `x` the value is `0`. -/
def sqrt (x : Binary p) : Binary p :=
  if x.m ≤ 0 then 0
  else
    let s := 2 * p + 4 - bitLength x.m.natAbs
    let s := if (x.e - s) % 2 = 0 then s else s + 1
    let n := x.m.natAbs * 2 ^ s
    let r := isqrt n
    let sticky := if r * r = n then 0 else 1
    round ((2 * r + sticky : Nat) : Int) ((x.e - s) / 2 - 1)

/-- The conversion of the integer `n` to floating point, rounded. -/
def ofInt (n : Int) : Binary p := round n 0

/-- The decimal literal `n * 10 ^ (-k)`, rounded once: both `n` and `10 ^ k` must have at
most `p` significant binary digits, so that their quotient is rounded only by the
division. -/
def ofDecimal (n : Int) (k : Nat) : Binary p := ofInt n / ofInt (10 ^ k : Nat)

/-- The conversion `static_cast` of a floating-point number to an integer type: the
fraction is dropped. -/
def toInt (x : Binary p) : Int :=
  if 0 ≤ x.e then x.m * (2 ^ x.e.toNat : Nat) else Int.tdiv x.m (2 ^ (-x.e).toNat : Nat)

end Binary

/-- The type `int`: a 32-bit two's complement integer.  Overflow of signed arithmetic is
undefined in C++; the negation here wraps, as the compiled code does. -/
structure CInt where
  /-- The value, from `-2^31` to `2^31 - 1`. -/
  toInt : Int
deriving DecidableEq

/-- The integer `x` reduced modulo `2 ^ 32` into the range of `int`. -/
def CInt.wrap (x : Int) : CInt := ⟨(x + 2 ^ 31) % 2 ^ 32 - 2 ^ 31⟩

instance : Zero CInt := ⟨⟨0⟩⟩

instance : Neg CInt := ⟨fun x => CInt.wrap (-x.toInt)⟩

instance : LT CInt := ⟨fun x y => x.toInt < y.toInt⟩

instance (x y : CInt) : Decidable (x < y) := inferInstanceAs (Decidable (x.toInt < y.toInt))

/-- The loop of `showNat`: the decimal digits of `n`, the most significant first. -/
def showNatLoop : Nat → Nat → List Char
  | 0, _ => []
  | fuel + 1, n =>
    if n < 10 then [Char.ofNat (48 + n)]
    else showNatLoop fuel (n / 10) ++ [Char.ofNat (48 + n % 10)]

/-- The text that `operator<<` (`<ostream>`) writes for a non-negative integer: its decimal
digits. -/
def showNat (n : Nat) : List Char := showNatLoop (n + 1) n

/-- The text that `operator<<` (`<ostream>`) writes for a component of an integer type: a
minus sign for a negative value, then the decimal digits of the magnitude. -/
def showInt (n : Int) : List Char :=
  if n < 0 then '-' :: showNat n.natAbs else showNat n.natAbs

/-- The function `std::atof` (`<cstdlib>`) on a text that starts with a decimal integer, with
or without a minus sign: the `double` nearest to that integer. -/
def atofInteger (text : List Char) : Binary64 :=
  if text.head? = some '-' then Binary.ofInt (-(atofDigits text.tail))
  else Binary.ofInt (atofDigits text)

end MachineScalars

/-! ## Proofs: `compare` and the relational operators -/

section CompareProofs

variable {T : Type} [LinearOrderedCommRing T] {S : Nat}

/-- On exact scalars `std::abs` is the absolute value. -/
theorem std.abs_eq_abs (x : T) : std.abs x = |x| := by
  unfold std.abs
  split_ifs with h
  · exact (abs_of_neg h).symm
  · exact (abs_of_nonneg (not_lt.mp h)).symm

/-- On exact scalars `Math::abs` is the absolute value. -/
theorem Math.abs_exact (x : T) : Math.abs x = |x| := std.abs_eq_abs x

/-- On exact scalars `Math::zero` tests the absolute value against epsilon. -/
theorem Math.zero_eq_true_iff (v e : T) : Math.zero v e = true ↔ |v| ≤ e := by
  simp [Math.zero, std.abs_eq_abs]

theorem Math.lt_eq_true_iff (a b e : T) : Math.lt a b e = true ↔ a < b - e := by
  simp [Math.lt]

theorem Math.gt_eq_true_iff (a b e : T) : Math.gt a b e = true ↔ b + e < a := by
  simp [Math.gt]

/-- With a nonnegative epsilon, `Math::lt` fires exactly when the first argument is the
smaller one and the difference exceeds epsilon in magnitude. -/
theorem Math.lt_iff_abs (a b e : T) (he : 0 ≤ e) :
    Math.lt a b e = true ↔ (e < |a - b| ∧ a < b) := by
  rw [Math.lt_eq_true_iff, lt_abs]
  constructor
  · intro h
    exact ⟨Or.inr (by linarith), by linarith⟩
  · rintro ⟨h | h, hab⟩ <;> linarith

/-- With a nonnegative epsilon, `Math::gt` fires exactly when the first argument is the
larger one and the difference exceeds epsilon in magnitude. -/
theorem Math.gt_iff_abs (a b e : T) (he : 0 ≤ e) :
    Math.gt a b e = true ↔ (e < |a - b| ∧ b < a) := by
  rw [Math.gt_eq_true_iff, lt_abs]
  constructor
  · intro h
    exact ⟨Or.inl (by linarith), by linarith⟩
  · rintro ⟨h | h, hab⟩ <;> linarith

/-- One step of the loop of `compare` at an index whose components are within epsilon. -/
theorem compareLoop_cons_within (lhs rhs : Vec T S) (e : T) (he : 0 ≤ e) (i : Fin S)
    (rest : List (Fin S)) (h : |lhs i - rhs i| ≤ e) :
    compareLoop lhs rhs e (i :: rest) = compareLoop lhs rhs e rest := by
  have h1 : ¬ (Math.lt (lhs i) (rhs i) e = true) := by
    rw [Math.lt_iff_abs _ _ _ he]; intro hh; exact absurd hh.1 (not_lt.mpr h)
  have h2 : ¬ (Math.gt (lhs i) (rhs i) e = true) := by
    rw [Math.gt_iff_abs _ _ _ he]; intro hh; exact absurd hh.1 (not_lt.mpr h)
  simp [compareLoop, h1, h2]

/-- One step of the loop of `compare` at an index whose components differ by more than
epsilon: the loop returns there. -/
theorem compareLoop_cons_beyond (lhs rhs : Vec T S) (e : T) (he : 0 ≤ e) (i : Fin S)
    (rest : List (Fin S)) (h : e < |lhs i - rhs i|) :
    compareLoop lhs rhs e (i :: rest) = if lhs i < rhs i then -1 else 1 := by
  by_cases hlt : lhs i < rhs i
  · have h1 : Math.lt (lhs i) (rhs i) e = true := (Math.lt_iff_abs _ _ _ he).mpr ⟨h, hlt⟩
    simp [compareLoop, h1, hlt]
  · have h1 : ¬ (Math.lt (lhs i) (rhs i) e = true) := by
      rw [Math.lt_iff_abs _ _ _ he]; intro hh; exact hlt hh.2
    have hne : lhs i ≠ rhs i := by
      intro heq
      rw [heq, sub_self, abs_zero] at h
      exact absurd h (not_lt.mpr he)
    have hgt : rhs i < lhs i := lt_of_le_of_ne (not_lt.mp hlt) (Ne.symm hne)
    have h2 : Math.gt (lhs i) (rhs i) e = true := (Math.gt_iff_abs _ _ _ he).mpr ⟨h, hgt⟩
    simp [compareLoop, h1, h2, hlt]

/-- The loop of `compare` skips a prefix of indices whose components are within epsilon. -/
theorem compareLoop_append_within (lhs rhs : Vec T S) (e : T) (he : 0 ≤ e)
    (l1 l2 : List (Fin S)) (h : ∀ j ∈ l1, |lhs j - rhs j| ≤ e) :
    compareLoop lhs rhs e (l1 ++ l2) = compareLoop lhs rhs e l2 := by
  induction l1 with
  | nil => rfl
  | cons j l1 ih =>
    rw [List.cons_append, compareLoop_cons_within lhs rhs e he j _ (h j (List.mem_cons_self _ _))]
    exact ih (fun k hk => h k (List.mem_cons_of_mem _ hk))

/-- The loop of `compare` returns `0` exactly when every visited index is within epsilon. -/
theorem compareLoop_eq_zero_iff (lhs rhs : Vec T S) (e : T) (he : 0 ≤ e)
    (l : List (Fin S)) :
    compareLoop lhs rhs e l = 0 ↔ ∀ j ∈ l, |lhs j - rhs j| ≤ e := by
  induction l with
  | nil => simp [compareLoop]
  | cons i rest ih =>
    by_cases h : |lhs i - rhs i| ≤ e
    · rw [compareLoop_cons_within lhs rhs e he i rest h, ih]
      simp [h]
    · rw [compareLoop_cons_beyond lhs rhs e he i rest (not_le.mp h)]
      constructor
      · intro h0
        split_ifs at h0
        all_goals exact absurd h0 (by decide)
      · intro hall
        exact absurd (hall i (List.mem_cons_self _ _)) h

/-- The index list `0, ..., S-1` splits at any index `i` into the smaller indices, `i`, and
the rest. -/
theorem finRange_split (i : Fin S) :
    ∃ l1 l2 : List (Fin S), List.finRange S = l1 ++ i :: l2 ∧ ∀ j ∈ l1, j < i := by
  obtain ⟨l1, l2, h⟩ := List.append_of_mem (List.mem_finRange i)
  refine ⟨l1, l2, h, ?_⟩
  have hp : List.Pairwise (· < ·) (List.finRange S) := List.pairwise_lt_finRange S
  rw [h, List.pairwise_append] at hp
  intro j hj
  exact hp.2.2 j hj i (List.mem_cons_self _ _)

/-- The loop of `compare` is antisymmetric under exchange of its arguments. -/
theorem compareLoop_swap (a b : Vec T S) (e : T) (he : 0 ≤ e) (l : List (Fin S)) :
    compareLoop a b e l = -compareLoop b a e l := by
  induction l with
  | nil => simp [compareLoop]
  | cons i rest ih =>
    by_cases h : |a i - b i| ≤ e
    · have h2 : |b i - a i| ≤ e := by rwa [abs_sub_comm]
      rw [compareLoop_cons_within a b e he i rest h,
        compareLoop_cons_within b a e he i rest h2, ih]
    · have h1 : e < |a i - b i| := not_le.mp h
      have h2 : e < |b i - a i| := by rwa [abs_sub_comm]
      rw [compareLoop_cons_beyond a b e he i rest h1,
        compareLoop_cons_beyond b a e he i rest h2]
      have hne : a i ≠ b i := by
        intro heq
        rw [heq, sub_self, abs_zero] at h1
        exact absurd h1 (not_lt.mpr he)
      rcases lt_or_gt_of_ne hne with hlt | hgt
      · simp [hlt, not_lt.mpr (le_of_lt hlt)]
      · simp [hgt, not_lt.mpr (le_of_lt hgt)]

/-- The value of `compare` when `i` is the lowest index whose components differ by more
than epsilon. -/
theorem compare_of_first_beyond (lhs rhs : Vec T S) (e : T) (he : 0 ≤ e) (i : Fin S)
    (hbefore : ∀ j : Fin S, j < i → |lhs j - rhs j| ≤ e) (hi : e < |lhs i - rhs i|) :
    compare lhs rhs e = if lhs i < rhs i then -1 else 1 := by
  obtain ⟨l1, l2, hsplit, hl1⟩ := finRange_split i
  unfold compare
  rw [hsplit, compareLoop_append_within lhs rhs e he l1 _ (fun j hj => hbefore j (hl1 j hj)),
    compareLoop_cons_beyond lhs rhs e he i l2 hi]

/-- The value `0` of `compare`: every index is within epsilon. -/
theorem compare_eq_zero_iff (lhs rhs : Vec T S) (e : T) (he : 0 ≤ e) :
    compare lhs rhs e = 0 ↔ ∀ i : Fin S, |lhs i - rhs i| ≤ e := by
  unfold compare
  rw [compareLoop_eq_zero_iff lhs rhs e he]
  exact ⟨fun h i => h i (List.mem_finRange i), fun h i _ => h i⟩

/-- When `compare` is not `0`, there is a lowest index whose components differ by more than
epsilon. -/
theorem exists_first_beyond (lhs rhs : Vec T S) (e : T) (he : 0 ≤ e)
    (h : compare lhs rhs e ≠ 0) :
    ∃ i : Fin S, (∀ j : Fin S, j < i → |lhs j - rhs j| ≤ e) ∧ e < |lhs i - rhs i| := by
  have hex : ∃ i : Fin S, e < |lhs i - rhs i| := by
    by_contra hno
    push_neg at hno
    exact h ((compare_eq_zero_iff lhs rhs e he).mpr hno)
  obtain ⟨i, hi, hmin⟩ :=
    wellFounded_lt.has_min (setOf fun i : Fin S => e < |lhs i - rhs i|) hex
  refine ⟨i, fun j hj => ?_, hi⟩
  by_contra hjb
  exact hmin j (not_le.mp hjb) hj

/-- C1: for `epsilon >= 0`, `compare(lhs, rhs, epsilon)` is decided by the lowest index `i`
with `|lhs[i] - rhs[i]| > epsilon` (it is `-1` if `lhs[i] < rhs[i]` and `+1` if
`lhs[i] > rhs[i]` there), and it is `0` exactly when no such index exists. -/
theorem compare_decided_by_first_difference (lhs rhs : Vec T S) (epsilon : T)
    (heps : 0 ≤ epsilon) :
    (∀ i : Fin S, (∀ j : Fin S, j < i → |lhs j - rhs j| ≤ epsilon) →
        epsilon < |lhs i - rhs i| →
        (lhs i < rhs i → compare lhs rhs epsilon = -1) ∧
        (lhs i > rhs i → compare lhs rhs epsilon = 1)) ∧
    (compare lhs rhs epsilon = 0 ↔ ¬ ∃ i : Fin S, epsilon < |lhs i - rhs i|) := by
  constructor
  · intro i hbefore hi
    have hval := compare_of_first_beyond lhs rhs epsilon heps i hbefore hi
    constructor
    · intro hlt
      rw [hval, if_pos hlt]
    · intro hgt
      rw [hval, if_neg (not_lt.mpr (le_of_lt hgt))]
  · rw [compare_eq_zero_iff lhs rhs epsilon heps]
    constructor
    · rintro h ⟨i, hi⟩
      exact absurd (h i) (not_le.mpr hi)
    · intro h j
      exact not_lt.mp (fun hj => h ⟨j, hj⟩)

/-- Witness for C1 on `int` vectors: `compare((1,2,3), (1,5,0), 1)`, which is `-1`, decided
at index `1`. -/
theorem compare_decided_by_first_difference_witness :
    (0 : Int) ≤ 1 ∧ compare (Vec.mk3 (1:Int) 2 3) (Vec.mk3 (1:Int) 5 0) 1 = -1 ∧
    ((∀ i : Fin 3, (∀ j : Fin 3, j < i →
          |(Vec.mk3 (1:Int) 2 3) j - (Vec.mk3 (1:Int) 5 0) j| ≤ 1) →
        1 < |(Vec.mk3 (1:Int) 2 3) i - (Vec.mk3 (1:Int) 5 0) i| →
        ((Vec.mk3 (1:Int) 2 3) i < (Vec.mk3 (1:Int) 5 0) i →
          compare (Vec.mk3 (1:Int) 2 3) (Vec.mk3 (1:Int) 5 0) 1 = -1) ∧
        ((Vec.mk3 (1:Int) 2 3) i > (Vec.mk3 (1:Int) 5 0) i →
          compare (Vec.mk3 (1:Int) 2 3) (Vec.mk3 (1:Int) 5 0) 1 = 1)) ∧
      (compare (Vec.mk3 (1:Int) 2 3) (Vec.mk3 (1:Int) 5 0) 1 = 0 ↔
        ¬ ∃ i : Fin 3, 1 < |(Vec.mk3 (1:Int) 2 3) i - (Vec.mk3 (1:Int) 5 0) i|)) :=
  ⟨by decide, by decide, compare_decided_by_first_difference _ _ 1 (by decide)⟩

/-- C2: for `epsilon >= 0`, `compare(a, b, epsilon) == -compare(b, a, epsilon)`. -/
theorem compare_antisymmetric (a b : Vec T S) (epsilon : T) (heps : 0 ≤ epsilon) :
    compare a b epsilon = -compare b a epsilon :=
  compareLoop_swap a b epsilon heps (List.finRange S)

/-- Witness for C2 on `int` vectors: `compare((1,2,3), (1,5,0), 1)` is `-1` and
`compare((1,5,0), (1,2,3), 1)` is `1`. -/
theorem compare_antisymmetric_witness :
    (0 : Int) ≤ 1 ∧ compare (Vec.mk3 (1:Int) 5 0) (Vec.mk3 (1:Int) 2 3) 1 = 1 ∧
    compare (Vec.mk3 (1:Int) 2 3) (Vec.mk3 (1:Int) 5 0) 1
      = -compare (Vec.mk3 (1:Int) 5 0) (Vec.mk3 (1:Int) 2 3) 1 :=
  ⟨by decide, by decide, compare_antisymmetric _ _ 1 (by decide)⟩

/-- With epsilon `0`, `compare` is `0` exactly on componentwise equal vectors. -/
theorem compare_zero_eq_zero_iff (a b : Vec T S) :
    compare a b 0 = 0 ↔ ∀ i : Fin S, a i = b i := by
  rw [compare_eq_zero_iff a b 0 le_rfl]
  constructor
  · intro h i
    exact sub_eq_zero.mp (abs_nonpos_iff.mp (h i))
  · intro h i
    rw [h i, sub_self, abs_zero]

/-- With epsilon `0`, `compare` is negative exactly when the left vector has the smaller
component at the first index where the two differ. -/
theorem compare_zero_neg_iff (a b : Vec T S) :
    compare a b 0 < 0 ↔ ∃ i : Fin S, (∀ j : Fin S, j < i → a j = b j) ∧ a i < b i := by
  constructor
  · intro h
    obtain ⟨i, hbefore, hi⟩ := exists_first_beyond a b 0 le_rfl (ne_of_lt h)
    refine ⟨i, fun j hj => sub_eq_zero.mp (abs_nonpos_iff.mp (hbefore j hj)), ?_⟩
    by_contra hlt
    rw [compare_of_first_beyond a b 0 le_rfl i hbefore hi, if_neg hlt] at h
    exact absurd h (by decide)
  · rintro ⟨i, hbefore, hlt⟩
    have hb : ∀ j : Fin S, j < i → |a j - b j| ≤ 0 := by
      intro j hj
      rw [hbefore j hj, sub_self, abs_zero]
    have hi : (0 : T) < |a i - b i| := abs_pos.mpr (sub_ne_zero.mpr (ne_of_lt hlt))
    rw [compare_of_first_beyond a b 0 le_rfl i hb hi, if_pos hlt]
    decide

/-- C3: the relational operators are the exact (epsilon `0`) lexicographic order: `a == b`
iff all components are equal, `a < b` iff `a` has the smaller component at the first index
where they differ, exactly one of `a < b`, `a == b`, `a > b` holds, and `!=`, `<=`, `>=` are
the negations of `==`, `>`, `<`. -/
theorem relational_operators_exact_lexicographic (a b : Vec T S) :
    (operator_eq a b = true ↔ ∀ i : Fin S, a i = b i) ∧
    (operator_lt a b = true ↔
      ∃ i : Fin S, (∀ j : Fin S, j < i → a j = b j) ∧ a i < b i) ∧
    ((operator_lt a b = true ∧ operator_eq a b = false ∧ operator_gt a b = false) ∨
      (operator_lt a b = false ∧ operator_eq a b = true ∧ operator_gt a b = false) ∨
      (operator_lt a b = false ∧ operator_eq a b = false ∧ operator_gt a b = true)) ∧
    operator_ne a b = !operator_eq a b ∧
    operator_le a b = !operator_gt a b ∧
    operator_ge a b = !operator_lt a b := by
  refine ⟨?_, ?_, ?_, ?_, ?_, ?_⟩
  · rw [← compare_zero_eq_zero_iff]
    simp [operator_eq]
  · rw [← compare_zero_neg_iff]
    simp [operator_lt]
  · unfold operator_lt operator_eq operator_gt
    rcases lt_trichotomy (compare a b 0) 0 with h | h | h
    · left
      simp [h, ne_of_lt h, le_of_lt h]
    · right; left
      simp [h]
    · right; right
      simp [h, ne_of_gt h, le_of_lt h]
  · simp [operator_ne, operator_eq]
  · unfold operator_le operator_gt
    by_cases h : compare a b 0 ≤ 0
    · simp [h, not_lt.mpr h]
    · simp [h, not_le.mp h]
  · unfold operator_ge operator_lt
    by_cases h : compare a b 0 < 0
    · simp [h, not_le.mpr h]
    · simp [h, not_lt.mp h]

end CompareProofs

/-! ## Proofs: `colinear` -/

section ColinearProofs

variable {T : Type} [LinearOrderedField T] {S : Nat}

theorem Vec.sub_apply {R : Type} [Sub R] (a b : Vec R S) (i : Fin S) :
    (a - b) i = a i - b i := rfl

theorem Vec.add_apply {R : Type} [Add R] (a b : Vec R S) (i : Fin S) :
    (a + b) i = a i + b i := rfl

/-- The loop of `Vec::equals` returns true exactly when every visited index is within
epsilon. -/
theorem Vec.equalsLoop_eq_true_iff (v other : Vec T S) (e : T) (l : List (Fin S)) :
    Vec.equalsLoop v other e l = true ↔ ∀ i ∈ l, |v i - other i| ≤ e := by
  induction l with
  | nil => simp [Vec.equalsLoop]
  | cons i rest ih =>
    by_cases h : |v i - other i| > e
    · simp only [Vec.equalsLoop, std.abs_eq_abs, if_pos h]
      constructor
      · intro hf
        exact absurd hf (by decide)
      · intro hall
        exact absurd (hall i (List.mem_cons_self _ _)) (not_le.mpr h)
    · simp only [Vec.equalsLoop, std.abs_eq_abs, if_neg h, ih, List.mem_cons,
        forall_eq_or_imp]
      exact ⟨fun hr => ⟨not_lt.mp h, hr⟩, fun hr => hr.2⟩

/-- `Vec::equals` returns true exactly when all components are within epsilon. -/
theorem Vec.equals_eq_true_iff (v other : Vec T S) (e : T) :
    Vec.equals v other e = true ↔ ∀ i : Fin S, |v i - other i| ≤ e := by
  unfold Vec.equals
  rw [Vec.equalsLoop_eq_true_iff]
  exact ⟨fun h i => h i (List.mem_finRange i), fun h i _ => h i⟩

/-- On exact scalars `colinear` accepts every triple of points: the two edge vectors always
sum to the direct vector. -/
theorem colinear_eq_true (p1 p2 p3 : Vec T S) (e : T) (he : 0 ≤ e) :
    colinear p1 p2 p3 e = true := by
  unfold colinear
  rw [Vec.equals_eq_true_iff]
  intro i
  have h0 : (p3 - p1) i - ((p2 - p1) + (p3 - p2)) i = 0 := by
    simp only [Vec.sub_apply, Vec.add_apply]
    ring
  rw [h0, abs_zero]
  exact he

/-- C4 (evaluation of the code): `colinear((0,0,0), (1,0,0), (0,1,0), epsilon)` returns
true for every epsilon `>= 0`, although the three points are not on a line. -/
theorem colinear_unit_triangle (epsilon : T) (heps : 0 ≤ epsilon) :
    colinear (Vec.mk3 (0:T) 0 0) (Vec.mk3 1 0 0) (Vec.mk3 0 1 0) epsilon = true :=
  colinear_eq_true _ _ _ epsilon heps

/-- Witness for C4 on rational scalars with epsilon `0.00001`. -/
theorem colinear_unit_triangle_witness :
    (0 : ℚ) ≤ 1 / 100000 ∧
    colinear (Vec.mk3 (0:ℚ) 0 0) (Vec.mk3 1 0 0) (Vec.mk3 0 1 0) (1 / 100000) = true :=
  ⟨by norm_num, colinear_unit_triangle (1 / 100000) (by norm_num)⟩

/-- C5 (as amended): in exact arithmetic, for every point `p`, every direction `d` (nonzero
or not) and every epsilon `>= 0`, `colinear(p, p + d, p + 2d, epsilon)` returns true. -/
theorem colinear_equally_spaced (p d : Vec T S) (epsilon : T) (heps : 0 ≤ epsilon) :
    colinear p (p + d) (p + d.mulScalar 2) epsilon = true :=
  colinear_eq_true _ _ _ epsilon heps

/-- Witness for C5: `p = (1,2,3)`, `d = (1,0,-1)`, epsilon `0.00001`. -/
theorem colinear_equally_spaced_witness :
    (0 : ℚ) ≤ 1 / 100000 ∧
    colinear (Vec.mk3 (1:ℚ) 2 3) (Vec.mk3 (1:ℚ) 2 3 + Vec.mk3 1 0 (-1))
      (Vec.mk3 (1:ℚ) 2 3 + (Vec.mk3 (1:ℚ) 0 (-1)).mulScalar 2) (1 / 100000) = true :=
  ⟨by norm_num, colinear_equally_spaced _ _ (1 / 100000) (by norm_num)⟩

end ColinearProofs

/-! ## Proofs: `dot`, `length` and `planeNormal` -/

section PlaneNormalProofs

variable {T : Type} [LinearOrderedField T] {S : Nat}

/-- The accumulation loop of `dot` started at `r` adds the sum of the products. -/
theorem foldl_add_eq_sum {ι R : Type} [AddCommMonoid R] (f : ι → R) (l : List ι) (r : R) :
    l.foldl (fun result i => result + f i) r = r + (l.map f).sum := by
  induction l generalizing r with
  | nil => simp
  | cons i rest ih => simp [ih, add_assoc]

/-- The function `dot` is the sum of the componentwise products. -/
theorem dot_eq_sum {R : Type} [CommSemiring R] (lhs rhs : Vec R S) :
    dot lhs rhs = ∑ i : Fin S, lhs i * rhs i := by
  unfold dot
  rw [foldl_add_eq_sum (fun i => lhs i * rhs i), zero_add, Fin.sum_univ_def]

theorem dot_three {R : Type} [CommSemiring R] (lhs rhs : Vec R 3) :
    dot lhs rhs = lhs 0 * rhs 0 + lhs 1 * rhs 1 + lhs 2 * rhs 2 := by
  rw [dot_eq_sum, Fin.sum_univ_three]

theorem Vec.squaredLength_nonneg (v : Vec T S) : 0 ≤ v.squaredLength := by
  unfold Vec.squaredLength
  rw [dot_eq_sum]
  exact Finset.sum_nonneg (fun i _ => mul_self_nonneg (v i))

theorem IsSqrt.zero {sqrt : T → T} (hs : IsSqrt sqrt) : sqrt 0 = 0 :=
  mul_self_eq_zero.mp (hs 0 le_rfl).2

theorem IsSqrt.one {sqrt : T → T} (hs : IsSqrt sqrt) : sqrt 1 = 1 := by
  obtain ⟨h0, h1⟩ := hs 1 zero_le_one
  have h : (sqrt 1 - 1) * (sqrt 1 + 1) = 0 := by ring_nf; rw [pow_two, h1]; ring
  rcases mul_eq_zero.mp h with h | h
  · exact sub_eq_zero.mp h
  · linarith

theorem Vec.length_nonneg {sqrt : T → T} (hs : IsSqrt sqrt) (v : Vec T S) :
    0 ≤ v.length sqrt :=
  (hs _ v.squaredLength_nonneg).1

theorem Vec.length_mul_self {sqrt : T → T} (hs : IsSqrt sqrt) (v : Vec T S) :
    v.length sqrt * v.length sqrt = dot v v :=
  (hs _ v.squaredLength_nonneg).2

/-- The real square root is a square root in the sense of `IsSqrt`. -/
theorem isSqrt_real : IsSqrt Real.sqrt :=
  fun x hx => ⟨Real.sqrt_nonneg x, Real.mul_self_sqrt hx⟩

/-- The value of `planeNormal` on `(0,0,0), (1,0,0), (0,1,0)`: success with normal
`(0,0,-1)`. -/
theorem planeNormal_unit_triangle (sqrt : T → T) (hs : IsSqrt sqrt) (e : T) (he : e ≤ 1) :
    planeNormal sqrt (Vec.mk3 0 0 0) (Vec.mk3 1 0 0) (Vec.mk3 0 1 0) e
      = (true, Vec.mk3 0 0 (-1)) := by
  have hn : cross (Vec.mk3 (0:T) 1 0 - Vec.mk3 0 0 0) (Vec.mk3 (1:T) 0 0 - Vec.mk3 0 0 0)
      = Vec.mk3 0 0 (-1) := by
    funext i
    fin_cases i <;> simp [cross, Vec.mk3, Vec.sub_apply]
  have h1 : (Vec.mk3 (0:T) 1 0 - Vec.mk3 0 0 0).length sqrt = 1 := by
    simp [Vec.length, Vec.squaredLength, dot_three, Vec.mk3, Vec.sub_apply, hs.one]
  have h2 : (Vec.mk3 (1:T) 0 0 - Vec.mk3 0 0 0).length sqrt = 1 := by
    simp [Vec.length, Vec.squaredLength, dot_three, Vec.mk3, Vec.sub_apply, hs.one]
  have h3 : (Vec.mk3 (0:T) 0 (-1)).length sqrt = 1 := by
    simp [Vec.length, Vec.squaredLength, dot_three, Vec.mk3, hs.one]
  have h4 : (Vec.mk3 (0:T) 0 (-1)).normalize sqrt = Vec.mk3 0 0 (-1) := by
    funext i
    simp [Vec.normalize, Vec.divScalar, h3]
  simp only [planeNormal, Math.abs_exact, hn, h1, h2, h3, h4]
  simp [not_lt.mpr he]

/-- C6: `planeNormal` on `(0,0,0), (1,0,0), (0,1,0)`, with an epsilon that is at most `1`,
returns true and sets the normal to `(0,0,1)` or to `(0,0,-1)` (it is `(0,0,-1)`). -/
theorem planeNormal_unit_triangle_succeeds (sqrt : T → T) (hs : IsSqrt sqrt) (epsilon : T)
    (heps : epsilon ≤ 1) :
    (planeNormal sqrt (Vec.mk3 0 0 0) (Vec.mk3 1 0 0) (Vec.mk3 0 1 0) epsilon).1 = true ∧
    ((planeNormal sqrt (Vec.mk3 0 0 0) (Vec.mk3 1 0 0) (Vec.mk3 0 1 0) epsilon).2
        = Vec.mk3 0 0 1 ∨
      (planeNormal sqrt (Vec.mk3 0 0 0) (Vec.mk3 1 0 0) (Vec.mk3 0 1 0) epsilon).2
        = Vec.mk3 0 0 (-1)) := by
  rw [planeNormal_unit_triangle sqrt hs epsilon heps]
  exact ⟨rfl, Or.inr rfl⟩

/-- Witness for C6 on real scalars with epsilon `0.00000001`. -/
theorem planeNormal_unit_triangle_succeeds_witness :
    IsSqrt Real.sqrt ∧ (1 / 100000000 : ℝ) ≤ 1 ∧
    (planeNormal Real.sqrt (Vec.mk3 0 0 0) (Vec.mk3 1 0 0) (Vec.mk3 0 1 0)
        (1 / 100000000)).1 = true ∧
    ((planeNormal Real.sqrt (Vec.mk3 0 0 0) (Vec.mk3 1 0 0) (Vec.mk3 0 1 0)
          (1 / 100000000)).2 = Vec.mk3 0 0 1 ∨
      (planeNormal Real.sqrt (Vec.mk3 0 0 0) (Vec.mk3 1 0 0) (Vec.mk3 0 1 0)
          (1 / 100000000)).2 = Vec.mk3 0 0 (-1)) :=
  ⟨isSqrt_real, by norm_num,
    planeNormal_unit_triangle_succeeds Real.sqrt isSqrt_real (1 / 100000000) (by norm_num)⟩

theorem Vec.neg_apply {R : Type} [Neg R] (a : Vec R S) (i : Fin S) : (-a) i = -a i := rfl

/-- The cross product of two multiples of one direction is the zero vector. -/
theorem cross_of_parallel (d : Vec T 3) (s t : T) :
    cross (d.mulScalar t) (d.mulScalar s) = Vec.mk3 0 0 0 := by
  funext i
  fin_cases i <;> simp [cross, Vec.mk3, Vec.mulScalar] <;> ring

theorem Vec.add_mulScalar_sub_self (p d : Vec T S) (s : T) :
    p + d.mulScalar s - p = d.mulScalar s := by
  funext i
  simp [Vec.sub_apply, Vec.add_apply]

theorem Vec.length_zero3 {sqrt : T → T} (hs : IsSqrt sqrt) :
    (Vec.mk3 (0:T) 0 0).length sqrt = 0 := by
  simp [Vec.length, Vec.squaredLength, dot_three, Vec.mk3, hs.zero]

/-- C7 (as amended): in exact arithmetic, for every epsilon `> 0` and every three collinear
points, written as `p0`, `p1 = p0 + s d` and `p2 = p0 + t d` for a direction `d` and scalars
`s`, `t` (two or all three points may coincide), `planeNormal` returns false. -/
theorem planeNormal_collinear_fails (sqrt : T → T) (hs : IsSqrt sqrt) (p0 p1 p2 d : Vec T 3)
    (s t epsilon : T) (heps : 0 < epsilon) (h1 : p1 = p0 + d.mulScalar s)
    (h2 : p2 = p0 + d.mulScalar t) :
    (planeNormal sqrt p0 p1 p2 epsilon).1 = false := by
  subst h1 h2
  simp only [planeNormal, Math.abs_exact, Vec.add_mulScalar_sub_self, cross_of_parallel,
    Vec.length_zero3 hs, zero_div, abs_zero]
  simp [heps]

/-- Witness for C7 on real scalars: the points `(1,2,3)`, `(3,2,1)`, `(0,2,4)` on the line
through `(1,2,3)` with direction `(1,0,-1)`. -/
theorem planeNormal_collinear_fails_witness :
    IsSqrt Real.sqrt ∧ (0 : ℝ) < 1 / 100000000 ∧
    Vec.mk3 (3:ℝ) 2 1 = Vec.mk3 (1:ℝ) 2 3 + (Vec.mk3 (1:ℝ) 0 (-1)).mulScalar 2 ∧
    Vec.mk3 (0:ℝ) 2 4 = Vec.mk3 (1:ℝ) 2 3 + (Vec.mk3 (1:ℝ) 0 (-1)).mulScalar (-1) ∧
    (planeNormal Real.sqrt (Vec.mk3 1 2 3) (Vec.mk3 3 2 1) (Vec.mk3 0 2 4)
      (1 / 100000000)).1 = false :=
  have h1 : Vec.mk3 (3:ℝ) 2 1
      = Vec.mk3 (1:ℝ) 2 3 + (Vec.mk3 (1:ℝ) 0 (-1)).mulScalar 2 := by
    funext i
    fin_cases i <;> norm_num [Vec.mk3, Vec.add_apply, Vec.mulScalar]
  have h2 : Vec.mk3 (0:ℝ) 2 4
      = Vec.mk3 (1:ℝ) 2 3 + (Vec.mk3 (1:ℝ) 0 (-1)).mulScalar (-1) := by
    funext i
    fin_cases i <;> norm_num [Vec.mk3, Vec.add_apply, Vec.mulScalar]
  ⟨isSqrt_real, by norm_num, h1, h2,
    planeNormal_collinear_fails Real.sqrt isSqrt_real _ _ _ (Vec.mk3 1 0 (-1)) 2 (-1)
      (1 / 100000000) (by norm_num) h1 h2⟩

theorem dot_divScalar_left (v w : Vec T S) (c : T) :
    dot (v.divScalar c) w = dot v w / c := by
  rw [dot_eq_sum, dot_eq_sum, Finset.sum_div]
  exact Finset.sum_congr rfl (fun i _ => by simp [Vec.divScalar, div_mul_eq_mul_div])

theorem cross_swap (a b : Vec T 3) : cross a b = -cross b a := by
  funext i
  fin_cases i <;> simp [cross, Vec.mk3, Vec.neg_apply] <;> ring

theorem dot_neg_right (a b : Vec T 3) : dot a (-b) = -dot a b := by
  rw [dot_three, dot_three]
  simp only [Vec.neg_apply]
  ring

/-- On the success path of `planeNormal` with a positive epsilon the cross product has a
positive length, and the returned normal is the cross product divided by that length. -/
theorem planeNormal_success (sqrt : T → T) (hs : IsSqrt sqrt) (p0 p1 p2 : Vec T 3) (e : T)
    (he : 0 < e) (hok : (planeNormal sqrt p0 p1 p2 e).1 = true) :
    0 < (cross (p2 - p0) (p1 - p0)).length sqrt ∧
    (planeNormal sqrt p0 p1 p2 e).2
      = (cross (p2 - p0) (p1 - p0)).divScalar ((cross (p2 - p0) (p1 - p0)).length sqrt) := by
  unfold planeNormal at hok ⊢
  simp only [Math.abs_exact] at hok ⊢
  by_cases hc : (decide ((p2 - p0).length sqrt * (p1 - p0).length sqrt = 0 ∧
        (cross (p2 - p0) (p1 - p0)).length sqrt = 0) ||
      decide ((p2 - p0).length sqrt * (p1 - p0).length sqrt = 0 ∧
        (cross (p2 - p0) (p1 - p0)).length sqrt ≠ 0) ||
      decide (|(cross (p2 - p0) (p1 - p0)).length sqrt /
        ((p2 - p0).length sqrt * (p1 - p0).length sqrt)| < e)) = true
  · rw [if_pos hc] at hok
    exact absurd hok Bool.false_ne_true
  · rw [if_neg hc]
    simp only [Bool.or_eq_true, decide_eq_true_eq, not_or, not_lt] at hc
    obtain ⟨_, hsin⟩ := hc
    refine ⟨?_, rfl⟩
    have hnum : (cross (p2 - p0) (p1 - p0)).length sqrt ≠ 0 := by
      intro h0
      rw [h0, zero_div, abs_zero] at hsin
      exact absurd hsin (not_le.mpr he)
    exact lt_of_le_of_ne (Vec.length_nonneg hs _) (Ne.symm hnum)

/-- C8 (as amended): for epsilon `> 0`, on every triple on which `planeNormal` succeeds the
returned normal has a strictly positive dot product with `cross(p2 - p0, p1 - p0)`, hence a
strictly negative one with `cross(p1 - p0, p2 - p0)`. -/
theorem planeNormal_orientation (sqrt : T → T) (hs : IsSqrt sqrt) (p0 p1 p2 : Vec T 3)
    (epsilon : T) (heps : 0 < epsilon)
    (hok : (planeNormal sqrt p0 p1 p2 epsilon).1 = true) :
    0 < dot (planeNormal sqrt p0 p1 p2 epsilon).2 (cross (p2 - p0) (p1 - p0)) ∧
    dot (planeNormal sqrt p0 p1 p2 epsilon).2 (cross (p1 - p0) (p2 - p0)) < 0 := by
  obtain ⟨hpos, hval⟩ := planeNormal_success sqrt hs p0 p1 p2 epsilon heps hok
  have hd : dot (planeNormal sqrt p0 p1 p2 epsilon).2 (cross (p2 - p0) (p1 - p0))
      = (cross (p2 - p0) (p1 - p0)).length sqrt := by
    rw [hval, dot_divScalar_left, ← Vec.length_mul_self hs, mul_div_assoc,
      div_self (ne_of_gt hpos), mul_one]
  constructor
  · rw [hd]
    exact hpos
  · rw [cross_swap (p1 - p0) (p2 - p0), dot_neg_right, hd]
    exact neg_neg_of_pos hpos

/-- Witness for C8 (as amended) on real scalars: the triple `(0,0,0), (1,0,0), (0,1,0)`. -/
theorem planeNormal_orientation_witness :
    IsSqrt Real.sqrt ∧ (0 : ℝ) < 1 / 100000000 ∧
    (planeNormal Real.sqrt (Vec.mk3 0 0 0) (Vec.mk3 1 0 0) (Vec.mk3 0 1 0)
      (1 / 100000000)).1 = true ∧
    0 < dot (planeNormal Real.sqrt (Vec.mk3 0 0 0) (Vec.mk3 1 0 0) (Vec.mk3 0 1 0)
        (1 / 100000000)).2
      (cross (Vec.mk3 (0:ℝ) 1 0 - Vec.mk3 0 0 0) (Vec.mk3 (1:ℝ) 0 0 - Vec.mk3 0 0 0)) ∧
    dot (planeNormal Real.sqrt (Vec.mk3 0 0 0) (Vec.mk3 1 0 0) (Vec.mk3 0 1 0)
        (1 / 100000000)).2
      (cross (Vec.mk3 (1:ℝ) 0 0 - Vec.mk3 0 0 0) (Vec.mk3 (0:ℝ) 1 0 - Vec.mk3 0 0 0)) < 0 :=
  have hok : (planeNormal Real.sqrt (Vec.mk3 0 0 0) (Vec.mk3 1 0 0) (Vec.mk3 0 1 0)
      (1 / 100000000)).1 = true := by
    rw [planeNormal_unit_triangle Real.sqrt isSqrt_real _ (by norm_num)]
  ⟨isSqrt_real, by norm_num, hok,
    planeNormal_orientation Real.sqrt isSqrt_real _ _ _ (1 / 100000000) (by norm_num) hok⟩

/-- C8 (counterexample): on `(0,0,0), (1,0,0), (0,1,0)` `planeNormal` succeeds, and the
dot product of the returned normal with `cross(p1 - p0, p2 - p0)` is `-1`, not positive. -/
theorem planeNormal_right_hand_rule_counterexample :
    (planeNormal Real.sqrt (Vec.mk3 0 0 0) (Vec.mk3 1 0 0) (Vec.mk3 0 1 0)
      (1 / 100000000)).1 = true ∧
    dot (planeNormal Real.sqrt (Vec.mk3 0 0 0) (Vec.mk3 1 0 0) (Vec.mk3 0 1 0)
        (1 / 100000000)).2
      (cross (Vec.mk3 (1:ℝ) 0 0 - Vec.mk3 0 0 0) (Vec.mk3 (0:ℝ) 1 0 - Vec.mk3 0 0 0)) = -1 ∧
    ¬ (0 < dot (planeNormal Real.sqrt (Vec.mk3 0 0 0) (Vec.mk3 1 0 0) (Vec.mk3 0 1 0)
          (1 / 100000000)).2
        (cross (Vec.mk3 (1:ℝ) 0 0 - Vec.mk3 0 0 0) (Vec.mk3 (0:ℝ) 1 0 - Vec.mk3 0 0 0))) := by
  rw [planeNormal_unit_triangle Real.sqrt isSqrt_real _ (by norm_num)]
  have hd : dot (Vec.mk3 (0:ℝ) 0 (-1))
      (cross (Vec.mk3 (1:ℝ) 0 0 - Vec.mk3 0 0 0) (Vec.mk3 (0:ℝ) 1 0 - Vec.mk3 0 0 0))
      = -1 := by
    simp [dot_three, cross, Vec.mk3, Vec.sub_apply]
  refine ⟨rfl, hd, ?_⟩
  rw [hd]
  norm_num

end PlaneNormalProofs

/-! ## Proofs: the two linear-dependence tests -/

section LinearlyDependentProofs

variable {T : Type} [LinearOrderedField T] {S : Nat}

/-- The three accumulators of the loop of `linearlyDependent1`, started at `r`. -/
theorem foldl_triple_eq_sums {ι : Type} (f g h : ι → T) (l : List ι) (r : T × T × T) :
    l.foldl (fun acc i => (acc.1 + f i, acc.2.1 + g i, acc.2.2 + h i)) r
      = (r.1 + (l.map f).sum, r.2.1 + (l.map g).sum, r.2.2 + (l.map h).sum) := by
  induction l generalizing r with
  | nil => simp
  | cons i rest ih => simp [ih, add_assoc]

/-- The accumulators `(j, k, l)` of `linearlyDependent1` as sums over the components. -/
theorem linearlyDependent1Sums_eq (a b c : Vec T S) :
    linearlyDependent1Sums a b c
      = (∑ i : Fin S, (a i - c i) * (b i - a i),
         ∑ i : Fin S, (a i - c i) * (a i - c i),
         ∑ i : Fin S, (b i - a i) * (b i - a i)) := by
  unfold linearlyDependent1Sums
  rw [foldl_triple_eq_sums (fun i => (a i - c i) * (b i - a i))
    (fun i => (a i - c i) * (a i - c i)) (fun i => (b i - a i) * (b i - a i))]
  simp only [zero_add, Fin.sum_univ_def]

theorem linearlyDependent1Discriminant_eq (a b c : Vec T S) :
    linearlyDependent1Discriminant a b c
      = (∑ i : Fin S, (a i - c i) * (b i - a i)) * (∑ i : Fin S, (a i - c i) * (b i - a i))
        - (∑ i : Fin S, (a i - c i) * (a i - c i))
          * (∑ i : Fin S, (b i - a i) * (b i - a i)) := by
  unfold linearlyDependent1Discriminant
  rw [linearlyDependent1Sums_eq]

theorem squaredLength_ca (a c : Vec T S) :
    dot (c - a) (c - a) = ∑ i : Fin S, (a i - c i) * (a i - c i) := by
  rw [dot_eq_sum]
  exact Finset.sum_congr rfl (fun i _ => by simp only [Vec.sub_apply]; ring)

theorem squaredLength_ba (a b : Vec T S) :
    dot (b - a) (b - a) = ∑ i : Fin S, (b i - a i) * (b i - a i) := by
  rw [dot_eq_sum]
  exact Finset.sum_congr rfl (fun i _ => by simp only [Vec.sub_apply])

theorem squaredLength_cb (a b c : Vec T S) :
    dot (c - b) (c - b)
      = (∑ i : Fin S, (a i - c i) * (a i - c i)) + (∑ i : Fin S, (b i - a i) * (b i - a i))
        + 2 * ∑ i : Fin S, (a i - c i) * (b i - a i) := by
  rw [dot_eq_sum, Finset.mul_sum, ← Finset.sum_add_distrib, ← Finset.sum_add_distrib]
  exact Finset.sum_congr rfl (fun i _ => by simp only [Vec.sub_apply]; ring)

/-- For nonnegative `x`, `y`, `z` with squares `K`, `L` and `K + L + 2J`: one of them is the
sum of the other two exactly when `J * J - K * L = 0`. -/
theorem sum_of_two_iff_discriminant (x y z J K L : T) (hx : 0 ≤ x) (hy : 0 ≤ y) (hz : 0 ≤ z)
    (hK : x * x = K) (hL : y * y = L) (hM : z * z = K + L + 2 * J) :
    (x = z + y ∨ y = x + z ∨ z = x + y) ↔ J * J - K * L = 0 := by
  have hJ : J = (z * z - x * x - y * y) / 2 := by rw [hM, hK, hL]; ring
  constructor
  · rintro (h | h | h)
    · rw [hJ, ← hK, ← hL, h]; ring
    · rw [hJ, ← hK, ← hL, h]; ring
    · rw [hJ, ← hK, ← hL, h]; ring
  · intro hd
    have hprod : (x * y - J) * (x * y + J) = 0 := by
      have : (x * y - J) * (x * y + J) = K * L - J * J := by rw [← hK, ← hL]; ring
      rw [this]; linarith
    rcases mul_eq_zero.mp hprod with h | h
    · have hJ2 : J = x * y := by linarith
      have hsq : (z - (x + y)) * (z + (x + y)) = 0 := by
        have : (z - (x + y)) * (z + (x + y)) = z * z - (x * x + y * y + 2 * (x * y)) := by
          ring
        rw [this, hM, hK, hL, hJ2]; ring
      rcases mul_eq_zero.mp hsq with h2 | h2
      · right; right; linarith
      · right; right; linarith
    · have hJ2 : J = -(x * y) := by linarith
      have hsq : (z - (x - y)) * (z - (y - x)) = 0 := by
        have : (z - (x - y)) * (z - (y - x)) = z * z - (x * x + y * y - 2 * (x * y)) := by
          ring
        rw [this, hM, hK, hL, hJ2]; ring
      rcases mul_eq_zero.mp hsq with h2 | h2
      · left; linarith
      · right; left; linarith

/-- The branches of `linearlyDependent2` on nonnegative lengths `ac`, `bc`, `ab`: the result
is true exactly when one length is the sum of the other two. -/
theorem linearlyDependent2_branches (ac bc ab : T) (hac : 0 ≤ ac) (hbc : 0 ≤ bc)
    (hab : 0 ≤ ab) :
    (if ac > bc then
        if ac > ab then decide (ac = bc + ab)
        else if ab > ac then decide (ab = ac + bc)
        else decide (ac = ab + bc)
      else if bc > ac then
        if bc > ab then decide (bc = ac + ab)
        else if ab > bc then decide (ab = bc + ac)
        else decide (ab = bc + ac)
      else
        if ab > ac then decide (ab = ac + bc)
        else decide (bc = ac + ab)) = true
      ↔ (ac = bc + ab ∨ ab = ac + bc ∨ bc = ac + ab) := by
  split_ifs with h1 h2 h3 h4 h5 h6 h7 <;> simp only [decide_eq_true_eq] <;> constructor
  all_goals intro h
  all_goals first
    | (rcases h with h | h | h <;> linarith)
    | (left; linarith)
    | (right; left; linarith)
    | (right; right; linarith)

/-- The function `linearlyDependent2` returns true exactly when the discriminant of
`linearlyDependent1` is `0`. -/
theorem linearlyDependent2_eq_true_iff (sqrt : T → T) (hs : IsSqrt sqrt) (a b c : Vec T S) :
    linearlyDependent2 sqrt a b c = true ↔ linearlyDependent1Discriminant a b c = 0 := by
  unfold linearlyDependent2
  simp only
  rw [linearlyDependent2_branches _ _ _ (Vec.length_nonneg hs _) (Vec.length_nonneg hs _)
    (Vec.length_nonneg hs _), linearlyDependent1Discriminant_eq]
  exact sum_of_two_iff_discriminant _ _ _ _ _ _ (Vec.length_nonneg hs _)
    (Vec.length_nonneg hs _) (Vec.length_nonneg hs _)
    ((Vec.length_mul_self hs _).trans (squaredLength_ca a c))
    ((Vec.length_mul_self hs _).trans (squaredLength_ba a b))
    ((Vec.length_mul_self hs _).trans (squaredLength_cb a b c))

/-- The function `linearlyDependent1` returns true exactly when its discriminant is at most
`colinearEpsilon` in magnitude. -/
theorem linearlyDependent1_eq_true_iff (e : T) (a b c : Vec T S) :
    linearlyDependent1 e a b c = true ↔ |linearlyDependent1Discriminant a b c| ≤ e := by
  simp [linearlyDependent1, Math.zero, std.abs_eq_abs]

/-- The discriminant of `linearlyDependent1` is `0` on `p`, `p + s d`, `p + t d`. -/
theorem linearlyDependent1Discriminant_collinear (p d : Vec T S) (s t : T) :
    linearlyDependent1Discriminant p (p + d.mulScalar s) (p + d.mulScalar t) = 0 := by
  rw [linearlyDependent1Discriminant_eq]
  have hj : ∑ i : Fin S, (p i - (p + d.mulScalar t) i) * ((p + d.mulScalar s) i - p i)
      = -(t * s) * ∑ i : Fin S, d i * d i := by
    rw [Finset.mul_sum]
    exact Finset.sum_congr rfl
      (fun i _ => by simp only [Vec.add_apply, Vec.mulScalar]; ring)
  have hk : ∑ i : Fin S, (p i - (p + d.mulScalar t) i) * (p i - (p + d.mulScalar t) i)
      = (t * t) * ∑ i : Fin S, d i * d i := by
    rw [Finset.mul_sum]
    exact Finset.sum_congr rfl
      (fun i _ => by simp only [Vec.add_apply, Vec.mulScalar]; ring)
  have hl : ∑ i : Fin S, ((p + d.mulScalar s) i - p i) * ((p + d.mulScalar s) i - p i)
      = (s * s) * ∑ i : Fin S, d i * d i := by
    rw [Finset.mul_sum]
    exact Finset.sum_congr rfl
      (fun i _ => by simp only [Vec.add_apply, Vec.mulScalar]; ring)
  rw [hj, hk, hl]
  ring

/-- The discriminant of `linearlyDependent1` on `(0,0,0)`, `(1,0,0)`, `(0,t,0)`. -/
theorem linearlyDependent1Discriminant_right_angle (t : T) :
    linearlyDependent1Discriminant (Vec.mk3 (0:T) 0 0) (Vec.mk3 1 0 0) (Vec.mk3 0 t 0)
      = -(t * t) := by
  rw [linearlyDependent1Discriminant_eq]
  simp [Fin.sum_univ_three, Vec.mk3]

/-- For every positive `colinearEpsilon` the two tests disagree on some triple: on
`(0,0,0)`, `(1,0,0)`, `(0,t,0)` with `t = min 1 colinearEpsilon`. -/
theorem linearlyDependent_disagree (sqrt : T → T) (hs : IsSqrt sqrt) (e : T) (he : 0 < e) :
    linearlyDependent1 e (Vec.mk3 (0:T) 0 0) (Vec.mk3 1 0 0) (Vec.mk3 0 (min 1 e) 0) = true ∧
    linearlyDependent2 sqrt (Vec.mk3 (0:T) 0 0) (Vec.mk3 1 0 0) (Vec.mk3 0 (min 1 e) 0)
      = false := by
  have ht0 : 0 < min 1 e := lt_min zero_lt_one he
  have ht1 : min 1 e ≤ 1 := min_le_left _ _
  have hte : min 1 e ≤ e := min_le_right _ _
  constructor
  · rw [linearlyDependent1_eq_true_iff, linearlyDependent1Discriminant_right_angle, abs_neg,
      abs_of_nonneg (mul_self_nonneg _)]
    calc min 1 e * min 1 e ≤ 1 * min 1 e :=
          mul_le_mul_of_nonneg_right ht1 (le_of_lt ht0)
      _ = min 1 e := one_mul _
      _ ≤ e := hte
  · rw [← Bool.not_eq_true, linearlyDependent2_eq_true_iff sqrt hs,
      linearlyDependent1Discriminant_right_angle, neg_eq_zero]
    exact ne_of_gt (mul_pos ht0 ht0)

/-- C9 (as amended): in exact arithmetic with `colinearEpsilon >= 0`,
`linearlyDependent1(a, b, c) == linearlyDependent2(a, b, c)` holds exactly for the triples
whose discriminant `j*j - k*l`, as `linearlyDependent1` computes it, is `0` or exceeds
`colinearEpsilon` in magnitude. -/
theorem linearlyDependent_agreement (sqrt : T → T) (hs : IsSqrt sqrt) (colinearEpsilon : T)
    (heps : 0 ≤ colinearEpsilon) (a b c : Vec T S) :
    linearlyDependent1 colinearEpsilon a b c = linearlyDependent2 sqrt a b c ↔
      (linearlyDependent1Discriminant a b c = 0 ∨
        colinearEpsilon < |linearlyDependent1Discriminant a b c|) := by
  have h2 := linearlyDependent2_eq_true_iff sqrt hs a b c
  have h1 := linearlyDependent1_eq_true_iff colinearEpsilon a b c
  rw [Bool.eq_iff_iff, h1, h2]
  constructor
  · intro h
    by_cases hle : |linearlyDependent1Discriminant a b c| ≤ colinearEpsilon
    · exact Or.inl (h.mp hle)
    · exact Or.inr (not_le.mp hle)
  · rintro (h | h)
    · rw [h, abs_zero]
      exact ⟨fun _ => rfl, fun _ => heps⟩
    · constructor
      · intro hle
        exact absurd hle (not_le.mpr h)
      · intro h0
        rw [h0, abs_zero] at h
        exact absurd h (not_lt.mpr heps)

/-- Witness for C9 (as amended) on real scalars: on the triple `(0,0,0), (1,0,0), (0,1,0)`
with `colinearEpsilon = 0.00001` the discriminant is `-1`, beyond the tolerance, and both
tests return false. -/
theorem linearlyDependent_agreement_witness :
    IsSqrt Real.sqrt ∧ (0 : ℝ) ≤ 1 / 100000 ∧
    linearlyDependent1Discriminant (Vec.mk3 (0:ℝ) 0 0) (Vec.mk3 1 0 0) (Vec.mk3 0 1 0) = -1 ∧
    (linearlyDependent1 (1 / 100000) (Vec.mk3 (0:ℝ) 0 0) (Vec.mk3 1 0 0) (Vec.mk3 0 1 0)
        = linearlyDependent2 Real.sqrt (Vec.mk3 (0:ℝ) 0 0) (Vec.mk3 1 0 0) (Vec.mk3 0 1 0) ↔
      (linearlyDependent1Discriminant (Vec.mk3 (0:ℝ) 0 0) (Vec.mk3 1 0 0) (Vec.mk3 0 1 0)
          = 0 ∨
        1 / 100000 < |linearlyDependent1Discriminant (Vec.mk3 (0:ℝ) 0 0) (Vec.mk3 1 0 0)
          (Vec.mk3 0 1 0)|)) :=
  ⟨isSqrt_real, by norm_num,
    by rw [linearlyDependent1Discriminant_right_angle]; norm_num,
    linearlyDependent_agreement Real.sqrt isSqrt_real (1 / 100000) (by norm_num) _ _ _⟩

set_option maxRecDepth 100000 in
/-- C9 (counterexample): with `colinearEpsilon = 0.00001` on real scalars, the triple
`(0,0,0), (1,0,0), (0,0.001,0)` is accepted by `linearlyDependent1` and rejected by
`linearlyDependent2`; and in `double` arithmetic the exactly collinear triple
`(1,2,3), (3,2,1), (0,2,4)` is accepted by `linearlyDependent1` (for `colinearEpsilon`
`0` and `0.00001`) and rejected by `linearlyDependent2`, whose rounded lengths
`sqrt 2 + sqrt 8` and `sqrt 18` differ. -/
theorem linearlyDependent_formulations_differ :
    linearlyDependent1 (1 / 100000 : ℝ) (Vec.mk3 0 0 0) (Vec.mk3 1 0 0) (Vec.mk3 0 (1 / 1000) 0)
      = true ∧
    linearlyDependent2 Real.sqrt (Vec.mk3 (0:ℝ) 0 0) (Vec.mk3 1 0 0) (Vec.mk3 0 (1 / 1000) 0)
      = false ∧
    linearlyDependent1 (1 / 100000 : ℝ) (Vec.mk3 0 0 0) (Vec.mk3 1 0 0) (Vec.mk3 0 (1 / 1000) 0)
      ≠ linearlyDependent2 Real.sqrt (Vec.mk3 (0:ℝ) 0 0) (Vec.mk3 1 0 0)
          (Vec.mk3 0 (1 / 1000) 0) ∧
    linearlyDependent1 (0 : Binary64)
      (Vec.mk3 (Binary.ofInt 1) (Binary.ofInt 2) (Binary.ofInt 3))
      (Vec.mk3 (Binary.ofInt 3) (Binary.ofInt 2) (Binary.ofInt 1))
      (Vec.mk3 (Binary.ofInt 0) (Binary.ofInt 2) (Binary.ofInt 4)) = true ∧
    linearlyDependent1 (Binary.ofDecimal 1 5 : Binary64)
      (Vec.mk3 (Binary.ofInt 1) (Binary.ofInt 2) (Binary.ofInt 3))
      (Vec.mk3 (Binary.ofInt 3) (Binary.ofInt 2) (Binary.ofInt 1))
      (Vec.mk3 (Binary.ofInt 0) (Binary.ofInt 2) (Binary.ofInt 4)) = true ∧
    linearlyDependent2 Binary.sqrt
      (Vec.mk3 (Binary.ofInt 1 : Binary64) (Binary.ofInt 2) (Binary.ofInt 3))
      (Vec.mk3 (Binary.ofInt 3) (Binary.ofInt 2) (Binary.ofInt 1))
      (Vec.mk3 (Binary.ofInt 0) (Binary.ofInt 2) (Binary.ofInt 4)) = false := by
  have h1 : linearlyDependent1 (1 / 100000 : ℝ) (Vec.mk3 0 0 0) (Vec.mk3 1 0 0)
      (Vec.mk3 0 (1 / 1000) 0) = true := by
    rw [linearlyDependent1_eq_true_iff, linearlyDependent1Discriminant_right_angle]
    norm_num [abs_le]
  have h2 : linearlyDependent2 Real.sqrt (Vec.mk3 (0:ℝ) 0 0) (Vec.mk3 1 0 0)
      (Vec.mk3 0 (1 / 1000) 0) = false := by
    rw [← Bool.not_eq_true, linearlyDependent2_eq_true_iff Real.sqrt isSqrt_real,
      linearlyDependent1Discriminant_right_angle]
    norm_num
  refine ⟨h1, h2, ?_, by decide, by decide, by decide⟩
  rw [h1, h2]
  exact Bool.noConfusion

end LinearlyDependentProofs

/-! ## Proofs: `majorComponent(0)` -/

section MajorComponentProofs

variable {T : Type} [LinearOrderedCommRing T] {S : Nat}

/-- The scan of `majorComponent(0)` over increasing indices above the current one: the
result has the largest magnitude among the current index and the visited ones, and it is the
lowest of the indices of that magnitude. -/
theorem majorComponentScan_spec (v : Vec T S) (l : List (Fin S)) (index : Fin S)
    (hsorted : List.Pairwise (· < ·) (index :: l)) :
    ∀ j ∈ index :: l,
      |v j| ≤ |v (majorComponentScan v index l)| ∧
      (|v j| = |v (majorComponentScan v index l)| → majorComponentScan v index l ≤ j) := by
  induction l generalizing index with
  | nil =>
    intro j hj
    rw [List.mem_singleton] at hj
    subst hj
    exact ⟨le_rfl, fun _ => le_rfl⟩
  | cons i rest ih =>
    rw [List.pairwise_cons, List.pairwise_cons] at hsorted
    obtain ⟨hindex, hi, hrest⟩ := hsorted
    have hlt : index < i := hindex i (List.mem_cons_self _ _)
    by_cases hgt : |v i| > |v index|
    · have hs : List.Pairwise (· < ·) (i :: rest) := List.pairwise_cons.mpr ⟨hi, hrest⟩
      have hrec := ih i hs
      simp only [majorComponentScan, std.abs_eq_abs, if_pos hgt]
      intro j hj
      rcases List.mem_cons.mp hj with hj | hj
      · subst hj
        have hmax := (hrec i (List.mem_cons_self _ _)).1
        exact ⟨le_of_lt (lt_of_lt_of_le hgt hmax),
          fun heq => absurd heq (ne_of_lt (lt_of_lt_of_le hgt hmax))⟩
      · exact hrec j hj
    · have hs : List.Pairwise (· < ·) (index :: rest) :=
        List.pairwise_cons.mpr
          ⟨fun k hk => hindex k (List.mem_cons_of_mem _ hk), hrest⟩
      have hrec := ih index hs
      simp only [majorComponentScan, std.abs_eq_abs, if_neg hgt]
      intro j hj
      rcases List.mem_cons.mp hj with hj | hj
      · subst hj
        exact hrec j (List.mem_cons_self _ _)
      · rcases List.mem_cons.mp hj with hj | hj
        · subst hj
          have hidx := hrec index (List.mem_cons_self _ _)
          refine ⟨le_trans (not_lt.mp hgt) hidx.1, fun heq => ?_⟩
          have hle : |v index| ≤ |v j| := by rw [heq]; exact hidx.1
          have heq2 : |v index| = |v (majorComponentScan v index rest)| := by
            rw [← heq]
            exact le_antisymm hle (not_lt.mp hgt)
          exact le_trans (hidx.2 heq2) (le_of_lt hlt)
        · exact hrec j (List.mem_cons_of_mem _ hj)

/-- The indices `0, ..., S-1` are index `0` followed by the indices the scan visits. -/
theorem finRange_eq_zero_cons_drop (h : 0 < S) :
    List.finRange S = (⟨0, h⟩ : Fin S) :: (List.finRange S).drop 1 := by
  obtain ⟨n, rfl⟩ : ∃ n, S = n + 1 := ⟨S - 1, by omega⟩
  rw [List.finRange_succ_eq_map]
  rfl

/-- The value of `majorComponent(0)` on a vector of dimension at least `1`. -/
theorem majorComponent_zero_spec (v : Vec T S) (hS : 0 < S) :
    ∃ i : Fin S, majorComponent v 0 = some i ∧
      (∀ j : Fin S, |v j| ≤ |v i|) ∧ (∀ j : Fin S, |v j| = |v i| → i ≤ j) := by
  refine ⟨majorComponentScan v ⟨0, hS⟩ ((List.finRange S).drop 1), ?_, ?_, ?_⟩
  · simp [majorComponent, hS]
  all_goals
    intro j
    have hsorted : List.Pairwise (· < ·) ((⟨0, hS⟩ : Fin S) :: (List.finRange S).drop 1) := by
      rw [← finRange_eq_zero_cons_drop hS]
      exact List.pairwise_lt_finRange S
    have hj : j ∈ (⟨0, hS⟩ : Fin S) :: (List.finRange S).drop 1 := by
      rw [← finRange_eq_zero_cons_drop hS]
      exact List.mem_finRange j
    have hspec := majorComponentScan_spec v _ _ hsorted j hj
  · exact hspec.1
  · exact hspec.2

end MajorComponentProofs

/-! ## Proofs: algebraic identities of `cross`, `dot`, `equals` and `compare` -/

section AlgebraProofs

variable {T : Type} [LinearOrderedCommRing T] {S : Nat}

theorem cross_eq_neg_cross (a b : Vec T 3) : cross a b = -cross b a := by
  funext i
  fin_cases i <;> simp [cross, Vec.mk3, Vec.neg_apply] <;> ring

theorem cross_self_eq_zero (a : Vec T 3) : cross a a = Vec.mk3 0 0 0 := by
  funext i
  fin_cases i <;> simp [cross, Vec.mk3] <;> ring

/-- The operator `==` holds of a vector and itself. -/
theorem operator_eq_self (a : Vec T S) : operator_eq a a = true := by
  have h : compare a a 0 = 0 := (compare_zero_eq_zero_iff a a).mpr (fun _ => rfl)
  simp [operator_eq, h]

/-- C16: for all 3-vectors `a`, `b`: `cross(a, b)` is the vector `-cross(b, a)`, so
`cross(a, b) == -cross(b, a)` holds, and `cross(a, a)` is the zero vector. -/
theorem cross_anticommutative (a b : Vec T 3) :
    cross a b = -cross b a ∧
    operator_eq (cross a b) (-cross b a) = true ∧
    cross a a = Vec.mk3 0 0 0 ∧
    (∀ i : Fin 3, cross a a i = 0) := by
  refine ⟨cross_eq_neg_cross a b, ?_, cross_self_eq_zero a, ?_⟩
  · rw [← cross_eq_neg_cross a b]
    exact operator_eq_self _
  · intro i
    rw [cross_self_eq_zero a]
    fin_cases i <;> rfl

/-- C17: on exact scalars `dot(a, b + c) == dot(a, b) + dot(a, c)`. -/
theorem dot_add_right (a b c : Vec T S) : dot a (b + c) = dot a b + dot a c := by
  rw [dot_eq_sum, dot_eq_sum, dot_eq_sum, ← Finset.sum_add_distrib]
  exact Finset.sum_congr rfl (fun i _ => by rw [Vec.add_apply, mul_add])

end AlgebraProofs

section EqualsProofs

variable {T : Type} [LinearOrderedField T] {S : Nat}

/-- C18: for every vector `v`, `v.equals(v)` is true for every epsilon `>= 0` (the default
`almostZero` included), and `compare(v, v)` is `0`, with the default epsilon `0` and with
every epsilon `>= 0`. -/
theorem equals_self_and_compare_self (v : Vec T S) (epsilon : T) (heps : 0 ≤ epsilon) :
    v.equals v epsilon = true ∧ compare v v 0 = 0 ∧ compare v v epsilon = 0 := by
  refine ⟨?_, ?_, ?_⟩
  · rw [Vec.equals_eq_true_iff]
    intro i
    rw [sub_self, abs_zero]
    exact heps
  · exact (compare_zero_eq_zero_iff v v).mpr (fun _ => rfl)
  · rw [compare_eq_zero_iff v v epsilon heps]
    intro i
    rw [sub_self, abs_zero]
    exact heps

/-- Witness for C18 on rational scalars: `v = (1,-2,3)` with epsilon `0.001`. -/
theorem equals_self_and_compare_self_witness :
    (0 : ℚ) ≤ 1 / 1000 ∧
    (Vec.mk3 (1:ℚ) (-2) 3).equals (Vec.mk3 (1:ℚ) (-2) 3) (1 / 1000) = true ∧
    compare (Vec.mk3 (1:ℚ) (-2) 3) (Vec.mk3 (1:ℚ) (-2) 3) 0 = 0 ∧
    compare (Vec.mk3 (1:ℚ) (-2) 3) (Vec.mk3 (1:ℚ) (-2) 3) (1 / 1000) = 0 :=
  ⟨by norm_num, equals_self_and_compare_self _ (1 / 1000) (by norm_num)⟩

end EqualsProofs

/-! ## Proofs: the range overload of `compare` -/

section CompareRangeProofs

variable {T : Type} [LinearOrderedCommRing T] {S : Nat}

/-- The loop of `compare` only returns `-1`, `0` or `1`. -/
theorem compareLoop_range (lhs rhs : Vec T S) (e : T) (l : List (Fin S)) :
    compareLoop lhs rhs e l = -1 ∨ compareLoop lhs rhs e l = 0 ∨
      compareLoop lhs rhs e l = 1 := by
  induction l with
  | nil => exact Or.inr (Or.inl rfl)
  | cons i rest ih =>
    unfold compareLoop
    split_ifs
    · exact Or.inl rfl
    · exact Or.inr (Or.inr rfl)
    · exact ih

theorem compare_range (lhs rhs : Vec T S) (e : T) :
    compare lhs rhs e = -1 ∨ compare lhs rhs e = 0 ∨ compare lhs rhs e = 1 :=
  compareLoop_range lhs rhs e _

/-- A nonzero result of `compare` is its own sign, `-1` or `1`. -/
theorem sign_compare (lhs rhs : Vec T S) (e : T) :
    Int.sign (compare lhs rhs e) = compare lhs rhs e := by
  rcases compare_range lhs rhs e with h | h | h <;> rw [h] <;> rfl

/-- One step of the range overload on a pair that compares equal. -/
theorem compareRange_cons_zero (a b : Vec T S) (lhs rhs : List (Vec T S)) (e : T)
    (h : compare a b e = 0) :
    compareRange (a :: lhs) (b :: rhs) e = compareRange lhs rhs e := by
  simp [compareRange, h]

/-- One step of the range overload on a pair that does not compare equal: it returns
there. -/
theorem compareRange_cons_nonzero (a b : Vec T S) (lhs rhs : List (Vec T S)) (e : T)
    (h : compare a b e ≠ 0) :
    compareRange (a :: lhs) (b :: rhs) e = some (compare a b e) := by
  rcases compare_range a b e with h1 | h1 | h1
  · simp [compareRange, h1]
  · exact absurd h1 h
  · simp [compareRange, h1]

/-- The range overload returns the per-vector result at the first position where that
result is not `0`, whatever the lengths of the two ranges. -/
theorem compareRange_of_first_nonzero (lhs rhs : List (Vec T S)) (e : T) (i : Nat)
    (a b : Vec T S) (ha : lhs[i]? = some a) (hb : rhs[i]? = some b)
    (hbefore : ∀ (j : Nat) (a2 b2 : Vec T S), j < i → lhs[j]? = some a2 →
      rhs[j]? = some b2 →
      compare a2 b2 e = 0)
    (hi : compare a b e ≠ 0) :
    compareRange lhs rhs e = some (compare a b e) := by
  induction i generalizing lhs rhs with
  | zero =>
    cases lhs with
    | nil => simp at ha
    | cons x lhs =>
      cases rhs with
      | nil => simp at hb
      | cons y rhs =>
        simp only [List.getElem?_cons_zero, Option.some.injEq] at ha hb
        subst ha hb
        exact compareRange_cons_nonzero _ _ _ _ _ hi
  | succ n ih =>
    cases lhs with
    | nil => simp at ha
    | cons x lhs =>
      cases rhs with
      | nil => simp at hb
      | cons y rhs =>
        simp only [List.getElem?_cons_succ] at ha hb
        have h0 : compare x y e = 0 :=
          hbefore 0 x y (Nat.succ_pos n) (by simp) (by simp)
        rw [compareRange_cons_zero _ _ _ _ _ h0]
        refine ih lhs rhs ha hb (fun j a2 b2 hj h1 h2 => ?_)
        exact hbefore (j + 1) a2 b2 (Nat.succ_lt_succ hj) (by simpa using h1)
          (by simpa using h2)

/-- When every pair of the common prefix compares equal, the range overload reaches the
assertion: it returns `0` on equal lengths and fails on different lengths. -/
theorem compareRange_of_all_zero (lhs rhs : List (Vec T S)) (e : T)
    (hall : ∀ (j : Nat) (a2 b2 : Vec T S), lhs[j]? = some a2 → rhs[j]? = some b2 →
      compare a2 b2 e = 0) :
    compareRange lhs rhs e = if lhs.length = rhs.length then some 0 else none := by
  induction lhs generalizing rhs with
  | nil =>
    cases rhs with
    | nil => simp [compareRange]
    | cons y rhs => simp [compareRange]
  | cons x lhs ih =>
    cases rhs with
    | nil => simp [compareRange]
    | cons y rhs =>
      have h0 : compare x y e = 0 := hall 0 x y (by simp) (by simp)
      rw [compareRange_cons_zero _ _ _ _ _ h0,
        ih rhs (fun j a2 b2 h1 h2 => hall (j + 1) a2 b2 (by simpa using h1)
          (by simpa using h2))]
      simp

/-- C19: on two ranges of equal length (and any epsilon), the range overload of `compare`
returns the sign, `-1` or `+1`, of `compare(lhs_i, rhs_i, epsilon)` at the first position
`i` where that comparison is not `0`, and it returns `0` when every pair compares equal. -/
theorem compareRange_equal_length (lhs rhs : List (Vec T S)) (epsilon : T)
    (hlen : lhs.length = rhs.length) :
    (∀ (i : Nat) (a b : Vec T S), lhs[i]? = some a → rhs[i]? = some b →
        (∀ (j : Nat) (a2 b2 : Vec T S), j < i → lhs[j]? = some a2 → rhs[j]? = some b2 →
          compare a2 b2 epsilon = 0) →
        compare a b epsilon ≠ 0 →
        compareRange lhs rhs epsilon = some (Int.sign (compare a b epsilon)) ∧
        (compareRange lhs rhs epsilon = some (-1) ∨ compareRange lhs rhs epsilon = some 1)) ∧
    ((∀ (j : Nat) (a2 b2 : Vec T S), lhs[j]? = some a2 → rhs[j]? = some b2 →
          compare a2 b2 epsilon = 0) →
        compareRange lhs rhs epsilon = some 0) := by
  constructor
  · intro i a b ha hb hbefore hi
    have hval := compareRange_of_first_nonzero lhs rhs epsilon i a b ha hb hbefore hi
    refine ⟨by rw [hval, sign_compare], ?_⟩
    rcases compare_range a b epsilon with h | h | h
    · exact Or.inl (by rw [hval, h])
    · exact absurd h hi
    · exact Or.inr (by rw [hval, h])
  · intro hall
    rw [compareRange_of_all_zero lhs rhs epsilon hall, if_pos hlen]

/-- Witness for C19 on `int` vectors: the ranges `[(1,0,0), (2,5,0)]` and
`[(1,0,0), (2,3,0)]`, on which the result is `1`, decided at position `1`. -/
theorem compareRange_equal_length_witness :
    [Vec.mk3 (1:Int) 0 0, Vec.mk3 2 5 0].length = [Vec.mk3 (1:Int) 0 0, Vec.mk3 2 3 0].length ∧
    compareRange [Vec.mk3 (1:Int) 0 0, Vec.mk3 2 5 0] [Vec.mk3 (1:Int) 0 0, Vec.mk3 2 3 0] 0
      = some 1 ∧
    ((∀ (i : Nat) (a b : Vec Int 3), [Vec.mk3 (1:Int) 0 0, Vec.mk3 2 5 0][i]? = some a →
        [Vec.mk3 (1:Int) 0 0, Vec.mk3 2 3 0][i]? = some b →
        (∀ (j : Nat) (a2 b2 : Vec Int 3), j < i →
          [Vec.mk3 (1:Int) 0 0, Vec.mk3 2 5 0][j]? = some a2 →
          [Vec.mk3 (1:Int) 0 0, Vec.mk3 2 3 0][j]? = some b2 → compare a2 b2 0 = 0) →
        compare a b 0 ≠ 0 →
        compareRange [Vec.mk3 (1:Int) 0 0, Vec.mk3 2 5 0]
            [Vec.mk3 (1:Int) 0 0, Vec.mk3 2 3 0] 0 = some (Int.sign (compare a b 0)) ∧
        (compareRange [Vec.mk3 (1:Int) 0 0, Vec.mk3 2 5 0]
            [Vec.mk3 (1:Int) 0 0, Vec.mk3 2 3 0] 0 = some (-1) ∨
          compareRange [Vec.mk3 (1:Int) 0 0, Vec.mk3 2 5 0]
            [Vec.mk3 (1:Int) 0 0, Vec.mk3 2 3 0] 0 = some 1)) ∧
      ((∀ (j : Nat) (a2 b2 : Vec Int 3),
          [Vec.mk3 (1:Int) 0 0, Vec.mk3 2 5 0][j]? = some a2 →
          [Vec.mk3 (1:Int) 0 0, Vec.mk3 2 3 0][j]? = some b2 → compare a2 b2 0 = 0) →
        compareRange [Vec.mk3 (1:Int) 0 0, Vec.mk3 2 5 0]
          [Vec.mk3 (1:Int) 0 0, Vec.mk3 2 3 0] 0 = some 0)) :=
  ⟨rfl, by decide, compareRange_equal_length _ _ 0 rfl⟩

/-- When some pair of the common prefix does not compare equal, there is a first such
position. -/
theorem exists_first_nonzero_pair (lhs rhs : List (Vec T S)) (e : T)
    (h : ¬ ∀ (j : Nat) (a2 b2 : Vec T S), lhs[j]? = some a2 → rhs[j]? = some b2 →
      compare a2 b2 e = 0) :
    ∃ (i : Nat) (a b : Vec T S), lhs[i]? = some a ∧ rhs[i]? = some b ∧
      (∀ (j : Nat) (a2 b2 : Vec T S), j < i → lhs[j]? = some a2 → rhs[j]? = some b2 →
        compare a2 b2 e = 0) ∧
      compare a b e ≠ 0 := by
  classical
  have hex : ∃ i : Nat, ∃ a b : Vec T S, lhs[i]? = some a ∧ rhs[i]? = some b ∧
      compare a b e ≠ 0 := by
    by_contra hno
    apply h
    intro j a2 b2 h1 h2
    by_contra hne
    exact hno ⟨j, a2, b2, h1, h2, hne⟩
  obtain ⟨a, b, ha, hb, hne⟩ := Nat.find_spec hex
  refine ⟨Nat.find hex, a, b, ha, hb, ?_, hne⟩
  intro j a2 b2 hj h1 h2
  by_contra hne2
  exact Nat.find_min hex hj ⟨a2, b2, h1, h2, hne2⟩

/-- C20 (as amended): on two ranges whose lengths differ, the range overload of `compare`
fails its assertion exactly when every pair of the common prefix compares equal; when some
pair does not, it returns the result (`-1` or `+1`) of the first such pair and the
assertion is never evaluated. -/
theorem compareRange_length_mismatch (lhs rhs : List (Vec T S)) (epsilon : T)
    (hlen : lhs.length ≠ rhs.length) :
    (compareRange lhs rhs epsilon = none ↔
      ∀ (j : Nat) (a2 b2 : Vec T S), lhs[j]? = some a2 → rhs[j]? = some b2 →
        compare a2 b2 epsilon = 0) ∧
    (∀ (i : Nat) (a b : Vec T S), lhs[i]? = some a → rhs[i]? = some b →
        (∀ (j : Nat) (a2 b2 : Vec T S), j < i → lhs[j]? = some a2 → rhs[j]? = some b2 →
          compare a2 b2 epsilon = 0) →
        compare a b epsilon ≠ 0 →
        compareRange lhs rhs epsilon = some (compare a b epsilon) ∧
        (compare a b epsilon = -1 ∨ compare a b epsilon = 1)) := by
  constructor
  · constructor
    · intro hnone
      by_contra hnot
      obtain ⟨i, a, b, ha, hb, hbefore, hi⟩ := exists_first_nonzero_pair lhs rhs epsilon hnot
      rw [compareRange_of_first_nonzero lhs rhs epsilon i a b ha hb hbefore hi] at hnone
      exact Option.noConfusion hnone
    · intro hall
      rw [compareRange_of_all_zero lhs rhs epsilon hall, if_neg hlen]
  · intro i a b ha hb hbefore hi
    refine ⟨compareRange_of_first_nonzero lhs rhs epsilon i a b ha hb hbefore hi, ?_⟩
    rcases compare_range a b epsilon with h | h | h
    · exact Or.inl h
    · exact absurd h hi
    · exact Or.inr h

/-- Witness for C20 (as amended) on `int` vectors: the ranges `[(1,0,0)]` and
`[(1,0,0), (3,0,0)]`, on which the assertion fails. -/
theorem compareRange_length_mismatch_witness :
    [Vec.mk3 (1:Int) 0 0].length ≠ [Vec.mk3 (1:Int) 0 0, Vec.mk3 3 0 0].length ∧
    compareRange [Vec.mk3 (1:Int) 0 0] [Vec.mk3 (1:Int) 0 0, Vec.mk3 3 0 0] 0 = none ∧
    ((compareRange [Vec.mk3 (1:Int) 0 0] [Vec.mk3 (1:Int) 0 0, Vec.mk3 3 0 0] 0 = none ↔
        ∀ (j : Nat) (a2 b2 : Vec Int 3), [Vec.mk3 (1:Int) 0 0][j]? = some a2 →
          [Vec.mk3 (1:Int) 0 0, Vec.mk3 3 0 0][j]? = some b2 → compare a2 b2 0 = 0) ∧
      (∀ (i : Nat) (a b : Vec Int 3), [Vec.mk3 (1:Int) 0 0][i]? = some a →
        [Vec.mk3 (1:Int) 0 0, Vec.mk3 3 0 0][i]? = some b →
        (∀ (j : Nat) (a2 b2 : Vec Int 3), j < i → [Vec.mk3 (1:Int) 0 0][j]? = some a2 →
          [Vec.mk3 (1:Int) 0 0, Vec.mk3 3 0 0][j]? = some b2 → compare a2 b2 0 = 0) →
        compare a b 0 ≠ 0 →
        compareRange [Vec.mk3 (1:Int) 0 0] [Vec.mk3 (1:Int) 0 0, Vec.mk3 3 0 0] 0
          = some (compare a b 0) ∧
        (compare a b 0 = -1 ∨ compare a b 0 = 1))) :=
  ⟨by decide, by decide, compareRange_length_mismatch _ _ 0 (by decide)⟩

/-- C20 (counterexample): the ranges `[(1,0,0)]` and `[(2,0,0), (3,0,0)]` have different
lengths, and the range overload of `compare` returns `-1` on them: the first pair decides
before the assertion is reached. -/
theorem compareRange_mismatch_returns :
    [Vec.mk3 (1:Int) 0 0].length ≠ [Vec.mk3 (2:Int) 0 0, Vec.mk3 3 0 0].length ∧
    compareRange [Vec.mk3 (1:Int) 0 0] [Vec.mk3 (2:Int) 0 0, Vec.mk3 3 0 0] 0 = some (-1) ∧
    compareRange [Vec.mk3 (1:Int) 0 0] [Vec.mk3 (2:Int) 0 0, Vec.mk3 3 0 0] 0 ≠ none := by
  decide

end CompareRangeProofs

/-! ## Proofs: `average` -/

section AverageProofs

variable {T : Type} [LinearOrderedField T] {S : Nat}

/-- The accumulation loop of `average` started at `sum`, componentwise. -/
theorem foldl_add_apply (vecs : List (Vec T S)) (sum : Vec T S) (i : Fin S) :
    (vecs.foldl (fun sum v => sum + v) sum) i = sum i + (vecs.map (fun v => v i)).sum := by
  induction vecs generalizing sum with
  | nil => simp
  | cons v rest ih =>
    rw [List.foldl_cons, ih, Vec.add_apply, List.map_cons, List.sum_cons, add_assoc]

/-- C15: on every non-empty list, `average(list)` is the componentwise sum of the list
divided by its length; `average([(0,0,0), (2,0,0)])` is `(1,0,0)`; on the empty list the
assertion fails and no value is returned. -/
theorem average_eq_sum_div_length (vecs : List (Vec T S)) (hne : vecs ≠ []) :
    Vec.average vecs
      = some (fun i => (vecs.map (fun v => v i)).sum / (vecs.length : T)) ∧
    Vec.average [Vec.mk3 (0:T) 0 0, Vec.mk3 2 0 0] = some (Vec.mk3 1 0 0) ∧
    Vec.average ([] : List (Vec T S)) = none := by
  have hgen : ∀ (n : Nat) (l : List (Vec T n)), l ≠ [] →
      Vec.average l = some (fun i => (l.map (fun v => v i)).sum / (l.length : T)) := by
    intro n l hl
    have hemp : l.isEmpty = false := by
      cases l with
      | nil => exact absurd rfl hl
      | cons _ _ => rfl
    simp only [Vec.average, hemp, Bool.false_eq_true, if_false, Option.some.injEq]
    funext i
    simp only [Vec.divScalar, foldl_add_apply, Vec.null, zero_add]
  refine ⟨hgen S vecs hne, ?_, rfl⟩
  rw [hgen 3 _ (List.cons_ne_nil _ _)]
  congr 1
  funext i
  fin_cases i <;> norm_num [Vec.mk3]

/-- Witness for C15 on rational scalars: the list `[(1,2,3), (3,2,1), (2,2,2)]`. -/
theorem average_eq_sum_div_length_witness :
    [Vec.mk3 (1:ℚ) 2 3, Vec.mk3 3 2 1, Vec.mk3 2 2 2] ≠ [] ∧
    (Vec.average [Vec.mk3 (1:ℚ) 2 3, Vec.mk3 3 2 1, Vec.mk3 2 2 2]
        = some (fun i => (([Vec.mk3 (1:ℚ) 2 3, Vec.mk3 3 2 1, Vec.mk3 2 2 2]).map
            (fun v => v i)).sum
          / (([Vec.mk3 (1:ℚ) 2 3, Vec.mk3 3 2 1, Vec.mk3 2 2 2]).length : ℚ)) ∧
      Vec.average [Vec.mk3 (0:ℚ) 0 0, Vec.mk3 2 0 0] = some (Vec.mk3 1 0 0) ∧
      Vec.average ([] : List (Vec ℚ 3)) = none) :=
  ⟨List.cons_ne_nil _ _, average_eq_sum_div_length _ (List.cons_ne_nil _ _)⟩

end AverageProofs

/-! ## Proofs: `majorAxis`, `absMajorAxis` and `hasMajorComponent` -/

section AxesProofs

variable {T : Type} [LinearOrderedCommRing T] {S : Nat}

/-- The method `majorComponent(k)` returns an index whenever `k < S`. -/
theorem majorComponent_isSome (v : Vec T S) (k : Nat) (hk : k < S) :
    ∃ c : Fin S, majorComponent v k = some c := by
  unfold majorComponent
  rw [dif_pos hk]
  split_ifs
  · exact ⟨_, rfl⟩
  · exact ⟨_, rfl⟩

/-- C12: for `k < S` and `c = majorComponent(k)`: `absMajorAxis(k)` is `axis(c)`, the
vector with `1` at index `c` and `0` elsewhere; `majorAxis(k)` is that vector when
`v[c] >= 0` and its negation when `v[c] < 0`; `majorAxis(0)` on `(-5,1,2)` is
`(-1,0,0)`. -/
theorem majorAxis_signed_basis_vector (v : Vec T S) (k : Nat) (hk : k < S) :
    (∃ c : Fin S, majorComponent v k = some c ∧
      (∀ i : Fin S, (Vec.axis c : Vec T S) i = if i = c then 1 else 0) ∧
      absMajorAxis v k = some (Vec.axis c) ∧
      (0 ≤ v c → majorAxis v k = some (Vec.axis c)) ∧
      (v c < 0 → majorAxis v k = some (-Vec.axis c))) ∧
    majorAxis (Vec.mk3 (-5:T) 1 2) 0 = some (Vec.mk3 (-1) 0 0) := by
  constructor
  · obtain ⟨c, hc⟩ := majorComponent_isSome v k hk
    refine ⟨c, hc, fun i => rfl, ?_, ?_, ?_⟩
    · simp [absMajorAxis, hc]
    · intro hpos
      simp [majorAxis, hc, not_lt.mpr hpos]
    · intro hneg
      simp [majorAxis, hc, hneg]
  · obtain ⟨c, hc, hmax, hlow⟩ := majorComponent_zero_spec (Vec.mk3 (-5:T) 1 2) (by decide)
    have hc0 : c = 0 := by
      have h0 := hmax 0
      fin_cases c
      · rfl
      · norm_num [Vec.mk3] at h0
      · norm_num [Vec.mk3] at h0
    subst hc0
    have hneg : (Vec.mk3 (-5:T) 1 2) 0 < 0 := by norm_num [Vec.mk3]
    simp only [majorAxis, hc, hneg, if_true, Option.some.injEq]
    funext i
    fin_cases i <;> simp [Vec.neg_apply, Vec.axis, Vec.mk3]

/-- Witness for C12 on `int` vectors: `v = (1,-5,2)`, `k = 0`, where `majorAxis` is
`(0,-1,0)`. -/
theorem majorAxis_signed_basis_vector_witness :
    0 < 3 ∧ majorAxis (Vec.mk3 (1:Int) (-5) 2) 0 = some (Vec.mk3 0 (-1) 0) ∧
    ((∃ c : Fin 3, majorComponent (Vec.mk3 (1:Int) (-5) 2) 0 = some c ∧
        (∀ i : Fin 3, (Vec.axis c : Vec Int 3) i = if i = c then 1 else 0) ∧
        absMajorAxis (Vec.mk3 (1:Int) (-5) 2) 0 = some (Vec.axis c) ∧
        (0 ≤ (Vec.mk3 (1:Int) (-5) 2) c →
          majorAxis (Vec.mk3 (1:Int) (-5) 2) 0 = some (Vec.axis c)) ∧
        ((Vec.mk3 (1:Int) (-5) 2) c < 0 →
          majorAxis (Vec.mk3 (1:Int) (-5) 2) 0 = some (-Vec.axis c))) ∧
      majorAxis (Vec.mk3 (-5:Int) 1 2) 0 = some (Vec.mk3 (-1) 0 0)) :=
  have hc : majorComponent (Vec.mk3 (1:Int) (-5) 2) 0 = some 1 := by decide
  have hv : majorAxis (Vec.mk3 (1:Int) (-5) 2) 0 = some (Vec.mk3 0 (-1) 0) := by
    simp only [majorAxis, hc]
    rw [if_pos (by decide)]
    congr 1
    funext i
    fin_cases i <;> rfl
  ⟨by decide, hv, majorAxis_signed_basis_vector (Vec.mk3 (1:Int) (-5) 2) 0 (by decide)⟩

/-- C13 (evaluation of the code): whatever the epsilon, `hasMajorComponent` is false on
`(5,1,1)` and true on `(1,2,2)`: after the ascending sort of the magnitudes it compares the
two smallest ones, and it never reads `epsilon`. -/
theorem hasMajorComponent_compares_smallest (epsilon : T) :
    hasMajorComponent (Vec.mk3 (5:T) 1 1) epsilon = false ∧
    hasMajorComponent (Vec.mk3 (1:T) 2 2) epsilon = true := by
  constructor
  · norm_num [hasMajorComponent, sort, Math.Less, Vec.mk3, List.ofFn_succ,
      List.insertionSort, List.orderedInsert]
  · norm_num [hasMajorComponent, sort, Math.Less, Vec.mk3, List.ofFn_succ,
      List.insertionSort, List.orderedInsert]

end AxesProofs

/-! ## Proofs: `distanceToSegment` -/

section SegmentProofs

variable {T : Type} [LinearOrderedField T] {S : Nat}

theorem IsSqrt.mul_self {sqrt : T → T} (hs : IsSqrt sqrt) (a : T) (ha : 0 ≤ a) :
    sqrt (a * a) = a := by
  obtain ⟨h0, h1⟩ := hs (a * a) (mul_self_nonneg a)
  exact (mul_self_inj h0 ha).mp h1

theorem IsSqrt.mono {sqrt : T → T} (hs : IsSqrt sqrt) (a b : T) (ha : 0 ≤ a)
    (hab : a ≤ b) : sqrt a ≤ sqrt b := by
  obtain ⟨ha0, ha1⟩ := hs a ha
  obtain ⟨hb0, hb1⟩ := hs b (le_trans ha hab)
  by_contra hlt
  have h := mul_self_lt_mul_self hb0 (not_le.mp hlt)
  rw [ha1, hb1] at h
  exact absurd hab (not_le.mpr h)

theorem dot_divScalar_right (v w : Vec T S) (c : T) :
    dot v (w.divScalar c) = dot v w / c := by
  rw [dot_eq_sum, dot_eq_sum, Finset.sum_div]
  exact Finset.sum_congr rfl (fun i _ => by simp [Vec.divScalar, mul_div_assoc])

/-- A vector that is not the zero vector has a positive squared length. -/
theorem dot_self_pos_of_ne (a b : Vec T S) (hne : a ≠ b) : 0 < dot (b - a) (b - a) := by
  rw [dot_eq_sum]
  obtain ⟨i, hi⟩ : ∃ i, a i ≠ b i := by
    by_contra hno
    push_neg at hno
    exact hne (funext hno)
  have hpos : 0 < (b - a) i * (b - a) i := by
    rw [Vec.sub_apply]
    exact mul_self_pos.mpr (sub_ne_zero.mpr (Ne.symm hi))
  exact lt_of_lt_of_le hpos
    (Finset.single_le_sum (f := fun j => (b - a) j * (b - a) j)
      (fun j _ => mul_self_nonneg _) (Finset.mem_univ i))

/-- The squared distance from `p` to the point `start + mu * e` of a line, as a quadratic
in `mu`. -/
theorem squaredDistance_to_line (p start e : Vec T S) (mu : T) :
    dot (p - (start + e.mulScalar mu)) (p - (start + e.mulScalar mu))
      = dot (p - start) (p - start) - 2 * mu * dot (p - start) e + mu * mu * dot e e := by
  simp only [dot_eq_sum, Finset.mul_sum]
  rw [← Finset.sum_sub_distrib, ← Finset.sum_add_distrib]
  exact Finset.sum_congr rfl
    (fun i _ => by simp only [Vec.sub_apply, Vec.add_apply, Vec.mulScalar]; ring)

/-- The closest point computed by `distanceToSegment`, by the three branches. -/
theorem distanceToSegment_point_eq (sqrt : T → T) (p start end_ : Vec T S) :
    (Vec.distanceToSegment sqrt p start end_).point
      = if dot (p - start) ((end_ - start).normalize sqrt) < 0 then start
        else if dot (p - start) ((end_ - start).normalize sqrt)
            * dot (p - start) ((end_ - start).normalize sqrt)
            > (end_ - start).squaredLength then end_
        else start + ((end_ - start).normalize sqrt).mulScalar
            (dot (p - start) ((end_ - start).normalize sqrt)) := rfl

theorem distanceToSegment_distance_eq (sqrt : T → T) (p start end_ : Vec T S) :
    (Vec.distanceToSegment sqrt p start end_).distance
      = (p - (Vec.distanceToSegment sqrt p start end_).point).length sqrt := rfl

/-- The length of a segment with distinct end points is positive. -/
theorem length_pos_of_ne {sqrt : T → T} (hs : IsSqrt sqrt) (a b : Vec T S) (hne : a ≠ b) :
    0 < (b - a).length sqrt := by
  have hE := dot_self_pos_of_ne a b hne
  have hLL := Vec.length_mul_self hs (b - a)
  rcases eq_or_lt_of_le (Vec.length_nonneg hs (b - a)) with h | h
  · rw [← h, mul_zero] at hLL
    exact absurd hLL (ne_of_lt hE)
  · exact h

/-- The closest point computed by `distanceToSegment` is `start + lam * (end - start)` with
`lam` in `[0, 1]`, and no point of the segment is closer to `p`. -/
theorem distanceToSegment_point_nearest (sqrt : T → T) (hs : IsSqrt sqrt)
    (p start end_ : Vec T S) (hne : start ≠ end_) :
    ∃ lam : T, 0 ≤ lam ∧ lam ≤ 1 ∧
      (Vec.distanceToSegment sqrt p start end_).point
        = start + (end_ - start).mulScalar lam ∧
      ∀ mu : T, 0 ≤ mu → mu ≤ 1 →
        dot (p - (Vec.distanceToSegment sqrt p start end_).point)
            (p - (Vec.distanceToSegment sqrt p start end_).point)
          ≤ dot (p - (start + (end_ - start).mulScalar mu))
              (p - (start + (end_ - start).mulScalar mu)) := by
  have hE : 0 < dot (end_ - start) (end_ - start) := dot_self_pos_of_ne start end_ hne
  have hLpos : 0 < (end_ - start).length sqrt := length_pos_of_ne hs start end_ hne
  have hLL : (end_ - start).length sqrt * (end_ - start).length sqrt
      = dot (end_ - start) (end_ - start) := Vec.length_mul_self hs _
  have ht : dot (p - start) ((end_ - start).normalize sqrt)
      = dot (p - start) (end_ - start) / (end_ - start).length sqrt :=
    dot_divScalar_right _ _ _
  have hB : dot (p - start) (end_ - start)
      = dot (p - start) ((end_ - start).normalize sqrt) * (end_ - start).length sqrt := by
    rw [ht, div_mul_cancel₀ _ (ne_of_gt hLpos)]
  rw [distanceToSegment_point_eq]
  generalize dot (p - start) ((end_ - start).normalize sqrt) = t at hB ⊢
  generalize hLdef : (end_ - start).length sqrt = L at hLpos hLL hB ⊢
  by_cases h1 : t < 0
  · rw [if_pos h1]
    have hstart : start = start + (end_ - start).mulScalar 0 := by
      funext i
      simp [Vec.add_apply, Vec.mulScalar]
    refine ⟨0, le_rfl, zero_le_one, hstart, fun mu hmu0 hmu1 => ?_⟩
    rw [hstart, squaredDistance_to_line, squaredDistance_to_line, ← hstart, hB]
    have h2 : 0 ≤ mu * (-(t * L)) := mul_nonneg hmu0 (le_of_lt (by nlinarith))
    have h3 : 0 ≤ mu * mu * dot (end_ - start) (end_ - start) :=
      mul_nonneg (mul_self_nonneg mu) (le_of_lt hE)
    nlinarith
  · rw [if_neg h1]
    have ht0 : 0 ≤ t := not_lt.mp h1
    by_cases h2 : t * t > (end_ - start).squaredLength
    · rw [if_pos h2]
      have hend : end_ = start + (end_ - start).mulScalar 1 := by
        funext i
        simp [Vec.add_apply, Vec.mulScalar, Vec.sub_apply]
      refine ⟨1, zero_le_one, le_rfl, hend, fun mu hmu0 hmu1 => ?_⟩
      have hsq : L * L < t * t := by
        rw [hLL]
        exact h2
      have htL : L < t := by
        by_contra hle
        exact absurd (mul_self_le_mul_self ht0 (not_lt.mp hle)) (not_le.mpr hsq)
      have hBE : dot (end_ - start) (end_ - start) < dot (p - start) (end_ - start) := by
        rw [hB, ← hLL]
        exact mul_lt_mul_of_pos_right htL hLpos
      have hkey : 0 ≤ (1 - mu) * (2 * dot (p - start) (end_ - start)
          - dot (end_ - start) (end_ - start) * (1 + mu)) := by
        apply mul_nonneg (by linarith)
        nlinarith
      have hd : dot (p - end_) (p - end_)
          = dot (p - (start + (end_ - start).mulScalar 1))
              (p - (start + (end_ - start).mulScalar 1)) := by
        rw [← hend]
      rw [hd, squaredDistance_to_line, squaredDistance_to_line]
      nlinarith
    · rw [if_neg h2]
      have hle : t * t ≤ L * L := by
        rw [hLL]
        exact not_lt.mp h2
      have htL : t ≤ L := by
        by_contra hlt
        exact absurd (mul_self_lt_mul_self (le_of_lt hLpos) (not_le.mp hlt)) (not_lt.mpr hle)
      have hpt : start + ((end_ - start).normalize sqrt).mulScalar t
          = start + (end_ - start).mulScalar (t / L) := by
        funext i
        simp only [Vec.add_apply, Vec.mulScalar, Vec.normalize, Vec.divScalar, hLdef]
        ring
      rw [hpt]
      refine ⟨t / L, div_nonneg ht0 (le_of_lt hLpos), (div_le_one hLpos).mpr htL, rfl,
        fun mu _ _ => ?_⟩
      rw [squaredDistance_to_line, squaredDistance_to_line, hB, ← hLL]
      have htl : t = t / L * L := (div_mul_cancel₀ t (ne_of_gt hLpos)).symm
      generalize t / L = lam at htl ⊢
      rw [htl]
      have hsq : 0 ≤ ((mu - lam) * L) * ((mu - lam) * L) := mul_self_nonneg _
      linarith [hsq]

/-- The value of `distanceToSegment` for the point `(5,1,0)` and the segment from `(0,0,0)`
to `(10,0,0)`. -/
theorem distanceToSegment_example (sqrt : T → T) (hs : IsSqrt sqrt) :
    (Vec.distanceToSegment sqrt (Vec.mk3 5 1 0) (Vec.mk3 0 0 0) (Vec.mk3 10 0 0)).point
      = Vec.mk3 5 0 0 ∧
    (Vec.distanceToSegment sqrt (Vec.mk3 5 1 0) (Vec.mk3 0 0 0) (Vec.mk3 10 0 0)).distance
      = 1 := by
  have hL : (Vec.mk3 (10:T) 0 0 - Vec.mk3 0 0 0).length sqrt = 10 := by
    have h : (Vec.mk3 (10:T) 0 0 - Vec.mk3 0 0 0).squaredLength = 10 * 10 := by
      simp [Vec.squaredLength, dot_three, Vec.mk3, Vec.sub_apply]
    rw [Vec.length, h]
    exact hs.mul_self 10 (by norm_num)
  have hE : (Vec.mk3 (10:T) 0 0 - Vec.mk3 0 0 0).squaredLength = 100 := by
    norm_num [Vec.squaredLength, dot_three, Vec.mk3, Vec.sub_apply]
  have ht : dot (Vec.mk3 (5:T) 1 0 - Vec.mk3 0 0 0)
      ((Vec.mk3 (10:T) 0 0 - Vec.mk3 0 0 0).normalize sqrt) = 5 := by
    rw [Vec.normalize, dot_divScalar_right, hL]
    norm_num [dot_three, Vec.mk3, Vec.sub_apply]
  have hpoint : (Vec.distanceToSegment sqrt (Vec.mk3 5 1 0) (Vec.mk3 0 0 0)
      (Vec.mk3 10 0 0)).point = Vec.mk3 5 0 0 := by
    rw [distanceToSegment_point_eq, ht, hE, if_neg (by norm_num), if_neg (by norm_num)]
    funext i
    simp only [Vec.add_apply, Vec.mulScalar, Vec.normalize, Vec.divScalar, hL]
    fin_cases i <;> norm_num [Vec.mk3, Vec.sub_apply]
  refine ⟨hpoint, ?_⟩
  rw [distanceToSegment_distance_eq, hpoint]
  have h1 : (Vec.mk3 (5:T) 1 0 - Vec.mk3 5 0 0).squaredLength = 1 := by
    simp [Vec.squaredLength, dot_three, Vec.mk3, Vec.sub_apply]
  rw [Vec.length, h1]
  exact hs.one

/-- C14: for a segment with `start != end`, `p.distanceToSegment(start, end)` returns the
point `q` that is `start` if the projection parameter is negative, `end` if it exceeds the
segment length, and `start + t * dir` otherwise; `q` lies on the closed segment and no point
of the segment is closer to `p`; the returned distance is the Euclidean distance `|p - q|`;
for `(5,1,0)` and the segment `(0,0,0)-(10,0,0)` the result is `q = (5,0,0)`, `d = 1`. -/
theorem distanceToSegment_nearest_point (sqrt : T → T) (hs : IsSqrt sqrt)
    (p start end_ : Vec T S) (hne : start ≠ end_) :
    (dot (p - start) ((end_ - start).normalize sqrt) < 0 →
      (Vec.distanceToSegment sqrt p start end_).point = start) ∧
    ((end_ - start).length sqrt < dot (p - start) ((end_ - start).normalize sqrt) →
      (Vec.distanceToSegment sqrt p start end_).point = end_) ∧
    (0 ≤ dot (p - start) ((end_ - start).normalize sqrt) →
      dot (p - start) ((end_ - start).normalize sqrt) ≤ (end_ - start).length sqrt →
      (Vec.distanceToSegment sqrt p start end_).point
        = start + ((end_ - start).normalize sqrt).mulScalar
            (dot (p - start) ((end_ - start).normalize sqrt))) ∧
    (∃ lam : T, 0 ≤ lam ∧ lam ≤ 1 ∧
      (Vec.distanceToSegment sqrt p start end_).point
        = start + (end_ - start).mulScalar lam) ∧
    (∀ mu : T, 0 ≤ mu → mu ≤ 1 →
      (p - (Vec.distanceToSegment sqrt p start end_).point).length sqrt
        ≤ (p - (start + (end_ - start).mulScalar mu)).length sqrt) ∧
    (Vec.distanceToSegment sqrt p start end_).distance
      = (p - (Vec.distanceToSegment sqrt p start end_).point).length sqrt ∧
    0 ≤ (Vec.distanceToSegment sqrt p start end_).distance ∧
    (Vec.distanceToSegment sqrt p start end_).distance
        * (Vec.distanceToSegment sqrt p start end_).distance
      = dot (p - (Vec.distanceToSegment sqrt p start end_).point)
          (p - (Vec.distanceToSegment sqrt p start end_).point) ∧
    (Vec.distanceToSegment sqrt (Vec.mk3 5 1 0) (Vec.mk3 0 0 0) (Vec.mk3 10 0 0)).point
      = Vec.mk3 5 0 0 ∧
    (Vec.distanceToSegment sqrt (Vec.mk3 5 1 0) (Vec.mk3 0 0 0) (Vec.mk3 10 0 0)).distance
      = 1 := by
  have hLpos : 0 < (end_ - start).length sqrt := length_pos_of_ne hs start end_ hne
  have hLL : (end_ - start).length sqrt * (end_ - start).length sqrt
      = (end_ - start).squaredLength := Vec.length_mul_self hs _
  obtain ⟨lam, hlam0, hlam1, hlam, hnear⟩ :=
    distanceToSegment_point_nearest sqrt hs p start end_ hne
  refine ⟨?_, ?_, ?_, ⟨lam, hlam0, hlam1, hlam⟩, ?_, rfl, ?_, ?_,
    (distanceToSegment_example sqrt hs).1, (distanceToSegment_example sqrt hs).2⟩
  · intro hneg
    rw [distanceToSegment_point_eq, if_pos hneg]
  · intro hgt
    have ht0 : ¬ dot (p - start) ((end_ - start).normalize sqrt) < 0 :=
      not_lt.mpr (le_of_lt (lt_trans hLpos hgt))
    have hsq : dot (p - start) ((end_ - start).normalize sqrt)
        * dot (p - start) ((end_ - start).normalize sqrt) > (end_ - start).squaredLength := by
      rw [← hLL]
      exact mul_self_lt_mul_self (le_of_lt hLpos) hgt
    rw [distanceToSegment_point_eq, if_neg ht0, if_pos hsq]
  · intro ht0 htL
    have hsq : ¬ dot (p - start) ((end_ - start).normalize sqrt)
        * dot (p - start) ((end_ - start).normalize sqrt) > (end_ - start).squaredLength := by
      rw [← hLL]
      exact not_lt.mpr (mul_self_le_mul_self ht0 htL)
    rw [distanceToSegment_point_eq, if_neg (not_lt.mpr ht0), if_neg hsq]
  · intro mu hmu0 hmu1
    exact hs.mono _ _ (Vec.squaredLength_nonneg _) (hnear mu hmu0 hmu1)
  · rw [distanceToSegment_distance_eq]
    exact Vec.length_nonneg hs _
  · rw [distanceToSegment_distance_eq]
    exact Vec.length_mul_self hs _

/-- Witness for C14 on real scalars: the point `(12,3,4)` and the segment from `(0,0,0)` to
`(10,0,0)`. -/
theorem distanceToSegment_nearest_point_witness :
    IsSqrt Real.sqrt ∧ Vec.mk3 (0:ℝ) 0 0 ≠ Vec.mk3 10 0 0 ∧
    (∀ mu : ℝ, 0 ≤ mu → mu ≤ 1 →
      (Vec.mk3 (12:ℝ) 3 4 - (Vec.distanceToSegment Real.sqrt (Vec.mk3 12 3 4)
          (Vec.mk3 0 0 0) (Vec.mk3 10 0 0)).point).length Real.sqrt
        ≤ (Vec.mk3 (12:ℝ) 3 4 - (Vec.mk3 (0:ℝ) 0 0
            + (Vec.mk3 (10:ℝ) 0 0 - Vec.mk3 0 0 0).mulScalar mu)).length Real.sqrt) ∧
    (Vec.distanceToSegment Real.sqrt (Vec.mk3 5 1 0) (Vec.mk3 0 0 0) (Vec.mk3 10 0 0)).point
      = Vec.mk3 5 0 0 ∧
    (Vec.distanceToSegment Real.sqrt (Vec.mk3 5 1 0) (Vec.mk3 0 0 0) (Vec.mk3 10 0 0)).distance
      = 1 :=
  have hne : Vec.mk3 (0:ℝ) 0 0 ≠ Vec.mk3 10 0 0 := by
    intro h
    have h0 := congrFun h 0
    norm_num [Vec.mk3] at h0
  have hall := distanceToSegment_nearest_point Real.sqrt isSqrt_real (Vec.mk3 12 3 4)
    (Vec.mk3 0 0 0) (Vec.mk3 10 0 0) hne
  ⟨isSqrt_real, hne, hall.2.2.2.2.1, hall.2.2.2.2.2.2.2.2.1, hall.2.2.2.2.2.2.2.2.2⟩

end SegmentProofs

/-! ## Proofs: `push_heap` and `sort_heap` -/

section HeapProofs

variable {α : Type}

theorem getD_set_self (l : List α) (i : Nat) (a d : α) (h : i < l.length) :
    (l.set i a).getD i d = a := by
  simp [List.getD_eq_getElem?_getD, List.getElem?_set, h]

theorem getD_set_ne (l : List α) (i j : Nat) (a d : α) (h : i ≠ j) :
    (l.set i a).getD j d = l.getD j d := by
  simp [List.getD_eq_getElem?_getD, List.getElem?_set_ne h]

theorem getD_default_irrel (l : List α) (i : Nat) (d e : α) (h : i < l.length) :
    l.getD i d = l.getD i e := by
  rw [List.getD_eq_getElem _ _ h, List.getD_eq_getElem _ _ h]

theorem set_getD_self (l : List α) (i : Nat) (d : α) : l.set i (l.getD i d) = l := by
  induction l generalizing i with
  | nil => rfl
  | cons x xs ih =>
    cases i with
    | zero => rfl
    | succ n =>
      simp only [List.set_cons_succ, List.getD_cons_succ]
      rw [ih]

/-- Filling the hole after one move of the hole from `h` to `p` permutes the list filled
at `h`. -/
theorem set_set_perm [DecidableEq α] (l : List α) (h p : Nat) (value d : α)
    (hh : h < l.length) (hp : p < l.length) (hne : h ≠ p) :
    List.Perm ((l.set h (l.getD p d)).set p value) (l.set h value) := by
  rw [List.perm_iff_count]
  intro b
  have hp2 : p < (l.set h (l.getD p d)).length := by rw [List.length_set]; exact hp
  rw [List.count_set _ _ _ _ hp2, List.count_set _ _ _ _ hh, List.count_set _ _ _ _ hh]
  have hget : (l.set h (l.getD p d))[p] = l.getD p d := by
    have h1 := getD_set_ne l h p (l.getD p d) d hne
    rwa [List.getD_eq_getElem _ _ hp2] at h1
  rw [hget]
  split_ifs <;> omega

theorem pushHeapLoop_zero (comp : α → α → Bool) (value : α) (top : Nat) (first : List α)
    (h : Nat) : pushHeapLoop comp value top 0 first h = first.set h value := rfl

theorem pushHeapLoop_succ (comp : α → α → Bool) (value : α) (top fuel : Nat)
    (first : List α) (h : Nat) :
    pushHeapLoop comp value top (fuel + 1) first h
      = if h > top ∧ comp (first.getD ((h - 1) / 2) value) value = true then
          pushHeapLoop comp value top fuel
            (first.set h (first.getD ((h - 1) / 2) value)) ((h - 1) / 2)
        else first.set h value := rfl

theorem pushHeapLoop_length (comp : α → α → Bool) (value : α) (top fuel : Nat)
    (first : List α) (h : Nat) :
    (pushHeapLoop comp value top fuel first h).length = first.length := by
  induction fuel generalizing first h with
  | zero => rw [pushHeapLoop_zero, List.length_set]
  | succ n ih =>
    rw [pushHeapLoop_succ]
    split_ifs
    · rw [ih, List.length_set]
    · rw [List.length_set]

/-- The sift-up loop leaves the positions above the hole alone. -/
theorem pushHeapLoop_getD_above (comp : α → α → Bool) (value d : α) (top fuel : Nat)
    (first : List α) (h j : Nat) (hj : h < j) :
    (pushHeapLoop comp value top fuel first h).getD j d = first.getD j d := by
  induction fuel generalizing first h with
  | zero => rw [pushHeapLoop_zero, getD_set_ne _ _ _ _ _ (ne_of_lt hj)]
  | succ n ih =>
    rw [pushHeapLoop_succ]
    split_ifs
    · rw [ih _ _ (by omega), getD_set_ne _ _ _ _ _ (ne_of_lt hj)]
    · rw [getD_set_ne _ _ _ _ _ (ne_of_lt hj)]

/-- The sift-up loop permutes the list filled at the hole. -/
theorem pushHeapLoop_perm [DecidableEq α] (comp : α → α → Bool) (value : α) (fuel : Nat)
    (first : List α) (h : Nat) (hh : h < first.length) :
    List.Perm (pushHeapLoop comp value 0 fuel first h) (first.set h value) := by
  induction fuel generalizing first h with
  | zero => rw [pushHeapLoop_zero]
  | succ n ih =>
    rw [pushHeapLoop_succ]
    split_ifs with hc
    · have hp : (h - 1) / 2 < first.length := by omega
      have hne : h ≠ (h - 1) / 2 := by omega
      refine (ih _ _ (by rw [List.length_set]; exact hp)).trans ?_
      exact set_set_perm first h _ value value hh hp hne
    · exact List.Perm.refl _

/-- A property that holds of `value` and at the positions below `m` other than the hole
holds at every position below `m` after the sift-up loop. -/
theorem pushHeapLoop_forall (P : α → Prop) (comp : α → α → Bool) (value d : α)
    (fuel : Nat) (first : List α) (h m : Nat) (hh : h < m) (hm : m ≤ first.length)
    (hP : ∀ i, i < m → i ≠ h → P (first.getD i d)) (hv : P value) :
    ∀ i, i < m → P ((pushHeapLoop comp value 0 fuel first h).getD i d) := by
  induction fuel generalizing first h with
  | zero =>
    intro i hi
    rw [pushHeapLoop_zero]
    by_cases hih : h = i
    · subst hih
      rw [getD_set_self _ _ _ _ (by omega)]
      exact hv
    · rw [getD_set_ne _ _ _ _ _ hih]
      exact hP i hi (Ne.symm hih)
  | succ n ih =>
    rw [pushHeapLoop_succ]
    split_ifs with hc
    · apply ih _ _ (by omega) (by rw [List.length_set]; exact hm)
      intro i hi hne
      by_cases hih : h = i
      · subst hih
        rw [getD_set_self _ _ _ _ (by omega),
          getD_default_irrel _ _ value d (by omega)]
        exact hP _ (by omega) (by omega)
      · rw [getD_set_ne _ _ _ _ _ hih]
        exact hP i hi (Ne.symm hih)
    · intro i hi
      by_cases hih : h = i
      · subst hih
        rw [getD_set_self _ _ _ _ (by omega)]
        exact hv
      · rw [getD_set_ne _ _ _ _ _ hih]
        exact hP i hi (Ne.symm hih)

variable {K : Type} [LinearOrder K]

/-- Filling the hole gives a heap when the value fits between the parent and the children
of the hole. -/
theorem set_hole_heap (key : α → K) (value d : α) (first : List α) (h m : Nat)
    (hh : h < m) (hm : m ≤ first.length)
    (I1 : ∀ i, 0 < i → i < m → i ≠ h → (i - 1) / 2 ≠ h →
      key (first.getD i d) ≤ key (first.getD ((i - 1) / 2) d))
    (I2 : ∀ c, 0 < c → c < m → (c - 1) / 2 = h → key (first.getD c d) ≤ key value)
    (hpar : 0 < h → key value ≤ key (first.getD ((h - 1) / 2) d)) :
    ∀ i, 0 < i → i < m →
      key ((first.set h value).getD i d) ≤ key ((first.set h value).getD ((i - 1) / 2) d) := by
  intro i hi0 him
  by_cases hih : h = i
  · subst hih
    rw [getD_set_self _ _ _ _ (by omega), getD_set_ne _ _ _ _ _ (by omega)]
    exact hpar hi0
  · rw [getD_set_ne _ _ _ _ _ hih]
    by_cases hph : h = (i - 1) / 2
    · rw [← hph, getD_set_self _ _ _ _ (by omega)]
      exact I2 i hi0 him hph.symm
    · rw [getD_set_ne _ _ _ _ _ hph]
      exact I1 i hi0 him (Ne.symm hih) (Ne.symm hph)

/-- The sift-up loop restores the heap: if the heap order holds away from the hole, the
children of the hole are at most `value` and at most the parent of the hole, then the
result is a heap on the first `m` positions. -/
theorem pushHeapLoop_heap (key : α → K) (comp : α → α → Bool)
    (hc : ∀ a b, comp a b = true ↔ key a < key b) (value d : α) (fuel : Nat)
    (first : List α) (h m : Nat) (hh : h < m) (hm : m ≤ first.length) (hfuel : h ≤ fuel)
    (I1 : ∀ i, 0 < i → i < m → i ≠ h → (i - 1) / 2 ≠ h →
      key (first.getD i d) ≤ key (first.getD ((i - 1) / 2) d))
    (I2 : ∀ c, 0 < c → c < m → (c - 1) / 2 = h → key (first.getD c d) ≤ key value)
    (I3 : 0 < h → ∀ c, 0 < c → c < m → (c - 1) / 2 = h →
      key (first.getD c d) ≤ key (first.getD ((h - 1) / 2) d)) :
    ∀ i, 0 < i → i < m →
      key ((pushHeapLoop comp value 0 fuel first h).getD i d)
        ≤ key ((pushHeapLoop comp value 0 fuel first h).getD ((i - 1) / 2) d) := by
  induction fuel generalizing first h with
  | zero =>
    rw [pushHeapLoop_zero]
    exact set_hole_heap key value d first h m hh hm I1 I2 (fun h0 => by omega)
  | succ n ih =>
    rw [pushHeapLoop_succ]
    split_ifs with hcond
    · obtain ⟨hpos, hcmp⟩ := hcond
      have hp : (h - 1) / 2 < h := by omega
      rw [getD_default_irrel _ _ value d (by omega)] at hcmp ⊢
      have hlt : key (first.getD ((h - 1) / 2) d) < key value := (hc _ _).mp hcmp
      apply ih _ _ (by omega) (by rw [List.length_set]; exact hm) (by omega)
      · intro i hi0 him hne hpne
        have hih : h ≠ i := by
          intro heq
          exact hpne (by rw [← heq])
        rw [getD_set_ne _ _ _ _ _ hih]
        by_cases hph : h = (i - 1) / 2
        · rw [← hph, getD_set_self _ _ _ _ (by omega)]
          exact I3 hpos i hi0 him hph.symm
        · rw [getD_set_ne _ _ _ _ _ hph]
          exact I1 i hi0 him (Ne.symm hih) (Ne.symm hph)
      · intro c hc0 hcm hcp
        by_cases hch : h = c
        · rw [← hch, getD_set_self _ _ _ _ (by omega)]
          exact le_of_lt hlt
        · rw [getD_set_ne _ _ _ _ _ hch]
          have h1 := I1 c hc0 hcm (Ne.symm hch) (by omega)
          rw [hcp] at h1
          exact le_trans h1 (le_of_lt hlt)
      · intro hp0 c hc0 hcm hcp
        have hpp : key (first.getD ((h - 1) / 2) d)
            ≤ key (first.getD (((h - 1) / 2 - 1) / 2) d) :=
          I1 ((h - 1) / 2) hp0 (by omega) (by omega) (by omega)
        rw [getD_set_ne _ _ _ _ _ (show h ≠ ((h - 1) / 2 - 1) / 2 by omega)]
        by_cases hch : h = c
        · rw [← hch, getD_set_self _ _ _ _ (by omega)]
          exact hpp
        · rw [getD_set_ne _ _ _ _ _ hch]
          have h1 := I1 c hc0 hcm (Ne.symm hch) (by omega)
          rw [hcp] at h1
          exact le_trans h1 hpp
    · apply set_hole_heap key value d first h m hh hm I1 I2
      intro hpos
      have hncmp : ¬ comp (first.getD ((h - 1) / 2) value) value = true := by
        intro hcmp
        exact hcond ⟨hpos, hcmp⟩
      rw [getD_default_irrel _ _ value d (by omega)] at hncmp
      exact not_lt.mp (fun hlt => hncmp ((hc _ _).mpr hlt))

theorem push_heap_append (comp : α → α → Bool) (heap : List α) (x : α) :
    push_heap comp (heap ++ [x])
      = pushHeapLoop comp x 0 heap.length (heap ++ [x]) heap.length := by
  simp [push_heap]

theorem set_append_singleton (heap : List α) (x y : α) :
    (heap ++ [x]).set heap.length y = heap ++ [y] := by
  induction heap with
  | nil => rfl
  | cons a l ih => simp [ih]

theorem getD_append_singleton_lt (heap : List α) (x d : α) (i : Nat) (hi : i < heap.length) :
    (heap ++ [x]).getD i d = heap.getD i d := by
  rw [List.getD_eq_getElem _ _ (by simp; omega), List.getD_eq_getElem _ _ hi,
    List.getElem_append_left hi]

/-- The algorithm `push_heap` on a heap extended by one element gives a heap. -/
theorem push_heap_heap (key : α → K) (comp : α → α → Bool)
    (hc : ∀ a b, comp a b = true ↔ key a < key b) (d : α) (heap : List α) (x : α)
    (hheap : ∀ i, 0 < i → i < heap.length →
      key (heap.getD i d) ≤ key (heap.getD ((i - 1) / 2) d)) :
    ∀ i, 0 < i → i < heap.length + 1 →
      key ((push_heap comp (heap ++ [x])).getD i d)
        ≤ key ((push_heap comp (heap ++ [x])).getD ((i - 1) / 2) d) := by
  rw [push_heap_append]
  apply pushHeapLoop_heap key comp hc x d heap.length (heap ++ [x]) heap.length
    (heap.length + 1) (by omega) (by simp) le_rfl
  · intro i hi0 him hne _
    rw [getD_append_singleton_lt _ _ _ _ (by omega),
      getD_append_singleton_lt _ _ _ _ (by omega)]
    exact hheap i hi0 (by omega)
  · intro c hc0 hcm hcp
    omega
  · intro _ c hc0 hcm hcp
    omega

theorem push_heap_perm [DecidableEq α] (comp : α → α → Bool) (heap : List α) (x : α) :
    List.Perm (push_heap comp (heap ++ [x])) (heap ++ [x]) := by
  rw [push_heap_append]
  have h := pushHeapLoop_perm comp x heap.length (heap ++ [x]) heap.length (by simp)
  rwa [set_append_singleton] at h

theorem push_heap_length (comp : α → α → Bool) (heap : List α) (x : α) :
    (push_heap comp (heap ++ [x])).length = heap.length + 1 := by
  rw [push_heap_append, pushHeapLoop_length]
  simp

/-- The loop of `majorComponent` that pushes the indices one by one builds a heap that is a
permutation of what was pushed. -/
theorem foldl_push_heap_spec [DecidableEq α] (key : α → K) (comp : α → α → Bool)
    (hc : ∀ a b, comp a b = true ↔ key a < key b) (d : α) (l heap : List α)
    (hheap : ∀ i, 0 < i → i < heap.length →
      key (heap.getD i d) ≤ key (heap.getD ((i - 1) / 2) d)) :
    (∀ i, 0 < i → i < (l.foldl (fun heap i => push_heap comp (heap ++ [i])) heap).length →
      key ((l.foldl (fun heap i => push_heap comp (heap ++ [i])) heap).getD i d)
        ≤ key ((l.foldl (fun heap i => push_heap comp (heap ++ [i])) heap).getD
            ((i - 1) / 2) d)) ∧
    List.Perm (l.foldl (fun heap i => push_heap comp (heap ++ [i])) heap) (heap ++ l) := by
  induction l generalizing heap with
  | nil => exact ⟨hheap, by simp⟩
  | cons x rest ih =>
    rw [List.foldl_cons]
    have hh := push_heap_heap key comp hc d heap x hheap
    rw [← push_heap_length comp heap x] at hh
    obtain ⟨h1, h2⟩ := ih (push_heap comp (heap ++ [x])) hh
    refine ⟨h1, h2.trans ?_⟩
    have h3 := (push_heap_perm comp heap x).append_right rest
    simpa using h3

theorem adjustHeapLoop_zero (comp : α → α → Bool) (value : α) (len : Nat) (first : List α)
    (h sc : Nat) : adjustHeapLoop comp value len 0 first h sc = (first, h, sc) := rfl

theorem adjustHeapLoop_succ (comp : α → α → Bool) (value : α) (len fuel : Nat)
    (first : List α) (h sc : Nat) :
    adjustHeapLoop comp value len (fuel + 1) first h sc
      = if sc < (len - 1) / 2 then
          adjustHeapLoop comp value len fuel
            (first.set h (first.getD
              (if comp (first.getD (2 * (sc + 1)) value)
                  (first.getD (2 * (sc + 1) - 1) value) = true
                then 2 * (sc + 1) - 1 else 2 * (sc + 1)) value))
            (if comp (first.getD (2 * (sc + 1)) value)
                (first.getD (2 * (sc + 1) - 1) value) = true
              then 2 * (sc + 1) - 1 else 2 * (sc + 1))
            (if comp (first.getD (2 * (sc + 1)) value)
                (first.getD (2 * (sc + 1) - 1) value) = true
              then 2 * (sc + 1) - 1 else 2 * (sc + 1))
        else (first, h, sc) := rfl

/-- One iteration of the sift-down loop: the hole moves to a child that is not smaller
than the other child. -/
theorem adjustHeapLoop_step (key : α → K) (comp : α → α → Bool)
    (hc : ∀ a b, comp a b = true ↔ key a < key b) (value d : α) (len fuel : Nat)
    (first : List α) (h : Nat) (hlen : len ≤ first.length) (hlt : h < (len - 1) / 2) :
    ∃ c, (c = 2 * h + 1 ∨ c = 2 * h + 2) ∧
      key (first.getD (2 * h + 1) d) ≤ key (first.getD c d) ∧
      key (first.getD (2 * h + 2) d) ≤ key (first.getD c d) ∧
      adjustHeapLoop comp value len (fuel + 1) first h h
        = adjustHeapLoop comp value len fuel (first.set h (first.getD c d)) c c := by
  rw [adjustHeapLoop_succ, if_pos hlt]
  have e1 : 2 * (h + 1) - 1 = 2 * h + 1 := by omega
  have e2 : 2 * (h + 1) = 2 * h + 2 := by omega
  rw [e1, e2, getD_default_irrel _ (2 * h + 2) value d (by omega),
    getD_default_irrel _ (2 * h + 1) value d (by omega)]
  by_cases hcmp : comp (first.getD (2 * h + 2) d) (first.getD (2 * h + 1) d) = true
  · refine ⟨2 * h + 1, Or.inl rfl, le_rfl, le_of_lt ((hc _ _).mp hcmp), ?_⟩
    rw [hcmp, if_pos rfl, getD_default_irrel first (2 * h + 1) value d (by omega)]
  · refine ⟨2 * h + 2, Or.inr rfl, ?_, le_rfl, ?_⟩
    · exact not_lt.mp (fun hlt2 => hcmp ((hc _ _).mpr hlt2))
    · have hb : comp (first.getD (2 * h + 2) d) (first.getD (2 * h + 1) d) = false := by
        simpa using hcmp
      rw [hb, if_neg Bool.false_ne_true,
        getD_default_irrel first (2 * h + 2) value d (by omega)]

theorem adjustHeapLoop_stop (comp : α → α → Bool) (value : α) (len fuel : Nat)
    (first : List α) (h : Nat) (hge : ¬ h < (len - 1) / 2) :
    adjustHeapLoop comp value len fuel first h h = (first, h, h) := by
  cases fuel with
  | zero => rfl
  | succ n => rw [adjustHeapLoop_succ, if_neg hge]

/-- The sift-down loop of `__adjust_heap`: it ends with the hole at a position that is not
below `(len - 1) / 2`; the heap order still holds away from the hole, the children of the
hole are at most its parent, the positions from `len` on are untouched, and the list filled
at the hole is a permutation of the initial list filled at the initial hole. -/
theorem adjustHeapLoop_spec [DecidableEq α] (key : α → K) (comp : α → α → Bool)
    (hc : ∀ a b, comp a b = true ↔ key a < key b) (value d : α) (len fuel : Nat)
    (first : List α) (h : Nat) (hh : h < len) (hlen : len ≤ first.length)
    (hfuel : (len - 1) / 2 ≤ h + fuel)
    (J1 : ∀ i, 0 < i → i < len → i ≠ h → (i - 1) / 2 ≠ h →
      key (first.getD i d) ≤ key (first.getD ((i - 1) / 2) d))
    (J2 : 0 < h → ∀ c, 0 < c → c < len → (c - 1) / 2 = h →
      key (first.getD c d) ≤ key (first.getD ((h - 1) / 2) d)) :
    ∃ (f2 : List α) (h2 : Nat),
      adjustHeapLoop comp value len fuel first h h = (f2, h2, h2) ∧
      h2 < len ∧ ¬ h2 < (len - 1) / 2 ∧ f2.length = first.length ∧
      (∀ i, 0 < i → i < len → i ≠ h2 → (i - 1) / 2 ≠ h2 →
        key (f2.getD i d) ≤ key (f2.getD ((i - 1) / 2) d)) ∧
      (0 < h2 → ∀ c, 0 < c → c < len → (c - 1) / 2 = h2 →
        key (f2.getD c d) ≤ key (f2.getD ((h2 - 1) / 2) d)) ∧
      (∀ j, len ≤ j → f2.getD j d = first.getD j d) ∧
      List.Perm (f2.set h2 value) (first.set h value) ∧
      (∀ P : α → Prop, (∀ i, i < len → i ≠ h → P (first.getD i d)) →
        ∀ i, i < len → i ≠ h2 → P (f2.getD i d)) := by
  induction fuel generalizing first h with
  | zero =>
    exact ⟨first, h, rfl, hh, by omega, rfl, J1, J2, fun _ _ => rfl, List.Perm.refl _,
      fun _ hP => hP⟩
  | succ n ih =>
    by_cases hlt : h < (len - 1) / 2
    · obtain ⟨c, hcc, hc1, hc2, hstep⟩ :=
        adjustHeapLoop_step key comp hc value d len n first h hlen hlt
      have hclen : c < len := by omega
      have hch : h ≠ c := by omega
      have hcpar : (c - 1) / 2 = h := by omega
      obtain ⟨f2, h2, hres, hh2, hstop, hlen2, K1, K2, hout, hperm, hP2⟩ :=
        ih (first.set h (first.getD c d)) c hclen (by rw [List.length_set]; exact hlen)
          (by omega)
          (by
            intro i hi0 hil hic hipc
            by_cases hih : h = i
            · rw [← hih, getD_set_self _ _ _ _ (by omega),
                getD_set_ne _ _ _ _ _ (show h ≠ (h - 1) / 2 by omega)]
              exact J2 (by omega) c (by omega) hclen hcpar
            · rw [getD_set_ne _ _ _ _ _ hih]
              by_cases hph : h = (i - 1) / 2
              · rw [← hph, getD_set_self _ _ _ _ (by omega)]
                have hi12 : i = 2 * h + 1 ∨ i = 2 * h + 2 := by omega
                rcases hi12 with hi1 | hi1
                · rw [hi1]; exact hc1
                · rw [hi1]; exact hc2
              · rw [getD_set_ne _ _ _ _ _ hph]
                exact J1 i hi0 hil (Ne.symm hih) (Ne.symm hph))
          (by
            intro hc0 c2 hc20 hc2l hc2p
            rw [hcpar, getD_set_self _ _ _ _ (by omega),
              getD_set_ne _ _ _ _ _ (show h ≠ c2 by omega)]
            have := J1 c2 hc20 hc2l (by omega) (by omega)
            rwa [hc2p] at this)
      refine ⟨f2, h2, hstep.trans hres, hh2, hstop, ?_, K1, K2, ?_, ?_, ?_⟩
      · rw [hlen2, List.length_set]
      · intro j hj
        rw [hout j hj, getD_set_ne _ _ _ _ _ (show h ≠ j by omega)]
      · exact hperm.trans (set_set_perm first h c value d (by omega) (by omega) hch)
      · intro P hP
        apply hP2 P
        intro i hil hic
        by_cases hih : h = i
        · rw [← hih, getD_set_self _ _ _ _ (by omega)]
          exact hP c hclen (Ne.symm hch)
        · rw [getD_set_ne _ _ _ _ _ hih]
          exact hP i hil (Ne.symm hih)
    · rw [adjustHeapLoop_stop comp value len (n + 1) first h hlt]
      exact ⟨first, h, rfl, hh, hlt, rfl, J1, J2, fun _ _ => rfl, List.Perm.refl _,
        fun _ hP => hP⟩

theorem adjustHeap_eq (comp : α → α → Bool) (value : α) (len : Nat) (first f2 : List α)
    (h h2 : Nat) (hres : adjustHeapLoop comp value len len first h h = (f2, h2, h2)) :
    adjustHeap comp first h len value
      = if len % 2 = 0 ∧ h2 = (len - 2) / 2 then
          pushHeapLoop comp value h (2 * (h2 + 1) - 1)
            (f2.set h2 (f2.getD (2 * (h2 + 1) - 1) value)) (2 * (h2 + 1) - 1)
        else pushHeapLoop comp value h h2 f2 h2 := by
  unfold adjustHeap
  simp only [hres]
  split_ifs <;> rfl

/-- The function `__adjust_heap` called with the hole at the top: if the heap order holds
below the top, the result is a heap on the first `len` positions, a permutation of the list
with `value` at the top, and it agrees with the list from position `len` on. -/
theorem adjustHeap_spec [DecidableEq α] (key : α → K) (comp : α → α → Bool)
    (hc : ∀ a b, comp a b = true ↔ key a < key b) (value d : α) (len : Nat)
    (first : List α) (hpos : 0 < len) (hlen : len ≤ first.length)
    (J1 : ∀ i, 0 < i → i < len → (i - 1) / 2 ≠ 0 →
      key (first.getD i d) ≤ key (first.getD ((i - 1) / 2) d)) :
    (adjustHeap comp first 0 len value).length = first.length ∧
    (∀ i, 0 < i → i < len →
      key ((adjustHeap comp first 0 len value).getD i d)
        ≤ key ((adjustHeap comp first 0 len value).getD ((i - 1) / 2) d)) ∧
    (∀ j, len ≤ j → (adjustHeap comp first 0 len value).getD j d = first.getD j d) ∧
    List.Perm (adjustHeap comp first 0 len value) (first.set 0 value) ∧
    (∀ P : α → Prop, (∀ i, i < len → i ≠ 0 → P (first.getD i d)) → P value →
      ∀ i, i < len → P ((adjustHeap comp first 0 len value).getD i d)) := by
  obtain ⟨f2, h2, hres, hh2, hstop, hlen2, K1, K2, hout, hperm, hP2⟩ :=
    adjustHeapLoop_spec key comp hc value d len len first 0 hpos hlen (by omega)
      (fun i hi0 hil _ hp => J1 i hi0 hil hp) (fun h0 => absurd h0 (lt_irrefl 0))
  rw [adjustHeap_eq comp value len first f2 0 h2 hres]
  by_cases hcond : len % 2 = 0 ∧ h2 = (len - 2) / 2
  · rw [if_pos hcond]
    have e1 : 2 * (h2 + 1) - 1 = 2 * h2 + 1 := by omega
    rw [e1, getD_default_irrel f2 (2 * h2 + 1) value d (by omega)]
    have hh3 : 2 * h2 + 1 < len := by omega
    have hlen3 : len ≤ (f2.set h2 (f2.getD (2 * h2 + 1) d)).length := by
      rw [List.length_set, hlen2]; exact hlen
    refine ⟨?_, ?_, ?_, ?_, ?_⟩
    · rw [pushHeapLoop_length, List.length_set, hlen2]
    · apply pushHeapLoop_heap key comp hc value d (2 * h2 + 1) _ (2 * h2 + 1) len hh3 hlen3
        le_rfl
      · intro i hi0 hil hne hpne
        by_cases hih : h2 = i
        · rw [← hih, getD_set_self _ _ _ _ (by omega),
            getD_set_ne _ _ _ _ _ (show h2 ≠ (h2 - 1) / 2 by omega)]
          exact K2 (by omega) (2 * h2 + 1) (by omega) hh3 (by omega)
        · rw [getD_set_ne _ _ _ _ _ hih,
            getD_set_ne _ _ _ _ _ (show h2 ≠ (i - 1) / 2 by omega)]
          exact K1 i hi0 hil (Ne.symm hih) (by omega)
      · intro c hc0 hcl hcp
        omega
      · intro _ c hc0 hcl hcp
        omega
    · intro j hj
      rw [pushHeapLoop_getD_above _ _ _ _ _ _ _ _ (by omega),
        getD_set_ne _ _ _ _ _ (show h2 ≠ j by omega), hout j hj]
    · refine (pushHeapLoop_perm comp value _ _ _ (by omega)).trans ?_
      exact (set_set_perm f2 h2 (2 * h2 + 1) value d (by omega) (by omega)
        (by omega)).trans hperm
    · intro P hP hv
      apply pushHeapLoop_forall P comp value d _ _ _ len hh3 hlen3 _ hv
      intro i hil hne
      by_cases hih : h2 = i
      · rw [← hih, getD_set_self _ _ _ _ (by omega)]
        exact hP2 P hP (2 * h2 + 1) hh3 (by omega)
      · rw [getD_set_ne _ _ _ _ _ hih]
        exact hP2 P hP i hil (Ne.symm hih)
  · rw [if_neg hcond]
    have hleaf : ∀ c, 0 < c → c < len → (c - 1) / 2 ≠ h2 := by
      intro c hc0 hcl hcp
      apply hcond
      omega
    refine ⟨?_, ?_, ?_, ?_, ?_⟩
    · rw [pushHeapLoop_length, hlen2]
    · apply pushHeapLoop_heap key comp hc value d h2 f2 h2 len hh2 (by omega) le_rfl K1
      · intro c hc0 hcl hcp
        exact absurd hcp (hleaf c hc0 hcl)
      · intro _ c hc0 hcl hcp
        exact absurd hcp (hleaf c hc0 hcl)
    · intro j hj
      rw [pushHeapLoop_getD_above _ _ _ _ _ _ _ _ (by omega), hout j hj]
    · exact (pushHeapLoop_perm comp value _ _ _ (by omega)).trans hperm
    · intro P hP hv
      exact pushHeapLoop_forall P comp value d _ _ _ len hh2 (by omega) (hP2 P hP) hv

theorem popHeap_eq (comp : α → α → Bool) (d : α) (first : List α) (last : Nat)
    (hl : last < first.length) :
    popHeap comp first last
      = adjustHeap comp (first.set last (first.getD 0 d)) 0 last (first.getD last d) := by
  have h0 : 0 < first.length := by omega
  unfold popHeap
  rw [List.getElem?_eq_getElem hl, List.getElem?_eq_getElem h0,
    List.getD_eq_getElem _ _ hl, List.getD_eq_getElem _ _ h0]

/-- In a heap the top has the largest key. -/
theorem heap_top_max (key : α → K) (d : α) (first : List α) (m : Nat)
    (hheap : ∀ i, 0 < i → i < m →
      key (first.getD i d) ≤ key (first.getD ((i - 1) / 2) d)) :
    ∀ i, i < m → key (first.getD i d) ≤ key (first.getD 0 d) := by
  intro i
  induction i using Nat.strong_induction_on with
  | _ i ih =>
    intro hi
    by_cases h0 : i = 0
    · rw [h0]
    · exact le_trans (hheap i (by omega) hi) (ih ((i - 1) / 2) (by omega) (by omega))

/-- One step of `sort_heap`: the top of the heap on `[0, last]` goes to position `last`,
the rest is a heap on `[0, last)`; the list is permuted and its positions beyond `last` are
untouched. -/
theorem popHeap_spec [DecidableEq α] (key : α → K) (comp : α → α → Bool)
    (hc : ∀ a b, comp a b = true ↔ key a < key b) (d : α) (first : List α) (last : Nat)
    (hpos : 0 < last) (hl : last < first.length)
    (hheap : ∀ i, 0 < i → i < last + 1 →
      key (first.getD i d) ≤ key (first.getD ((i - 1) / 2) d)) :
    (popHeap comp first last).length = first.length ∧
    (∀ i, 0 < i → i < last →
      key ((popHeap comp first last).getD i d)
        ≤ key ((popHeap comp first last).getD ((i - 1) / 2) d)) ∧
    (popHeap comp first last).getD last d = first.getD 0 d ∧
    (∀ j, last < j → (popHeap comp first last).getD j d = first.getD j d) ∧
    List.Perm (popHeap comp first last) first ∧
    (∀ P : α → Prop, (∀ i, i ≤ last → P (first.getD i d)) →
      ∀ i, i < last → P ((popHeap comp first last).getD i d)) := by
  rw [popHeap_eq comp d first last hl]
  obtain ⟨a1, a2, a3, a4, a5⟩ :=
    adjustHeap_spec key comp hc (first.getD last d) d last
      (first.set last (first.getD 0 d)) hpos (by rw [List.length_set]; omega)
      (by
        intro i hi0 hil _
        rw [getD_set_ne _ _ _ _ _ (show last ≠ i by omega),
          getD_set_ne _ _ _ _ _ (show last ≠ (i - 1) / 2 by omega)]
        exact hheap i hi0 (by omega))
  refine ⟨?_, a2, ?_, ?_, ?_, ?_⟩
  · rw [a1, List.length_set]
  · rw [a3 last le_rfl, getD_set_self _ _ _ _ hl]
  · intro j hj
    rw [a3 j (le_of_lt hj), getD_set_ne _ _ _ _ _ (show last ≠ j by omega)]
  · refine a4.trans ?_
    have h := set_set_perm first last 0 (first.getD last d) d hl (by omega) (by omega)
    rwa [set_getD_self] at h
  · intro P hP
    apply a5 P
    · intro i hil hi0
      rw [getD_set_ne _ _ _ _ _ (show last ≠ i by omega)]
      exact hP i (by omega)
    · exact hP last le_rfl

theorem sortHeapLoop_zero (comp : α → α → Bool) (first : List α) :
    sortHeapLoop comp 0 first = first := rfl

theorem sortHeapLoop_succ (comp : α → α → Bool) (last : Nat) (first : List α) :
    sortHeapLoop comp (last + 1) first
      = if last + 1 > 1 then sortHeapLoop comp last (popHeap comp first last) else first :=
  rfl

/-- The loop of `sort_heap`: started on a heap on `[0, last)` followed by a sorted tail
whose elements are at least those of the heap, it returns a permutation of the list that is
sorted by key. -/
theorem sortHeapLoop_spec [DecidableEq α] (key : α → K) (comp : α → α → Bool)
    (hc : ∀ a b, comp a b = true ↔ key a < key b) (d : α) (last : Nat) (first : List α)
    (hl : last ≤ first.length)
    (hheap : ∀ i, 0 < i → i < last →
      key (first.getD i d) ≤ key (first.getD ((i - 1) / 2) d))
    (S1 : ∀ j k, last ≤ j → j ≤ k → k < first.length →
      key (first.getD j d) ≤ key (first.getD k d))
    (S2 : ∀ i j, i < last → last ≤ j → j < first.length →
      key (first.getD i d) ≤ key (first.getD j d)) :
    (sortHeapLoop comp last first).length = first.length ∧
    (∀ j k, j ≤ k → k < first.length →
      key ((sortHeapLoop comp last first).getD j d)
        ≤ key ((sortHeapLoop comp last first).getD k d)) ∧
    List.Perm (sortHeapLoop comp last first) first := by
  induction last generalizing first with
  | zero =>
    rw [sortHeapLoop_zero]
    exact ⟨rfl, fun j k hjk hk => S1 j k (Nat.zero_le j) hjk hk, List.Perm.refl _⟩
  | succ n ih =>
    rw [sortHeapLoop_succ]
    by_cases hn : n + 1 > 1
    · rw [if_pos hn]
      obtain ⟨p1, p2, p3, p4, p5, p6⟩ :=
        popHeap_spec key comp hc d first n (by omega) (by omega) hheap
      have hmax := heap_top_max key d first (n + 1) hheap
      obtain ⟨r1, r2, r3⟩ := ih (popHeap comp first n) (by rw [p1]; omega) p2
        (by
          intro j k hj hjk hk
          rw [p1] at hk
          by_cases hjn : j = n
          · by_cases hkn : k = n
            · rw [hjn, hkn]
            · rw [hjn, p3, p4 k (by omega)]
              exact S2 0 k (by omega) (by omega) hk
          · rw [p4 j (by omega), p4 k (by omega)]
            exact S1 j k (by omega) hjk hk)
        (by
          intro i j hi hj hjl
          rw [p1] at hjl
          by_cases hjn : j = n
          · rw [hjn, p3]
            exact p6 (fun x => key x ≤ key (first.getD 0 d))
              (fun i2 hi2 => hmax i2 (by omega)) i hi
          · rw [p4 j (by omega)]
            exact p6 (fun x => key x ≤ key (first.getD j d))
              (fun i2 hi2 => S2 i2 j (by omega) (by omega) hjl) i hi)
      rw [p1] at r1 r2
      exact ⟨r1, r2, r3.trans p5⟩
    · rw [if_neg hn]
      have hn0 : n = 0 := by omega
      refine ⟨rfl, ?_, List.Perm.refl _⟩
      intro j k hjk hk
      by_cases hj0 : j = 0
      · by_cases hk0 : k = 0
        · rw [hj0, hk0]
        · rw [hj0]
          exact S2 0 k (by omega) (by omega) hk
      · exact S1 j k (by omega) hjk hk

/-- The algorithm `sort_heap` on a heap returns a permutation of it that is sorted by
key. -/
theorem sort_heap_spec [DecidableEq α] (key : α → K) (comp : α → α → Bool)
    (hc : ∀ a b, comp a b = true ↔ key a < key b) (d : α) (heap : List α)
    (hheap : ∀ i, 0 < i → i < heap.length →
      key (heap.getD i d) ≤ key (heap.getD ((i - 1) / 2) d)) :
    (sort_heap comp heap).length = heap.length ∧
    (∀ j k, j ≤ k → k < heap.length →
      key ((sort_heap comp heap).getD j d) ≤ key ((sort_heap comp heap).getD k d)) ∧
    List.Perm (sort_heap comp heap) heap :=
  sortHeapLoop_spec key comp hc d heap.length heap le_rfl hheap
    (fun j k hj hjk hk => by omega) (fun i j hi hj hjl => by omega)

end HeapProofs

/-! ## Proofs: `majorComponent(k)` -/

section MajorComponentSelectProofs

variable {T : Type} [LinearOrderedCommRing T] {S : Nat}

theorem SelectionHeapCmp_abs_iff (v : Vec T S) (a b : Fin S) :
    SelectionHeapCmp v true a b = true ↔ |v a| < |v b| := by
  simp [SelectionHeapCmp, std.abs_eq_abs]

/-- The index list that `majorComponent(k)` builds for `k > 0`: a permutation of all indices
in ascending order of magnitude. -/
theorem majorComponent_heap_spec (v : Vec T S) (d : Fin S) :
    (sort_heap (SelectionHeapCmp v true)
      ((List.finRange S).foldl
        (fun heap i => push_heap (SelectionHeapCmp v true) (heap ++ [i])) [])).length = S ∧
    (∀ j k, j ≤ k → k < S →
      |v ((sort_heap (SelectionHeapCmp v true)
          ((List.finRange S).foldl
            (fun heap i => push_heap (SelectionHeapCmp v true) (heap ++ [i])) [])).getD j d)|
        ≤ |v ((sort_heap (SelectionHeapCmp v true)
          ((List.finRange S).foldl
            (fun heap i => push_heap (SelectionHeapCmp v true) (heap ++ [i])) [])).getD k d)|) ∧
    List.Perm (sort_heap (SelectionHeapCmp v true)
      ((List.finRange S).foldl
        (fun heap i => push_heap (SelectionHeapCmp v true) (heap ++ [i])) []))
      (List.finRange S) := by
  obtain ⟨b1, b2⟩ := foldl_push_heap_spec (fun i : Fin S => |v i|) (SelectionHeapCmp v true)
    (SelectionHeapCmp_abs_iff v) d (List.finRange S) [] (fun i _ hi => by simp at hi)
  rw [List.nil_append] at b2
  obtain ⟨s1, s2, s3⟩ := sort_heap_spec (fun i : Fin S => |v i|) (SelectionHeapCmp v true)
    (SelectionHeapCmp_abs_iff v) d _ b1
  have hlen : ((List.finRange S).foldl
      (fun heap i => push_heap (SelectionHeapCmp v true) (heap ++ [i])) []).length = S := by
    rw [b2.length_eq, List.length_finRange]
  rw [hlen] at s1 s2
  exact ⟨s1, s2, s3.trans b2⟩

/-- Reading a list that is sorted by ascending key from the back gives the entries of the
descending sort of the keys. -/
theorem getElem?_insertionSort_ge {α K : Type} [LinearOrder K] (f : α → K)
    (l heap : List α) (d : α) (n : Nat) (hlen : heap.length = n)
    (hsorted : ∀ j k, j ≤ k → k < n → f (heap.getD j d) ≤ f (heap.getD k d))
    (hperm : List.Perm heap l) (k : Nat) (hk : k < n) :
    ((l.map f).insertionSort (fun a b => a ≥ b))[k]? = some (f (heap.getD (n - k - 1) d)) := by
  have hA : List.Sorted (fun a b => a ≤ b) (heap.map f) := by
    unfold List.Sorted
    rw [List.pairwise_iff_getElem]
    intro i j hi hj hij
    rw [List.length_map] at hi hj
    rw [List.getElem_map, List.getElem_map, ← List.getD_eq_getElem heap d hi,
      ← List.getD_eq_getElem heap d hj]
    exact hsorted i j (le_of_lt hij) (by omega)
  have hD : List.Sorted (fun a b => a ≤ b)
      ((l.map f).insertionSort (fun a b => a ≥ b)).reverse := by
    unfold List.Sorted
    rw [List.pairwise_reverse]
    exact List.sorted_insertionSort (fun a b : K => a ≥ b) (l.map f)
  have hp : List.Perm ((l.map f).insertionSort (fun a b => a ≥ b)).reverse (heap.map f) :=
    (List.reverse_perm _).trans
      ((List.perm_insertionSort _ _).trans (hperm.map f).symm)
  have heq : ((l.map f).insertionSort (fun a b => a ≥ b)).reverse = heap.map f :=
    List.eq_of_perm_of_sorted hp hD hA
  have heq2 : (l.map f).insertionSort (fun a b => a ≥ b) = (heap.map f).reverse := by
    rw [← heq, List.reverse_reverse]
  have hkl : k < (heap.map f).length := by rw [List.length_map]; omega
  have hidx : n - k - 1 < heap.length := by omega
  rw [heq2, List.getElem?_reverse hkl, List.length_map, List.getElem?_map, hlen,
    show n - 1 - k = n - k - 1 by omega, List.getElem?_eq_getElem hidx,
    List.getD_eq_getElem heap d hidx]
  rfl

/-- The head of the descending sort of the magnitudes is the largest magnitude. -/
theorem head_insertionSort_ge_eq_max {K : Type} [LinearOrder K] (m : List K) (x : K)
    (hx : x ∈ m) (hmax : ∀ y ∈ m, y ≤ x) :
    (m.insertionSort (fun a b => a ≥ b))[0]? = some x := by
  have hs : List.Sorted (fun a b => a ≥ b) (m.insertionSort (fun a b => a ≥ b)) :=
    List.sorted_insertionSort (fun a b : K => a ≥ b) m
  have hp : List.Perm (m.insertionSort (fun a b => a ≥ b)) m := List.perm_insertionSort _ _
  cases hD : m.insertionSort (fun a b => a ≥ b) with
  | nil =>
    rw [hD] at hp
    rw [← List.Perm.nil_eq hp] at hx
    simp at hx
  | cons y rest =>
    rw [hD] at hs hp
    have hy : y ∈ m := hp.subset (List.mem_cons_self _ _)
    have hxm : x ∈ y :: rest := hp.symm.subset hx
    have hxy : x ≤ y := by
      rcases List.mem_cons.mp hxm with h | h
      · rw [h]
      · exact List.rel_of_sorted_cons hs x h
    simp only [List.getElem?_cons_zero, Option.some.injEq]
    exact le_antisymm (hmax y hy) hxy

/-- The value of `majorComponent(k)` for `k < S`: an index whose magnitude is entry `k` of
the descending sort of the magnitudes. -/
theorem majorComponent_kth (v : Vec T S) (k : Nat) (hk : k < S) :
    ∃ c : Fin S, majorComponent v k = some c ∧
      (((List.finRange S).map (fun i => |v i|)).insertionSort (fun a b => a ≥ b))[k]?
        = some |v c| := by
  by_cases hk0 : k = 0
  · subst hk0
    obtain ⟨c, hc, hmax, _⟩ := majorComponent_zero_spec v hk
    refine ⟨c, hc, head_insertionSort_ge_eq_max _ _ ?_ ?_⟩
    · exact List.mem_map.mpr ⟨c, List.mem_finRange c, rfl⟩
    · intro y hy
      obtain ⟨j, _, rfl⟩ := List.mem_map.mp hy
      exact hmax j
  · obtain ⟨h1, h2, h3⟩ := majorComponent_heap_spec v ⟨0, by omega⟩
    have hval : majorComponent v k
        = some ((sort_heap (SelectionHeapCmp v true)
            ((List.finRange S).foldl
              (fun heap i => push_heap (SelectionHeapCmp v true) (heap ++ [i])) [])).getD
            (S - k - 1) ⟨0, by omega⟩) := by
      simp only [majorComponent, dif_pos hk, if_neg hk0]
    exact ⟨_, hval, getElem?_insertionSort_ge (fun i : Fin S => |v i|) (List.finRange S) _ _
      S h1 h2 h3 k hk⟩

end MajorComponentSelectProofs

/-! ## Proofs: `colinear` on all triples, `commonPlane`, `linearlyDependent` -/

section PlanesProofs

variable {T : Type} [LinearOrderedField T] {S : Nat}

/-- C30: on exact scalars, for every epsilon `>= 0` and all points `p1`, `p2`, `p3`,
`colinear(p1, p2, p3, epsilon)` returns true, because `(p2 - p1) + (p3 - p2)` is
`p3 - p1`; so the assertion `!p1.colinear(p2, p3, epsilon)` of `commonPlane` fails on every
input. -/
theorem colinear_always_true (epsilon : T) (heps : 0 ≤ epsilon) :
    (∀ p1 p2 p3 : Vec T S, (p2 - p1) + (p3 - p2) = p3 - p1) ∧
    (∀ p1 p2 p3 : Vec T S, colinear p1 p2 p3 epsilon = true) ∧
    (∀ (sqrt : T → T) (p1 p2 p3 p4 : Vec T 3), commonPlane sqrt p1 p2 p3 p4 epsilon = none) := by
  refine ⟨?_, fun p1 p2 p3 => colinear_eq_true p1 p2 p3 epsilon heps, ?_⟩
  · intro p1 p2 p3
    funext i
    simp only [Vec.add_apply, Vec.sub_apply]
    ring
  · intro sqrt p1 p2 p3 p4
    simp [commonPlane, colinear_eq_true p1 p2 p3 epsilon heps]

/-- Witness for C30 on rational scalars with epsilon `0.001`, evaluated on the triangle
`(0,0,0), (1,0,0), (0,1,0)`. -/
theorem colinear_always_true_witness :
    (0 : ℚ) ≤ 1 / 1000 ∧
    colinear (Vec.mk3 (0:ℚ) 0 0) (Vec.mk3 1 0 0) (Vec.mk3 0 1 0) (1 / 1000) = true ∧
    commonPlane (fun x => x) (Vec.mk3 (0:ℚ) 0 0) (Vec.mk3 1 0 0) (Vec.mk3 0 1 0)
      (Vec.mk3 0 0 5) (1 / 1000) = none :=
  have h := colinear_always_true (T := ℚ) (S := 3) (1 / 1000) (by norm_num)
  ⟨by norm_num, h.2.1 _ _ _, h.2.2 _ _ _ _ _⟩

/-- C25 (evaluation of the code): on the non-collinear points `(0,0,0), (1,0,0), (0,1,0)`
and any fourth point, `commonPlane` fails its assertion for every epsilon `>= 0`. -/
theorem commonPlane_assertion_fails (sqrt : T → T) (p4 : Vec T 3) (epsilon : T)
    (heps : 0 ≤ epsilon) :
    commonPlane sqrt (Vec.mk3 0 0 0) (Vec.mk3 1 0 0) (Vec.mk3 0 1 0) p4 epsilon = none := by
  simp [commonPlane, colinear_eq_true _ _ _ epsilon heps]

/-- Witness for C25 on real scalars: the fourth point `(0,0,5)` and epsilon `0.001`. -/
theorem commonPlane_assertion_fails_witness :
    (0 : ℝ) ≤ 1 / 1000 ∧
    commonPlane Real.sqrt (Vec.mk3 0 0 0) (Vec.mk3 1 0 0) (Vec.mk3 0 1 0) (Vec.mk3 0 0 5)
      (1 / 1000) = none :=
  ⟨by norm_num, commonPlane_assertion_fails Real.sqrt _ (1 / 1000) (by norm_num)⟩

/-- C29 (as amended): in exact arithmetic, for every colinearity epsilon `>= 0` and every
exactly collinear triple, written as `a`, `b = a + s d`, `c = a + t d` (two or all three
points may coincide), `linearlyDependent(a, b, c)` returns true; and `linearlyDependent` is
`linearlyDependent1` on every triple. -/
theorem linearlyDependent_collinear (colinearEpsilon : T) (heps : 0 ≤ colinearEpsilon)
    (a b c d : Vec T S) (s t : T) (hb : b = a + d.mulScalar s) (hc : c = a + d.mulScalar t) :
    linearlyDependent colinearEpsilon a b c = true ∧
    (∀ x y z : Vec T S,
      linearlyDependent colinearEpsilon x y z = linearlyDependent1 colinearEpsilon x y z) := by
  subst hb hc
  refine ⟨?_, fun x y z => rfl⟩
  unfold linearlyDependent
  rw [linearlyDependent1_eq_true_iff, linearlyDependent1Discriminant_collinear, abs_zero]
  exact heps

/-- Witness for C29 on rational scalars: the points `(1,2,3)`, `(3,2,1)`, `(0,2,4)` on the
line through `(1,2,3)` with direction `(1,0,-1)`, and `colinearEpsilon = 0.00001`. -/
theorem linearlyDependent_collinear_witness :
    (0 : ℚ) ≤ 1 / 100000 ∧
    Vec.mk3 (3:ℚ) 2 1 = Vec.mk3 (1:ℚ) 2 3 + (Vec.mk3 (1:ℚ) 0 (-1)).mulScalar 2 ∧
    Vec.mk3 (0:ℚ) 2 4 = Vec.mk3 (1:ℚ) 2 3 + (Vec.mk3 (1:ℚ) 0 (-1)).mulScalar (-1) ∧
    linearlyDependent (1 / 100000) (Vec.mk3 (1:ℚ) 2 3) (Vec.mk3 3 2 1) (Vec.mk3 0 2 4)
      = true :=
  have h1 : Vec.mk3 (3:ℚ) 2 1
      = Vec.mk3 (1:ℚ) 2 3 + (Vec.mk3 (1:ℚ) 0 (-1)).mulScalar 2 := by
    funext i
    fin_cases i <;> norm_num [Vec.mk3, Vec.add_apply, Vec.mulScalar]
  have h2 : Vec.mk3 (0:ℚ) 2 4
      = Vec.mk3 (1:ℚ) 2 3 + (Vec.mk3 (1:ℚ) 0 (-1)).mulScalar (-1) := by
    funext i
    fin_cases i <;> norm_num [Vec.mk3, Vec.add_apply, Vec.mulScalar]
  ⟨by norm_num, h1, h2,
    (linearlyDependent_collinear (1 / 100000) (by norm_num) _ _ _ (Vec.mk3 1 0 (-1)) 2 (-1)
      h1 h2).1⟩

theorem dot_cross_left (a b : Vec T 3) : dot (cross a b) a = 0 := by
  rw [dot_three]
  simp only [cross, Vec.mk3, Matrix.cons_val_zero, Matrix.cons_val_one, Matrix.head_cons,
    Matrix.cons_val_two, Matrix.tail_cons]
  ring

theorem dot_cross_right (a b : Vec T 3) : dot (cross a b) b = 0 := by
  rw [dot_three]
  simp only [cross, Vec.mk3, Matrix.cons_val_zero, Matrix.cons_val_one, Matrix.head_cons,
    Matrix.cons_val_two, Matrix.tail_cons]
  ring

/-- A vector divided by its positive length has length `1`. -/
theorem length_normalize {sqrt : T → T} (hs : IsSqrt sqrt) (n : Vec T S)
    (hpos : 0 < n.length sqrt) : (n.normalize sqrt).length sqrt = 1 := by
  have hLL := Vec.length_mul_self hs n
  have hne : n.length sqrt ≠ 0 := ne_of_gt hpos
  have h1 : (n.normalize sqrt).squaredLength = 1 := by
    unfold Vec.squaredLength Vec.normalize
    rw [dot_divScalar_left, dot_divScalar_right, ← hLL]
    field_simp
  rw [Vec.length, h1]
  exact hs.one

/-- On the success path of `planeNormal` the denominator of `sin_theta` is not zero. -/
theorem planeNormal_success_denominator (sqrt : T → T) (p0 p1 p2 : Vec T 3) (e : T)
    (hok : (planeNormal sqrt p0 p1 p2 e).1 = true) :
    (p2 - p0).length sqrt * (p1 - p0).length sqrt ≠ 0 := by
  intro hden
  unfold planeNormal at hok
  simp only at hok
  by_cases hnum : (cross (p2 - p0) (p1 - p0)).length sqrt = 0
  · simp [hden, hnum] at hok
  · simp [hden, hnum] at hok

/-- C28: for every epsilon `> 0`, when `planeNormal` returns true the normal it leaves has
length `1`, is orthogonal to `p1 - p0` and to `p2 - p0`, and is `cross(p2 - p0, p1 - p0)`
divided by its length; that length and the denominator of `sin_theta` are not zero, so no
division by zero occurs on the success path. -/
theorem planeNormal_success_unit_normal (sqrt : T → T) (hs : IsSqrt sqrt)
    (p0 p1 p2 : Vec T 3) (epsilon : T) (heps : 0 < epsilon)
    (hok : (planeNormal sqrt p0 p1 p2 epsilon).1 = true) :
    (planeNormal sqrt p0 p1 p2 epsilon).2.length sqrt = 1 ∧
    dot (planeNormal sqrt p0 p1 p2 epsilon).2 (p1 - p0) = 0 ∧
    dot (planeNormal sqrt p0 p1 p2 epsilon).2 (p2 - p0) = 0 ∧
    (planeNormal sqrt p0 p1 p2 epsilon).2
      = (cross (p2 - p0) (p1 - p0)).divScalar ((cross (p2 - p0) (p1 - p0)).length sqrt) ∧
    (cross (p2 - p0) (p1 - p0)).length sqrt ≠ 0 ∧
    (p2 - p0).length sqrt * (p1 - p0).length sqrt ≠ 0 := by
  obtain ⟨hpos, hval⟩ := planeNormal_success sqrt hs p0 p1 p2 epsilon heps hok
  refine ⟨?_, ?_, ?_, hval, ne_of_gt hpos,
    planeNormal_success_denominator sqrt p0 p1 p2 epsilon hok⟩
  · rw [hval]
    exact length_normalize hs _ hpos
  · rw [hval, dot_divScalar_left, dot_cross_right, zero_div]
  · rw [hval, dot_divScalar_left, dot_cross_left, zero_div]

/-- Witness for C28 on real scalars: the triple `(0,0,0), (1,0,0), (0,1,0)` with epsilon
`0.00000001`. -/
theorem planeNormal_success_unit_normal_witness :
    IsSqrt Real.sqrt ∧ (0 : ℝ) < 1 / 100000000 ∧
    (planeNormal Real.sqrt (Vec.mk3 0 0 0) (Vec.mk3 1 0 0) (Vec.mk3 0 1 0)
      (1 / 100000000)).1 = true ∧
    (planeNormal Real.sqrt (Vec.mk3 0 0 0) (Vec.mk3 1 0 0) (Vec.mk3 0 1 0)
      (1 / 100000000)).2.length Real.sqrt = 1 ∧
    dot (planeNormal Real.sqrt (Vec.mk3 0 0 0) (Vec.mk3 1 0 0) (Vec.mk3 0 1 0)
      (1 / 100000000)).2 (Vec.mk3 (1:ℝ) 0 0 - Vec.mk3 0 0 0) = 0 ∧
    dot (planeNormal Real.sqrt (Vec.mk3 0 0 0) (Vec.mk3 1 0 0) (Vec.mk3 0 1 0)
      (1 / 100000000)).2 (Vec.mk3 (0:ℝ) 1 0 - Vec.mk3 0 0 0) = 0 :=
  have hok : (planeNormal Real.sqrt (Vec.mk3 0 0 0) (Vec.mk3 1 0 0) (Vec.mk3 0 1 0)
      (1 / 100000000)).1 = true := by
    rw [planeNormal_unit_triangle Real.sqrt isSqrt_real _ (by norm_num)]
  have h := planeNormal_success_unit_normal Real.sqrt isSqrt_real (Vec.mk3 0 0 0)
    (Vec.mk3 1 0 0) (Vec.mk3 0 1 0) (1 / 100000000) (by norm_num) hok
  ⟨isSqrt_real, by norm_num, hok, h.1, h.2.1, h.2.2.1⟩

end PlanesProofs

/-! ## Proofs: `makePerpendicular` -/

section PerpendicularProofs

variable {T : Type} [LinearOrderedField T]

/-- The method `majorComponent(S - 1)` returns an index of smallest magnitude. -/
theorem majorComponent_last_min {R : Type} [LinearOrderedCommRing R] {S : Nat}
    (v : Vec R S) (hS : 0 < S) :
    ∃ c : Fin S, majorComponent v (S - 1) = some c ∧ ∀ j : Fin S, |v c| ≤ |v j| := by
  obtain ⟨c, hc, hkth⟩ := majorComponent_kth v (S - 1) (by omega)
  refine ⟨c, hc, fun j => ?_⟩
  have hs : List.Sorted (fun a b => a ≥ b)
      (((List.finRange S).map (fun i => |v i|)).insertionSort (fun a b => a ≥ b)) :=
    List.sorted_insertionSort (fun a b : R => a ≥ b) _
  have hlen : (((List.finRange S).map (fun i => |v i|)).insertionSort
      (fun a b => a ≥ b)).length = S := by
    rw [List.length_insertionSort, List.length_map, List.length_finRange]
  have hmem : |v j| ∈ ((List.finRange S).map (fun i => |v i|)).insertionSort
      (fun a b => a ≥ b) :=
    (List.perm_insertionSort _ _).symm.subset
      (List.mem_map.mpr ⟨j, List.mem_finRange j, rfl⟩)
  obtain ⟨n, hn, hnj⟩ := List.getElem_of_mem hmem
  obtain ⟨h1, e1⟩ := List.getElem?_eq_some_iff.mp hkth
  rw [← e1, ← hnj]
  rcases Nat.eq_or_lt_of_le (show n ≤ S - 1 by omega) with heq | hlt
  · subst heq
    exact le_rfl
  · exact (List.pairwise_iff_getElem.mp hs) n (S - 1) hn h1 hlt

theorem dot_self_cross (a b : Vec T 3) : dot a (cross a b) = 0 := by
  rw [dot_three]
  simp only [cross, Vec.mk3, Matrix.cons_val_zero, Matrix.cons_val_one, Matrix.head_cons,
    Matrix.cons_val_two, Matrix.tail_cons]
  ring

/-- The squared length of the cross product with a signed axis vector: the sum of the
squares of the two other components. -/
theorem dot_cross_axis (v : Vec T 3) (c : Fin 3) (neg : Bool) :
    dot (cross v (if neg then -(Vec.axis c : Vec T 3) else Vec.axis c))
        (cross v (if neg then -(Vec.axis c : Vec T 3) else Vec.axis c))
      = v 0 * v 0 + v 1 * v 1 + v 2 * v 2 - v c * v c := by
  rw [dot_three]
  cases neg <;> fin_cases c <;>
    simp [cross, Vec.mk3, Vec.axis, Vec.neg_apply] <;> ring

/-- A vector with a positive squared length has a positive length. -/
theorem length_pos_of_dot_pos {sqrt : T → T} (hs : IsSqrt sqrt) {S : Nat} (n : Vec T S)
    (hpos : 0 < dot n n) : 0 < n.length sqrt := by
  have hLL := Vec.length_mul_self hs n
  rcases eq_or_lt_of_le (Vec.length_nonneg hs n) with h | h
  · rw [← h, mul_zero] at hLL
    exact absurd hLL (ne_of_lt hpos)
  · exact h

/-- C26: for every non-zero 3-vector `v` (exact scalars), `v.makePerpendicular()` returns a
vector of length `1` whose dot product with `v` is `0`. -/
theorem makePerpendicular_unit_orthogonal (sqrt : T → T) (hs : IsSqrt sqrt) (v : Vec T 3)
    (hv : v ≠ Vec.null) :
    ∃ r : Vec T 3, makePerpendicular sqrt v = some r ∧ r.length sqrt = 1 ∧ dot v r = 0 := by
  obtain ⟨c, hc, hmin⟩ := majorComponent_last_min v (by decide)
  have hax : majorAxis v (3 - 1)
      = some (if decide (v c < 0) then -(Vec.axis c : Vec T 3) else Vec.axis c) := by
    simp only [majorAxis, hc]
    by_cases hneg : v c < 0
    · simp [hneg]
    · simp [hneg]
  have hsq := dot_cross_axis v c (decide (v c < 0))
  have hpos : 0 < dot (cross v (if decide (v c < 0) then -(Vec.axis c : Vec T 3)
      else Vec.axis c)) (cross v (if decide (v c < 0) then -(Vec.axis c : Vec T 3)
      else Vec.axis c)) := by
    rw [hsq]
    by_contra hle
    have hle2 := not_lt.mp hle
    have hm : ∀ j : Fin 3, v c * v c ≤ v j * v j := by
      intro j
      have h := hmin j
      rw [← abs_mul_abs_self (v c), ← abs_mul_abs_self (v j)]
      exact mul_self_le_mul_self (abs_nonneg _) h
    have m0 := hm 0
    have m1 := hm 1
    have m2 := hm 2
    have n0 := mul_self_nonneg (v 0)
    have n1 := mul_self_nonneg (v 1)
    have n2 := mul_self_nonneg (v 2)
    apply hv
    funext j
    have z0 : v 0 * v 0 = 0 := le_antisymm (by linarith) n0
    have z1 : v 1 * v 1 = 0 := le_antisymm (by linarith) n1
    have z2 : v 2 * v 2 = 0 := le_antisymm (by linarith) n2
    fin_cases j
    · exact mul_self_eq_zero.mp z0
    · exact mul_self_eq_zero.mp z1
    · exact mul_self_eq_zero.mp z2
  have hL := length_pos_of_dot_pos hs _ hpos
  refine ⟨_, by simp only [makePerpendicular, hax], length_normalize hs _ hL, ?_⟩
  rw [Vec.normalize, dot_divScalar_right, dot_self_cross, zero_div]

/-- Witness for C26 on real scalars: `v = (0,3,0)`. -/
theorem makePerpendicular_unit_orthogonal_witness :
    IsSqrt Real.sqrt ∧ Vec.mk3 (0:ℝ) 3 0 ≠ Vec.null ∧
    ∃ r : Vec ℝ 3, makePerpendicular Real.sqrt (Vec.mk3 0 3 0) = some r ∧
      r.length Real.sqrt = 1 ∧ dot (Vec.mk3 (0:ℝ) 3 0) r = 0 :=
  have hne : Vec.mk3 (0:ℝ) 3 0 ≠ Vec.null := by
    intro h
    have h1 := congrFun h 1
    norm_num [Vec.mk3, Vec.null] at h1
  ⟨isSqrt_real, hne, makePerpendicular_unit_orthogonal Real.sqrt isSqrt_real _ hne⟩

end PerpendicularProofs

/-! ## Proofs: `angleBetween` -/

section AngleProofs

variable {T : Type} [LinearOrderedField T]

end AngleProofs

/-! ## Proofs: the converting constructors -/

section ConstructorProofs

variable {T U : Type} [Zero T] {S O : Nat}

theorem Vec.assign_apply {R : Type} {n : Nat} (v : Vec R n) (index : Nat) (value : R)
    (j : Fin n) : (v.assign index value) j = if j.val = index then value else v j := rfl

/-- A loop of assignments leaves alone the components it does not address. -/
theorem foldl_assign_of_not_mem {ι R : Type} {n : Nat} (idx : ι → Nat) (f : ι → R)
    (l : List ι) (g : Vec R n) (j : Fin n) (h : ∀ i ∈ l, idx i ≠ j.val) :
    (l.foldl (fun v i => v.assign (idx i) (f i)) g) j = g j := by
  induction l generalizing g with
  | nil => rfl
  | cons x xs ih =>
    rw [List.foldl_cons, ih _ (fun i hi => h i (List.mem_cons_of_mem _ hi)),
      Vec.assign_apply, if_neg (fun heq => h x (List.mem_cons_self _ _) heq.symm)]

/-- A loop of assignments stores at an addressed component the value assigned to it. -/
theorem foldl_assign_of_mem {ι R : Type} {n : Nat} (idx : ι → Nat) (f : ι → R)
    (l : List ι) (g : Vec R n) (j : Fin n) (x : R) (hmem : ∃ i ∈ l, idx i = j.val)
    (hval : ∀ i ∈ l, idx i = j.val → f i = x) :
    (l.foldl (fun v i => v.assign (idx i) (f i)) g) j = x := by
  induction l generalizing g with
  | nil =>
    obtain ⟨i, hi, _⟩ := hmem
    simp at hi
  | cons a as ih =>
    rw [List.foldl_cons]
    by_cases hlater : ∃ i ∈ as, idx i = j.val
    · exact ih _ hlater (fun i hi => hval i (List.mem_cons_of_mem _ hi))
    · have hno : ∀ i ∈ as, idx i ≠ j.val := fun i hi heq => hlater ⟨i, hi, heq⟩
      rw [foldl_assign_of_not_mem idx f as _ j hno, Vec.assign_apply]
      obtain ⟨i, hi, hij⟩ := hmem
      rcases List.mem_cons.mp hi with h | h
      · subst h
        rw [if_pos hij.symm]
        exact hval i (List.mem_cons_self _ _) hij
      · exact absurd hij (hno i h)

/-- The two loops of the converting constructors: below `n` the result holds the converted
source components, then zeros; from `n` on it holds what was there. -/
theorem Vec.convertLoops_apply (cast : U → T) (g : Vec T S) (vec : Vec U O) (n : Nat)
    (j : Fin S) :
    (∀ h : j.val < O, j.val < n → (Vec.convertLoops cast g vec n) j = cast (vec ⟨j.val, h⟩)) ∧
    (O ≤ j.val → j.val < n → (Vec.convertLoops cast g vec n) j = 0) ∧
    (n ≤ j.val → (Vec.convertLoops cast g vec n) j = g j) := by
  unfold Vec.convertLoops
  refine ⟨?_, ?_, ?_⟩
  · intro hO hn
    rw [foldl_assign_of_not_mem (fun i : Nat => i) (fun _ => (0 : T)) _ _ j]
    · apply foldl_assign_of_mem (fun i : Fin O => i.val) (fun i => cast (vec i))
      · refine ⟨⟨j.val, hO⟩, List.mem_filter.mpr ⟨List.mem_finRange _, ?_⟩, rfl⟩
        simp only [decide_eq_true_eq]
        omega
      · intro i _ hij
        have : i = ⟨j.val, hO⟩ := Fin.ext hij
        rw [this]
    · intro i hi hij
      have h2 := (List.mem_filter.mp hi).2
      simp only [decide_eq_true_eq] at h2
      omega
  · intro hO hn
    apply foldl_assign_of_mem (fun i : Nat => i) (fun _ => (0 : T))
    · refine ⟨j.val, List.mem_filter.mpr ⟨List.mem_range.mpr hn, ?_⟩, rfl⟩
      simp only [decide_eq_true_eq]
      omega
    · intro _ _ _
      rfl
  · intro hn
    rw [foldl_assign_of_not_mem (fun i : Nat => i) (fun _ => (0 : T)) _ _ j,
      foldl_assign_of_not_mem (fun i : Fin O => i.val) (fun i => cast (vec i)) _ _ j]
    · intro i hi hij
      have h2 := (List.mem_filter.mp hi).2
      simp only [decide_eq_true_eq] at h2
      omega
    · intro i hi hij
      have h1 := List.mem_range.mp (List.mem_filter.mp hi).1
      omega

/-- C24: the converting constructors.  With `t` in `{0, 1, 2}` trailing scalars (and
`S >= t`), component `i` of the constructed vector is the converted source component for
`i < min(S - t, O)`, zero for `min(S - t, O) <= i < S - t`, and the last `t` components are
the trailing scalars in order; nothing of the uninitialised member array survives. -/
theorem converting_constructors (cast : U → T) (uninitialised : Vec T S) (vec : Vec U O)
    (oneButLast last : U) :
    (∀ i : Fin S,
      (∀ h : i.val < O, (Vec.convert cast uninitialised vec) i = cast (vec ⟨i.val, h⟩)) ∧
      (O ≤ i.val → (Vec.convert cast uninitialised vec) i = 0)) ∧
    (∀ i : Fin S,
      (∀ h : i.val < O, i.val < S - 1 →
        (Vec.convertLast cast uninitialised vec last) i = cast (vec ⟨i.val, h⟩)) ∧
      (O ≤ i.val → i.val < S - 1 → (Vec.convertLast cast uninitialised vec last) i = 0) ∧
      (i.val = S - 1 → (Vec.convertLast cast uninitialised vec last) i = cast last)) ∧
    (2 ≤ S → ∀ i : Fin S,
      (∀ h : i.val < O, i.val < S - 2 →
        (Vec.convertLast2 cast uninitialised vec oneButLast last) i
          = cast (vec ⟨i.val, h⟩)) ∧
      (O ≤ i.val → i.val < S - 2 →
        (Vec.convertLast2 cast uninitialised vec oneButLast last) i = 0) ∧
      (i.val = S - 2 →
        (Vec.convertLast2 cast uninitialised vec oneButLast last) i = cast oneButLast) ∧
      (i.val = S - 1 →
        (Vec.convertLast2 cast uninitialised vec oneButLast last) i = cast last)) := by
  refine ⟨?_, ?_, ?_⟩
  · intro i
    obtain ⟨h1, h2, _⟩ := Vec.convertLoops_apply cast uninitialised vec S i
    exact ⟨fun h => h1 h i.isLt, fun h => h2 h i.isLt⟩
  · intro i
    obtain ⟨h1, h2, _⟩ := Vec.convertLoops_apply cast uninitialised vec (S - 1) i
    refine ⟨?_, ?_, ?_⟩
    · intro h hlt
      rw [Vec.convertLast, Vec.assign_apply, if_neg (by omega)]
      exact h1 h hlt
    · intro h hlt
      rw [Vec.convertLast, Vec.assign_apply, if_neg (by omega)]
      exact h2 h hlt
    · intro h
      rw [Vec.convertLast, Vec.assign_apply, if_pos h]
  · intro hS i
    obtain ⟨h1, h2, _⟩ := Vec.convertLoops_apply cast uninitialised vec (S - 2) i
    refine ⟨?_, ?_, ?_, ?_⟩
    · intro h hlt
      rw [Vec.convertLast2, Vec.assign_apply, if_neg (by omega), Vec.assign_apply,
        if_neg (by omega)]
      exact h1 h hlt
    · intro h hlt
      rw [Vec.convertLast2, Vec.assign_apply, if_neg (by omega), Vec.assign_apply,
        if_neg (by omega)]
      exact h2 h hlt
    · intro h
      rw [Vec.convertLast2, Vec.assign_apply, if_neg (by omega), Vec.assign_apply, if_pos h]
    · intro h
      rw [Vec.convertLast2, Vec.assign_apply, if_pos h]

/-- Witness for C24 on `int` vectors: `Vec<int,4>` built from the 2-vector `(7,8)` alone,
with `last = 5`, and with `oneButLast = 4`, `last = 5`, over an array that held `9`s. -/
theorem converting_constructors_witness :
    2 ≤ 4 ∧
    List.ofFn (Vec.convert (fun x : Int => x) (fun _ : Fin 4 => 9) ![7, 8]) = [7, 8, 0, 0] ∧
    List.ofFn (Vec.convertLast (fun x : Int => x) (fun _ : Fin 4 => 9) ![7, 8] 5)
      = [7, 8, 0, 5] ∧
    List.ofFn (Vec.convertLast2 (fun x : Int => x) (fun _ : Fin 4 => 9) ![7, 8] 4 5)
      = [7, 8, 4, 5] ∧
    (∀ i : Fin 4, i.val = 4 - 2 →
      (Vec.convertLast2 (fun x : Int => x) (fun _ : Fin 4 => 9) ![7, 8] 4 5) i = 4) :=
  ⟨by decide, by decide, by decide, by decide,
    fun i hi => ((converting_constructors (fun x : Int => x) (fun _ : Fin 4 => 9) ![7, 8]
      4 5).2.2 (by decide) i).2.2.1 hi⟩

end ConstructorProofs

/-! ## Proofs: text interchange -/

section TextProofs

variable {T : Type} [Zero T] {S : Nat}

/-- The defining equation of `firstIndex` on a non-empty text. -/
theorem firstIndex_cons (p : Char → Bool) (c : Char) (cs : List Char) :
    firstIndex p (c :: cs) =
      if p c then some 0 else (firstIndex p cs).map (fun k => k + 1) := rfl

/-- The function `firstIndex` skips a stretch of characters that do not satisfy `p`. -/
theorem firstIndex_append_left (p : Char → Bool) (l1 l2 : List Char)
    (h : ∀ c ∈ l1, p c = false) :
    firstIndex p (l1 ++ l2) = (firstIndex p l2).map (fun k => k + l1.length) := by
  induction l1 with
  | nil => simp
  | cons c cs ih =>
    have hc : p c = false := h c (List.mem_cons_self c cs)
    have ih2 := ih (fun d hd => h d (List.mem_cons_of_mem c hd))
    rw [List.cons_append, firstIndex_cons, hc, ih2]
    cases firstIndex p l2 with
    | none => rfl
    | some k => simp [Nat.add_assoc]

/-- From the start of a run of characters of `chars`, `find_first_not_of` returns the index
of the character after the run. -/
theorem find_first_not_of_skip (pre gap rest chars : List Char) (c : Char) (cs : List Char)
    (hgap : ∀ d ∈ gap, d ∈ chars) (hrest : rest = c :: cs) (hc : c ∉ chars) :
    find_first_not_of (pre ++ (gap ++ rest)) chars pre.length = some (pre ++ gap).length := by
  subst hrest
  unfold find_first_not_of
  rw [List.drop_left, firstIndex_append_left _ gap (c :: cs) (by
    intro d hd
    simp [hgap d hd])]
  simp [firstIndex, hc, Nat.add_comm]

/-- From the start of a token, `find_first_of` returns the index of the character of
`chars` that follows the token. -/
theorem find_first_of_skip (pre tok chars : List Char) (c : Char) (cs : List Char)
    (htok : ∀ d ∈ tok, d ∉ chars) (hc : c ∈ chars) :
    find_first_of (pre ++ (tok ++ c :: cs)) chars pre.length = some (pre ++ tok).length := by
  unfold find_first_of
  rw [List.drop_left, firstIndex_append_left _ tok (c :: cs) (by
    intro d hd
    simp [htok d hd])]
  simp [firstIndex, hc, Nat.add_comm]

/-- From the start of a token that ends the text, `find_first_of` returns `npos`. -/
theorem find_first_of_end (pre tok chars : List Char) (htok : ∀ d ∈ tok, d ∉ chars) :
    find_first_of (pre ++ tok) chars pre.length = none := by
  unfold find_first_of
  have h := firstIndex_append_left (fun c => chars.contains c) tok [] (by
    intro d hd
    simp [htok d hd])
  rw [List.append_nil] at h
  rw [List.drop_left, h]
  rfl

/-- The loop of `doParse` with no index left. -/
theorem doParseLoop_nil {R : Type} {n : Nat} (atof : List Char → R) (str : List Char)
    (pos : Nat) (result : Vec R n) :
    doParseLoop atof str [] pos result = (true, some pos, result) := rfl

/-- One iteration of the loop of `doParse`. -/
theorem doParseLoop_cons {R : Type} {n : Nat} (atof : List Char → R) (str : List Char)
    (i : Fin n) (rest : List (Fin n)) (pos : Nat) (result : Vec R n) :
    doParseLoop atof str (i :: rest) pos result =
      match find_first_not_of str doParseBlank pos with
      | none => (false, none, result)
      | some pos =>
        match find_first_of str doParseBlank pos with
        | none => (false, none, result.assign i.val (atof (str.drop pos)))
        | some pos2 =>
          doParseLoop atof str rest pos2 (result.assign i.val (atof (str.drop pos))) := by
  rw [doParseLoop]

/-- The defining equation of `tokenText` on a non-empty list of indices. -/
theorem tokenText_cons {n : Nat} (tok post : Fin n → List Char) (i : Fin n)
    (rest : List (Fin n)) :
    tokenText tok post (i :: rest) = tok i ++ (post i ++ tokenText tok post rest) := rfl

/-- The loop of `doParse` on a text of tokens: every index of the loop receives the value
of its token, whether or not the text goes on after the last token. -/
theorem doParseLoop_tokenText {R : Type} {n : Nat} (atof : List Char → R)
    (tok post : Fin n → List Char) (value : Fin n → R)
    (htok : ∀ i, tok i ≠ [] ∧ ∀ c ∈ tok i, c ∉ doParseBlank)
    (hpostb : ∀ i, ∀ c ∈ post i, c ∈ doParseBlank)
    (hatof : ∀ i following, (post i ≠ [] ∨ following = []) →
      atof (tok i ++ (post i ++ following)) = value i)
    (l : List (Fin n)) :
    ∀ (pre gap : List Char) (result : Vec R n) (str : List Char),
      str = pre ++ (gap ++ tokenText tok post l) → l.Pairwise (fun a b => a < b) →
      (∀ i ∈ l, (∃ j ∈ l, i < j) → post i ≠ []) → (∀ c ∈ gap, c ∈ doParseBlank) →
      ∀ j, (doParseLoop atof str l pre.length result).2.2 j =
        if j ∈ l then value j else result j := by
  induction l with
  | nil =>
    intro pre gap result str _ _ _ _ j
    simp [doParseLoop_nil]
  | cons i rest ih =>
    intro pre gap result str hstr hsorted hpost hgap j
    obtain ⟨hne, hnb⟩ := htok i
    obtain ⟨c, cs, hcs⟩ := List.exists_cons_of_ne_nil hne
    have hcb : c ∉ doParseBlank := hnb c (by rw [hcs]; exact List.mem_cons_self c cs)
    rw [tokenText_cons] at hstr
    have h1 : find_first_not_of str doParseBlank pre.length = some (pre ++ gap).length := by
      rw [hstr]
      exact find_first_not_of_skip pre gap _ doParseBlank c (cs ++ _) hgap
        (by rw [hcs]; rfl) hcb
    have hstr2 : str = (pre ++ gap) ++ (tok i ++ (post i ++ tokenText tok post rest)) := by
      rw [hstr, List.append_assoc]
    have hdrop : str.drop (pre ++ gap).length =
        tok i ++ (post i ++ tokenText tok post rest) := by
      rw [hstr2, List.drop_left]
    have hfollow : post i ≠ [] ∨ tokenText tok post rest = [] := by
      cases rest with
      | nil => exact Or.inr rfl
      | cons k rest2 =>
        refine Or.inl (hpost i (List.mem_cons_self _ _) ⟨k, ?_, ?_⟩)
        · exact List.mem_cons_of_mem _ (List.mem_cons_self _ _)
        · exact List.rel_of_pairwise_cons hsorted (List.mem_cons_self _ _)
    have hval : atof (str.drop (pre ++ gap).length) = value i := by
      rw [hdrop]
      exact hatof i _ hfollow
    have hji : j.val = i.val ↔ j = i := Fin.val_inj
    rw [doParseLoop_cons, h1]
    simp only [hval]
    cases hp : post i with
    | nil =>
      have hrest : tokenText tok post rest = [] := by
        rcases hfollow with h | h
        · exact absurd hp h
        · exact h
      have hrest2 : rest = [] := by
        cases rest with
        | nil => rfl
        | cons k rest2 =>
          rw [tokenText_cons] at hrest
          have := (htok k).1
          simp at hrest
          exact absurd hrest.1 this
      have h2 : find_first_of str doParseBlank (pre ++ gap).length = none := by
        rw [hstr2, hp, hrest, List.nil_append, List.append_nil]
        exact find_first_of_end _ _ _ hnb
      rw [h2, hrest2]
      simp only [Vec.assign_apply, List.mem_singleton, hji]
      by_cases h : j = i
      · simp [h]
      · simp [h]
    | cons d ds =>
      have hd : d ∈ doParseBlank := hpostb i d (by rw [hp]; exact List.mem_cons_self d ds)
      have h2 : find_first_of str doParseBlank (pre ++ gap).length =
          some ((pre ++ gap) ++ tok i).length := by
        rw [hstr2, hp, List.cons_append]
        exact find_first_of_skip _ _ _ d _ hnb hd
      rw [h2]
      simp only []
      have hstr3 : str = ((pre ++ gap) ++ tok i) ++ (post i ++ tokenText tok post rest) := by
        rw [hstr2, List.append_assoc (pre ++ gap)]
      rw [ih ((pre ++ gap) ++ tok i) (post i) _ str hstr3 (List.Pairwise.of_cons hsorted)
        (fun a ha hex => hpost a (List.mem_cons_of_mem _ ha)
          (hex.elim (fun b hb => ⟨b, List.mem_cons_of_mem _ hb.1, hb.2⟩)))
        (hpostb i) j]
      simp only [Vec.assign_apply, List.mem_cons, hji]
      by_cases h : j = i
      · simp [h]
      · simp [h]

/-- The loop of `Vec::write` appends the tokens with their separators. -/
theorem foldl_write_eq_tokenText {R : Type} {n : Nat} (toText : R → List Char) (v : Vec R n)
    (l : List (Fin n)) :
    ∀ str : List Char,
      l.foldl (fun str i =>
          let str := str ++ toText (v i)
          if i.val < n - 1 then str ++ [' '] else str) str =
        str ++ tokenText (fun i => toText (v i))
          (fun i => if i.val < n - 1 then [' '] else []) l := by
  induction l with
  | nil =>
    intro str
    simp [tokenText]
  | cons i rest ih =>
    intro str
    rw [List.foldl_cons, ih, tokenText_cons]
    by_cases h : i.val < n - 1
    · simp [h]
    · simp [h]

/-- The indices `0 .. n-1` are listed in increasing order. -/
theorem finRange_pairwise_lt (n : Nat) : (List.finRange n).Pairwise (fun a b => a < b) :=
  List.pairwise_lt_finRange n

/-- The function `parse` on a text of `S` tokens: leading blanks, then each token followed by
its separator, the last separator possibly empty.  `atof` need only read each token in the
place where it stands. -/
theorem parse_tokenText (atof : List Char → T) (lead : List Char)
    (tok post : Fin S → List Char) (value : Vec T S)
    (hlead : ∀ c ∈ lead, c ∈ doParseBlank)
    (htok : ∀ i, tok i ≠ [] ∧ ∀ c ∈ tok i, c ∉ doParseBlank)
    (hpostb : ∀ i, ∀ c ∈ post i, c ∈ doParseBlank)
    (hpost : ∀ i : Fin S, i.val + 1 < S → post i ≠ [])
    (hatof : ∀ i following, (post i ≠ [] ∨ following = []) →
      atof (tok i ++ (post i ++ following)) = value i) :
    parse atof (lead ++ tokenText tok post (List.finRange S)) = value := by
  funext j
  have h := doParseLoop_tokenText atof tok post value htok hpostb hatof (List.finRange S)
    [] lead Vec.null _ rfl (finRange_pairwise_lt S)
    (fun i _ hex => hpost i (hex.elim (fun k hk => by
      have h1 : i.val < k.val := hk.2
      have h2 := k.isLt
      omega)))
    hlead j
  simpa [parse, doParse] using h

/-- No character of `doParse`'s `blank` is a decimal digit. -/
theorem isDigit_of_mem_doParseBlank (c : Char) (h : c ∈ doParseBlank) : c.isDigit = false := by
  have hb : doParseBlank = [' ', '\t', '\n', '\r', '(', ')'] := by decide
  rw [hb] at h
  simp only [List.mem_cons, List.mem_singleton, List.not_mem_nil, or_false] at h
  rcases h with h | h | h | h | h | h <;> subst h <;> decide

/-- Claim C21, counterexample: commas and semicolons are not in the `blank` of `doParse`.
On `1,2,3` and on `1;2;3` the first `find_first_of` finds no blank character, `doParse`
returns after the first component and `parse` returns `(1, 0, 0)`, although the second and
third tokens have the values 2 and 3. -/
theorem parse_comma_separated_counterexample :
    List.ofFn (parse atofDigits "1,2,3".toList : Vec Int 3) = [1, 0, 0] ∧
    List.ofFn (parse atofDigits "1;2;3".toList : Vec Int 3) = [1, 0, 0] ∧
    atofDigits "2".toList = 2 ∧ atofDigits "3".toList = 3 := by
  decide

/-- Claim C21, amended: for every text made of `S` tokens, each non-empty and free of
space, tab, newline, carriage return and parentheses, with any run of these six characters
before the first token, a non-empty run between two tokens and any run after the last one,
`parse` returns the vector whose `i`-th component is the value `atof` reads from the `i`-th
token, provided `atof` reads that value from the token whether the text ends there or goes
on with one of the six characters. -/
theorem parse_blank_separated_tokens (atof : List Char → T) (lead : List Char)
    (tok post : Fin S → List Char) (value : Vec T S)
    (hlead : ∀ c ∈ lead, c ∈ doParseBlank)
    (htok : ∀ i, tok i ≠ [] ∧ ∀ c ∈ tok i, c ∉ doParseBlank)
    (hpostb : ∀ i, ∀ c ∈ post i, c ∈ doParseBlank)
    (hpost : ∀ i : Fin S, i.val + 1 < S → post i ≠ [])
    (hatof : ∀ i rest, (rest = [] ∨ ∃ c cs, rest = c :: cs ∧ c ∈ doParseBlank) →
      atof (tok i ++ rest) = value i) :
    parse atof (lead ++ tokenText tok post (List.finRange S)) = value := by
  refine parse_tokenText atof lead tok post value hlead htok hpostb hpost ?_
  intro i following hf
  apply hatof
  cases hp : post i with
  | nil =>
    rcases hf with h | h
    · exact absurd hp h
    · exact Or.inl (by rw [h]; rfl)
  | cons d ds =>
    exact Or.inr ⟨d, ds ++ following, rfl, hpostb i d (by rw [hp]; exact List.mem_cons_self d ds)⟩

/-- The amended claim C21 on the text `(1 2 3)`. -/
theorem parse_blank_separated_tokens_witness :
    (∀ c ∈ "(".toList, c ∈ doParseBlank) ∧
    (∀ i : Fin 3, (![['1'], ['2'], ['3']] : Fin 3 → List Char) i ≠ [] ∧
      ∀ c ∈ (![['1'], ['2'], ['3']] : Fin 3 → List Char) i, c ∉ doParseBlank) ∧
    (∀ i : Fin 3, ∀ c ∈ (![[' '], [' '], [')']] : Fin 3 → List Char) i, c ∈ doParseBlank) ∧
    (∀ i : Fin 3, i.val + 1 < 3 → (![[' '], [' '], [')']] : Fin 3 → List Char) i ≠ []) ∧
    "(".toList ++ tokenText ![['1'], ['2'], ['3']] ![[' '], [' '], [')']] (List.finRange 3)
      = "(1 2 3)".toList ∧
    parse atofDigits ("(".toList ++
      tokenText ![['1'], ['2'], ['3']] ![[' '], [' '], [')']] (List.finRange 3))
      = Vec.mk3 1 2 3 :=
  ⟨by decide, by decide, by decide, by decide, by decide,
    parse_blank_separated_tokens atofDigits "(".toList ![['1'], ['2'], ['3']]
      ![[' '], [' '], [')']] (Vec.mk3 1 2 3) (by decide) (by decide) (by decide) (by decide)
      (by
        intro i rest hrest
        have hstop : ∀ k : Nat, atofDigitsLoop rest k = k := by
          intro k
          rcases hrest with h | ⟨c, cs, h, hc⟩
          · rw [h]; rfl
          · rw [h, atofDigitsLoop, isDigit_of_mem_doParseBlank c hc]; rfl
        fin_cases i
        · show ((atofDigitsLoop rest 1 : Nat) : Int) = 1
          rw [hstop]; rfl
        · show ((atofDigitsLoop rest 2 : Nat) : Int) = 2
          rw [hstop]; rfl
        · show ((atofDigitsLoop rest 3 : Nat) : Int) = 3
          rw [hstop]; rfl)⟩

/-- The text written by `asString`: the components, a single space after each but the
last. -/
theorem asString_eq_tokenText {R : Type} {n : Nat} (toText : R → List Char) (v : Vec R n) :
    v.asString toText = tokenText (fun i => toText (v i))
      (fun i => if i.val < n - 1 then [' '] else []) (List.finRange n) := by
  unfold Vec.asString Vec.write
  rw [foldl_write_eq_tokenText]
  rfl

/-- The space is in the `blank` of `doParse`. -/
theorem space_mem_doParseBlank : ' ' ∈ doParseBlank := by decide

/-- Claim C22: `parseList` drops a complete group whose last token ends the text.  On
`1 2 3` the call of `doParse` fills the three components and then returns `false`, since no
blank character follows the last token, so nothing is appended and the list is empty; on
`1 2 3 4 5 6` only the first group is returned.  With a blank character after the group
(`1 2 3 `), or with tokens after it (`1 2 3 4 5 6 7`), the group is returned, and `parse`
returns `(1, 2, 3)` on `1 2 3`. -/
theorem parseList_drops_group_at_end_of_text :
    (parseList atofDigits "1 2 3".toList : Option (List (Vec Int 3))).map
      (fun l => l.map List.ofFn) = some [] ∧
    (parseList atofDigits "1 2 3 ".toList : Option (List (Vec Int 3))).map
      (fun l => l.map List.ofFn) = some [[1, 2, 3]] ∧
    (parseList atofDigits "1 2 3 4 5 6".toList : Option (List (Vec Int 3))).map
      (fun l => l.map List.ofFn) = some [[1, 2, 3]] ∧
    (parseList atofDigits "1 2 3 4 5 6 7".toList : Option (List (Vec Int 3))).map
      (fun l => l.map List.ofFn) = some [[1, 2, 3], [4, 5, 6]] ∧
    List.ofFn (parse atofDigits "1 2 3".toList : Vec Int 3) = [1, 2, 3] := by
  decide

/-- The components of `parse(v.asString())`.  When the text written for each component is
non-empty and holds none of the blank characters of `doParse`, and `atof` reads a component
text followed by a space as it reads the text alone, every component of the result is what
`atof` reads from the text written for that component of `v`. -/
theorem parse_asString_components (atof : List Char → T) (toText : T → List Char)
    (v : Vec T S)
    (htext : ∀ i, toText (v i) ≠ [] ∧ ∀ c ∈ toText (v i), c ∉ doParseBlank)
    (hatof : ∀ i rest, atof (toText (v i) ++ ' ' :: rest) = atof (toText (v i))) :
    (∀ i, parse atof (v.asString toText) i = atof (toText (v i))) ∧
    ((∀ i, atof (toText (v i)) = v i) → parse atof (v.asString toText) = v) := by
  have h : parse atof (v.asString toText) = fun i => atof (toText (v i)) := by
    rw [asString_eq_tokenText, ← List.nil_append (tokenText _ _ _)]
    refine parse_tokenText atof [] _ _ _ (by simp) htext ?_ ?_ ?_
    · intro i c hc
      by_cases hi : i.val < S - 1
      · rw [if_pos hi, List.mem_singleton] at hc
        rw [hc]
        exact space_mem_doParseBlank
      · rw [if_neg hi] at hc
        exact absurd hc (List.not_mem_nil c)
    · intro i hi
      rw [if_pos (by omega)]
      exact List.cons_ne_nil _ _
    · intro i following hf
      by_cases hi : i.val < S - 1
      · simp only [if_pos hi]
        exact hatof i following
      · simp only [if_neg hi] at hf ⊢
        rcases hf with hf | hf
        · exact absurd rfl hf
        · rw [hf]
          simp
  refine ⟨fun i => congrFun h i, fun hexact => ?_⟩
  rw [h]
  funext i
  exact hexact i

end TextProofs

/-! ## Proofs: transitivity of `compare` -/

section TransitivityProofs

variable {T : Type} [LinearOrderedCommRing T] {S : Nat}

/-- For every positive epsilon the vectors with all components `0`, `epsilon` and
`2 * epsilon` compare equal pairwise in sequence, but the first is below the third. -/
theorem compare_chain (e : T) (he : 0 < e) (hS : 0 < S) :
    compare (fun _ => 0 : Vec T S) (fun _ => e) e = 0 ∧
    compare (fun _ => e : Vec T S) (fun _ => 2 * e) e = 0 ∧
    compare (fun _ => 0 : Vec T S) (fun _ => 2 * e) e = -1 := by
  refine ⟨?_, ?_, ?_⟩
  · rw [compare_eq_zero_iff _ _ e he.le]
    intro _
    rw [abs_le]
    constructor <;> linarith
  · rw [compare_eq_zero_iff _ _ e he.le]
    intro _
    rw [abs_le]
    constructor <;> linarith
  · rw [compare_of_first_beyond _ _ e he.le ⟨0, hS⟩ (fun j hj => absurd hj (Nat.not_lt_zero _))
      (by
        rw [abs_of_nonpos (by linarith)]
        linarith)]
    rw [if_pos (by linarith)]

/-- Claim C31: comparison with a tolerance is not transitive.  In every dimension `S ≥ 1`
there are an epsilon > 0 and vectors `a`, `b`, `c` with `compare(a, b, epsilon) == 0` and
`compare(b, c, epsilon) == 0` but `compare(a, c, epsilon) != 0`; with epsilon `0`,
`compare(a, b, 0) == 0` and `compare(b, c, 0) == 0` give `compare(a, c, 0) == 0`. -/
theorem compare_epsilon_not_transitive (hS : 0 < S) :
    (∃ (e : T) (a b c : Vec T S), 0 < e ∧
      compare a b e = 0 ∧ compare b c e = 0 ∧ compare a c e ≠ 0) ∧
    (∀ a b c : Vec T S, compare a b 0 = 0 → compare b c 0 = 0 → compare a c 0 = 0) := by
  constructor
  · obtain ⟨h1, h2, h3⟩ := compare_chain (1 : T) one_pos hS
    refine ⟨1, _, _, _, one_pos, h1, h2, ?_⟩
    rw [h3]
    decide
  · intro a b c hab hbc
    rw [compare_eq_zero_iff _ _ 0 le_rfl] at hab hbc ⊢
    intro i
    have h1 := abs_nonpos_iff.mp (hab i)
    have h2 := abs_nonpos_iff.mp (hbc i)
    have h3 : a i - c i = 0 := by linarith
    rw [h3, abs_zero]

/-- The non-transitive triple of claim C31 on integer vectors of dimension 3. -/
theorem compare_epsilon_not_transitive_witness :
    0 < 3 ∧
    compare (Vec.mk3 (0:Int) 0 0) (Vec.mk3 1 1 1) 1 = 0 ∧
    compare (Vec.mk3 (1:Int) 1 1) (Vec.mk3 2 2 2) 1 = 0 ∧
    compare (Vec.mk3 (0:Int) 0 0) (Vec.mk3 2 2 2) 1 = -1 ∧
    ((∃ (e : Int) (a b c : Vec Int 3), 0 < e ∧
      compare a b e = 0 ∧ compare b c e = 0 ∧ compare a c e ≠ 0) ∧
    (∀ a b c : Vec Int 3, compare a b 0 = 0 → compare b c 0 = 0 → compare a c 0 = 0)) :=
  ⟨by decide, by decide, by decide, by decide, compare_epsilon_not_transitive (by decide)⟩

end TransitivityProofs

/-! ## Proofs: the indices of `majorComponent` -/

section DistinctProofs

variable {T : Type} [LinearOrderedCommRing T] {S : Nat}

end DistinctProofs

/-! ## Proofs: termination of `parseList` -/

section ParseListProofs

/-- A result of `firstIndex` is a position of the text, and the character there satisfies
`p`. -/
theorem firstIndex_some (p : Char → Bool) (l : List Char) :
    ∀ k, firstIndex p l = some k → k < l.length ∧ ∀ d, p (l.getD k d) = true := by
  induction l with
  | nil =>
    intro k h
    exact absurd h (by simp [firstIndex])
  | cons c cs ih =>
    intro k h
    rw [firstIndex_cons] at h
    by_cases hc : p c = true
    · rw [if_pos hc] at h
      have hk : k = 0 := (Option.some.inj h).symm
      subst hk
      exact ⟨Nat.succ_pos _, fun _ => hc⟩
    · rw [if_neg hc] at h
      cases hf : firstIndex p cs with
      | none =>
        rw [hf] at h
        exact absurd h (by simp)
      | some m =>
        rw [hf] at h
        have hk : k = m + 1 := (Option.some.inj h).symm
        subst hk
        obtain ⟨h1, h2⟩ := ih m hf
        exact ⟨Nat.succ_lt_succ h1, fun d => by simpa using h2 d⟩

/-- A result of `find_first_of` is a position of the text from `pos` on that holds a
character of `chars`. -/
theorem find_first_of_some (str chars : List Char) (pos q : Nat)
    (h : find_first_of str chars pos = some q) :
    pos ≤ q ∧ q < str.length ∧ ∀ d, chars.contains (str.getD q d) = true := by
  unfold find_first_of at h
  cases hf : firstIndex (fun c => chars.contains c) (str.drop pos) with
  | none =>
    rw [hf] at h
    exact absurd h (by simp)
  | some k =>
    rw [hf] at h
    have hq : q = k + pos := (Option.some.inj h).symm
    obtain ⟨h1, h2⟩ := firstIndex_some _ _ k hf
    rw [List.length_drop] at h1
    subst hq
    refine ⟨Nat.le_add_left _ _, by omega, fun d => ?_⟩
    have := h2 d
    rw [List.getD_eq_getElem?_getD, List.getElem?_drop] at this
    rw [List.getD_eq_getElem?_getD, Nat.add_comm]
    exact this

/-- A result of `find_first_not_of` is a position of the text from `pos` on that holds a
character outside `chars`. -/
theorem find_first_not_of_some (str chars : List Char) (pos q : Nat)
    (h : find_first_not_of str chars pos = some q) :
    pos ≤ q ∧ q < str.length ∧ ∀ d, chars.contains (str.getD q d) = false := by
  unfold find_first_not_of at h
  cases hf : firstIndex (fun c => !chars.contains c) (str.drop pos) with
  | none =>
    rw [hf] at h
    exact absurd h (by simp)
  | some k =>
    rw [hf] at h
    have hq : q = k + pos := (Option.some.inj h).symm
    obtain ⟨h1, h2⟩ := firstIndex_some _ _ k hf
    rw [List.length_drop] at h1
    subst hq
    refine ⟨Nat.le_add_left _ _, by omega, fun d => ?_⟩
    have := h2 d
    rw [List.getD_eq_getElem?_getD, List.getElem?_drop] at this
    rw [List.getD_eq_getElem?_getD, Nat.add_comm]
    simpa using this

/-- The loop of `doParse` either fails and leaves `npos` in `pos`, or succeeds and leaves
in `pos` a position that lies at least one character per component beyond the start; that
position is inside the text when there is a component to fill. -/
theorem doParseLoop_advance {R : Type} {n : Nat} (atof : List Char → R) (str : List Char)
    (l : List (Fin n)) :
    ∀ (pos : Nat) (result : Vec R n),
      ((doParseLoop atof str l pos result).1 = false ∧
        (doParseLoop atof str l pos result).2.1 = none) ∨
      ((doParseLoop atof str l pos result).1 = true ∧
        ∃ q, (doParseLoop atof str l pos result).2.1 = some q ∧ pos + l.length ≤ q ∧
          (l = [] → q = pos) ∧ (l ≠ [] → q < str.length)) := by
  induction l with
  | nil =>
    intro pos result
    exact Or.inr ⟨rfl, pos, rfl, Nat.le_refl _, fun _ => rfl, fun h => absurd rfl h⟩
  | cons i rest ih =>
    intro pos result
    rw [doParseLoop_cons]
    cases h1 : find_first_not_of str doParseBlank pos with
    | none => exact Or.inl ⟨rfl, rfl⟩
    | some p =>
      show (_ ∧ _) ∨ (_ ∧ _)
      cases h2 : find_first_of str doParseBlank p with
      | none =>
        simp only [h2]
        exact Or.inl ⟨trivial, trivial⟩
      | some q1 =>
        simp only [h2]
        obtain ⟨hp1, _, hp3⟩ := find_first_not_of_some str doParseBlank pos p h1
        obtain ⟨hq1, hq2, hq3⟩ := find_first_of_some str doParseBlank p q1 h2
        have hne : q1 ≠ p := by
          intro h
          have h3 := hq3 ' '
          rw [h, hp3 ' '] at h3
          exact Bool.false_ne_true h3
        rcases ih q1 (result.assign i.val (atof (str.drop p))) with h | ⟨hok, q, hq, hle, he, hlt⟩
        · exact Or.inl h
        · refine Or.inr ⟨hok, q, hq, ?_, fun h => absurd h (List.cons_ne_nil _ _), fun _ => ?_⟩
          · rw [List.length_cons]
            omega
          · cases rest with
            | nil =>
              rw [he rfl]
              exact hq2
            | cons k rest2 => exact hlt (List.cons_ne_nil _ _)

/-- One iteration of the loop of `parseList`. -/
theorem parseListLoop_succ {R : Type} [Zero R] {n : Nat} (atof : List Char → R)
    (str : List Char) (fuel pos : Nat) (result : List (Vec R n)) :
    parseListLoop atof str (fuel + 1) (some pos) result =
      parseListLoop atof str fuel
        ((doParse atof str pos (Vec.null : Vec R n)).2.1.bind
          (fun q => find_first_of str parseListBlank q))
        (if (doParse atof str pos (Vec.null : Vec R n)).1 = true
          then result ++ [(doParse atof str pos (Vec.null : Vec R n)).2.2] else result) := by
  rw [parseListLoop]
  cases h : (doParse atof str pos (Vec.null : Vec R n)).2.1 with
  | none => simp [h]
  | some q => simp [h]

/-- The position after one iteration of the loop of `parseList`, for `S ≥ 1`: `npos`, or a
position of the text beyond the one the iteration started from, and then a vector has been
appended only if the position advanced by at least `S`. -/
theorem parseList_iteration {R : Type} [Zero R] {n : Nat} (hn : 0 < n) (atof : List Char → R)
    (str : List Char) (pos : Nat) :
    ((doParse atof str pos (Vec.null : Vec R n)).1 = false ∧
      (doParse atof str pos (Vec.null : Vec R n)).2.1.bind
        (fun q => find_first_of str parseListBlank q) = none) ∨
    ((doParse atof str pos (Vec.null : Vec R n)).1 = true ∧ pos + n < str.length ∧
      ((doParse atof str pos (Vec.null : Vec R n)).2.1.bind
        (fun q => find_first_of str parseListBlank q) = none ∨
      ∃ q, (doParse atof str pos (Vec.null : Vec R n)).2.1.bind
        (fun q => find_first_of str parseListBlank q) = some q ∧
        pos + n ≤ q ∧ q < str.length)) := by
  have hl : (List.finRange n) ≠ [] := by
    intro h
    have := congrArg List.length h
    rw [List.length_finRange] at this
    simp at this
    omega
  rcases doParseLoop_advance atof str (List.finRange n) pos Vec.null with
    ⟨hok, hpos⟩ | ⟨hok, q, hq, hle, _, hlt⟩
  · exact Or.inl ⟨hok, by unfold doParse; rw [hpos]; rfl⟩
  · rw [List.length_finRange] at hle
    have hq2 := hlt hl
    refine Or.inr ⟨hok, by omega, ?_⟩
    unfold doParse
    rw [hq]
    simp only [Option.some_bind]
    cases hf : find_first_of str parseListBlank q with
    | none => exact Or.inl rfl
    | some q2 =>
      obtain ⟨h1, h2, _⟩ := find_first_of_some str parseListBlank q q2 hf
      exact Or.inr ⟨q2, rfl, by omega, h2⟩

/-- The loop of `parseList` for `S ≥ 1`, started with enough fuel for the positions still
ahead: it ends, with the same list for every larger fuel, and the list has at most one
vector per `S` characters of the text. -/
theorem parseListLoop_spec {R : Type} [Zero R] {n : Nat} (hn : 0 < n) (atof : List Char → R)
    (str : List Char) :
    ∀ (fuel : Nat) (pos : Option Nat) (result : List (Vec R n)),
      (∀ p, pos = some p →
        result.length * n ≤ p ∧ p ≤ str.length ∧ str.length + 2 ≤ fuel + p) →
      (pos = none → result.length * n ≤ str.length ∧ 1 ≤ fuel) →
      ∃ out, (∀ fuel2, fuel ≤ fuel2 → parseListLoop atof str fuel2 pos result = some out) ∧
        out.length * n ≤ str.length := by
  intro fuel
  induction fuel with
  | zero =>
    intro pos result hsome hnone
    cases pos with
    | none => exact absurd (hnone rfl).2 (by omega)
    | some p =>
      obtain ⟨_, h2, h3⟩ := hsome p rfl
      omega
  | succ f ih =>
    intro pos result hsome hnone
    cases pos with
    | none =>
      refine ⟨result, fun fuel2 h2 => ?_, (hnone rfl).1⟩
      obtain ⟨k, hk⟩ := Nat.exists_eq_succ_of_ne_zero (by omega : fuel2 ≠ 0)
      rw [hk]
      rfl
    | some p =>
      obtain ⟨h1, h2, h3⟩ := hsome p rfl
      have hstep : ∀ (next : Option Nat) (result2 : List (Vec R n)),
          (∀ k, parseListLoop atof str (k + 1) (some p) result
            = parseListLoop atof str k next result2) →
          (∀ q, next = some q →
            result2.length * n ≤ q ∧ q ≤ str.length ∧ str.length + 2 ≤ f + q) →
          (next = none → result2.length * n ≤ str.length ∧ 1 ≤ f) →
          ∃ out, (∀ fuel2, f + 1 ≤ fuel2 →
              parseListLoop atof str fuel2 (some p) result = some out) ∧
            out.length * n ≤ str.length := by
        intro next result2 heq hs hn2
        obtain ⟨out, hout, hlen⟩ := ih next result2 hs hn2
        refine ⟨out, fun fuel2 h2 => ?_, hlen⟩
        obtain ⟨k, hk⟩ := Nat.exists_eq_succ_of_ne_zero (by omega : fuel2 ≠ 0)
        rw [hk, Nat.succ_eq_add_one, heq k]
        exact hout k (by omega)
      rcases parseList_iteration hn atof str p with ⟨hok, hnext⟩ | ⟨hok, hlt, hnext⟩
      · refine hstep none result (fun k => ?_) (fun q hq => absurd hq (by simp))
          (fun _ => ⟨by omega, by omega⟩)
        rw [parseListLoop_succ, hnext, hok, if_neg Bool.false_ne_true]
      · have hlen : (result ++ [(doParse atof str p (Vec.null : Vec R n)).2.2]).length * n
            = result.length * n + n := by
          rw [List.length_append, List.length_singleton, Nat.add_mul, Nat.one_mul]
        rcases hnext with hnext | ⟨q, hnext, hq1, hq2⟩
        · refine hstep none (result ++ [(doParse atof str p (Vec.null : Vec R n)).2.2])
            (fun k => ?_) (fun q hq => absurd hq (by simp)) (fun _ => ⟨by omega, by omega⟩)
          rw [parseListLoop_succ, hnext, hok, if_pos rfl]
        · refine hstep (some q) (result ++ [(doParse atof str p (Vec.null : Vec R n)).2.2])
            (fun k => ?_) (fun q2 hq => ?_) (fun h => absurd h (by simp))
          · rw [parseListLoop_succ, hnext, hok, if_pos rfl]
          · have : q2 = q := (Option.some.inj hq).symm
            subst this
            exact ⟨by omega, by omega, by omega⟩

/-- Claim C33: for every text and every dimension `S ≥ 1` the loop of `parseList` ends (with
fuel for `length + 2` iterations or more it returns one and the same list), every iteration
leaves in `pos` either `npos` or a position beyond the one it started from, and the returned
list has at most `length / S` elements. -/
theorem parseList_terminates {T : Type} [Zero T] {S : Nat} (atof : List Char → T)
    (str : List Char) (hS : 0 < S) :
    (∃ out : List (Vec T S), parseList atof str = some out ∧
      (∀ fuel, str.length + 2 ≤ fuel → parseListLoop atof str fuel (some 0) [] = some out) ∧
      out.length ≤ str.length / S) ∧
    (∀ (fuel pos : Nat) (result : List (Vec T S)),
      parseListLoop atof str (fuel + 1) (some pos) result =
        parseListLoop atof str fuel
          ((doParse atof str pos (Vec.null : Vec T S)).2.1.bind
            (fun q => find_first_of str parseListBlank q))
          (if (doParse atof str pos (Vec.null : Vec T S)).1 = true
            then result ++ [(doParse atof str pos (Vec.null : Vec T S)).2.2] else result)) ∧
    (∀ pos : Nat,
      (doParse atof str pos (Vec.null : Vec T S)).2.1.bind
        (fun q => find_first_of str parseListBlank q) = none ∨
      ∃ q, (doParse atof str pos (Vec.null : Vec T S)).2.1.bind
        (fun q => find_first_of str parseListBlank q) = some q ∧ pos < q) := by
  refine ⟨?_, fun fuel pos result => parseListLoop_succ atof str fuel pos result, ?_⟩
  · obtain ⟨out, hout, hlen⟩ := parseListLoop_spec hS atof str (str.length + 2) (some 0)
      ([] : List (Vec T S))
      (fun p hp => by
        have : p = 0 := (Option.some.inj hp).symm
        subst this
        exact ⟨by simp, Nat.zero_le _, Nat.le_refl _⟩)
      (fun h => absurd h (by simp))
    exact ⟨out, hout _ (Nat.le_refl _), hout, (Nat.le_div_iff_mul_le hS).mpr hlen⟩
  · intro pos
    rcases parseList_iteration hS atof str pos with ⟨_, hnext⟩ | ⟨_, _, hnext | ⟨q, hq, h1, _⟩⟩
    · exact Or.inl hnext
    · exact Or.inl hnext
    · exact Or.inr ⟨q, hq, by omega⟩

/-- The loop of `parseList` of claim C33 on a text of seven tokens, dimension 3. -/
theorem parseList_terminates_witness :
    0 < 3 ∧
    (parseList atofDigits "1 2 3 4 5 6 7".toList : Option (List (Vec Int 3))).map
      (fun l => l.map List.ofFn) = some [[1, 2, 3], [4, 5, 6]] ∧
    ∃ out : List (Vec Int 3), parseList atofDigits "1 2 3 4 5 6 7".toList = some out ∧
      (∀ fuel, "1 2 3 4 5 6 7".toList.length + 2 ≤ fuel →
        parseListLoop atofDigits "1 2 3 4 5 6 7".toList fuel (some 0) [] = some out) ∧
      out.length ≤ "1 2 3 4 5 6 7".toList.length / 3 :=
  ⟨by decide, by decide,
    (parseList_terminates atofDigits "1 2 3 4 5 6 7".toList (by decide)).1⟩

end ParseListProofs

/-! ## Proofs: rounding in `colinear`, `planeNormal` and `linearlyDependent` -/

section RoundingProofs

set_option maxRecDepth 100000 in
/-- Claim C5, counterexample: in `double` arithmetic, with `p = (0.1, 0, 0)` and
`d = (0.6, 0, 0)`, the points `p`, `p + d` and `p + 2 d` are `(0.1, 0, 0)`, `(0.7, 0, 0)`
and `(1.3, 0, 0)`, and `colinear` with epsilon `0` returns false on them: the rounded
differences `p2 - p1` and `p3 - p2` add up to a number that differs by `2 ^ (-52)` from the
rounded difference `p3 - p1`. -/
theorem colinear_equally_spaced_rounding_counterexample :
    colinear (Vec.mk3 (Binary.ofDecimal 1 1 : Binary64) 0 0)
      (Vec.mk3 (Binary.ofDecimal 1 1 : Binary64) 0 0 + Vec.mk3 (Binary.ofDecimal 6 1) 0 0)
      (Vec.mk3 (Binary.ofDecimal 1 1 : Binary64) 0 0
        + (Vec.mk3 (Binary.ofDecimal 6 1) 0 0).mulScalar (Binary.ofInt 2)) 0 = false ∧
    List.ofFn (Vec.mk3 (Binary.ofDecimal 1 1 : Binary64) 0 0
      + Vec.mk3 (Binary.ofDecimal 6 1) 0 0) = [Binary.ofDecimal 7 1, 0, 0] ∧
    List.ofFn (Vec.mk3 (Binary.ofDecimal 1 1 : Binary64) 0 0
      + (Vec.mk3 (Binary.ofDecimal 6 1) 0 0).mulScalar (Binary.ofInt 2))
      = [Binary.ofDecimal 13 1, 0, 0] ∧
    std.abs ((Binary.ofDecimal 13 1 - Binary.ofDecimal 1 1 : Binary64)
      - ((Binary.ofDecimal 7 1 - Binary.ofDecimal 1 1)
        + (Binary.ofDecimal 13 1 - Binary.ofDecimal 7 1))) = ⟨1, -52⟩ := by
  decide

set_option maxRecDepth 100000 in
/-- Claim C7, counterexample: in `float` arithmetic with epsilon `1e-8`, `planeNormal`
returns true on the points `u`, `2 u`, `4 u` for `u = (0.1, 0.1, 0.7)`.  The points are
collinear exactly (doubling a floating-point number only raises its exponent), but the
cross product of the rounded products does not vanish and `sin_theta` is about `1.4e-8`. -/
theorem planeNormal_collinear_rounding_counterexample :
    (planeNormal Binary.sqrt
      (Vec.mk3 (Binary.ofDecimal 1 1 : Binary32) (Binary.ofDecimal 1 1) (Binary.ofDecimal 7 1))
      ((Vec.mk3 (Binary.ofDecimal 1 1 : Binary32) (Binary.ofDecimal 1 1)
        (Binary.ofDecimal 7 1)).mulScalar (Binary.ofInt 2))
      ((Vec.mk3 (Binary.ofDecimal 1 1 : Binary32) (Binary.ofDecimal 1 1)
        (Binary.ofDecimal 7 1)).mulScalar (Binary.ofInt 4))
      (Binary.ofDecimal 1 8)).1 = true ∧
    (∀ i : Fin 3,
      ((Vec.mk3 (Binary.ofDecimal 1 1 : Binary32) (Binary.ofDecimal 1 1)
        (Binary.ofDecimal 7 1)).mulScalar (Binary.ofInt 2)) i
        = ⟨(Vec.mk3 (Binary.ofDecimal 1 1 : Binary32) (Binary.ofDecimal 1 1)
            (Binary.ofDecimal 7 1) i).m,
          (Vec.mk3 (Binary.ofDecimal 1 1 : Binary32) (Binary.ofDecimal 1 1)
            (Binary.ofDecimal 7 1) i).e + 1⟩ ∧
      ((Vec.mk3 (Binary.ofDecimal 1 1 : Binary32) (Binary.ofDecimal 1 1)
        (Binary.ofDecimal 7 1)).mulScalar (Binary.ofInt 4)) i
        = ⟨(Vec.mk3 (Binary.ofDecimal 1 1 : Binary32) (Binary.ofDecimal 1 1)
            (Binary.ofDecimal 7 1) i).m,
          (Vec.mk3 (Binary.ofDecimal 1 1 : Binary32) (Binary.ofDecimal 1 1)
            (Binary.ofDecimal 7 1) i).e + 2⟩) := by
  decide

set_option maxRecDepth 100000 in
/-- Claim C29, counterexample: in `float` arithmetic the exactly collinear points
`(0,0,0)`, `(1001,2003,3005)`, `(3003,6009,9015)` have the discriminant
`j * j - k * l = -134217728`, since `j * j` and `k * l` are rounded to 24 digits, and
`linearlyDependent` returns false for `colinearEpsilon = 1` (and `0.00001`). -/
theorem linearlyDependent_collinear_rounding_counterexample :
    linearlyDependent1Discriminant
      (Vec.mk3 (0 : Binary32) 0 0)
      (Vec.mk3 (Binary.ofInt 1001) (Binary.ofInt 2003) (Binary.ofInt 3005))
      (Vec.mk3 (Binary.ofInt 3003) (Binary.ofInt 6009) (Binary.ofInt 9015))
      = Binary.ofInt (-134217728) ∧
    linearlyDependent (1 : Binary32)
      (Vec.mk3 (0 : Binary32) 0 0)
      (Vec.mk3 (Binary.ofInt 1001) (Binary.ofInt 2003) (Binary.ofInt 3005))
      (Vec.mk3 (Binary.ofInt 3003) (Binary.ofInt 6009) (Binary.ofInt 9015)) = false ∧
    linearlyDependent (Binary.ofDecimal 1 5 : Binary32)
      (Vec.mk3 (0 : Binary32) 0 0)
      (Vec.mk3 (Binary.ofInt 1001) (Binary.ofInt 2003) (Binary.ofInt 3005))
      (Vec.mk3 (Binary.ofInt 3003) (Binary.ofInt 6009) (Binary.ofInt 9015)) = false ∧
    List.ofFn (Vec.mk3 (Binary.ofInt 3003 : Binary32) (Binary.ofInt 6009) (Binary.ofInt 9015))
      = List.ofFn ((Vec.mk3 (Binary.ofInt 1001 : Binary32) (Binary.ofInt 2003)
          (Binary.ofInt 3005)).mulScalar (Binary.ofInt 3)) := by
  decide

end RoundingProofs

/-! ## Proofs: `majorComponent` on machine scalars -/

section WrappingProofs

variable {T : Type} [Zero T] [Neg T] [LT T] [∀ a b : T, Decidable (a < b)]
  {R : Type} [LinearOrderedCommRing R] {S : Nat}

end WrappingProofs

/-! ## Proofs: the round trip through `double` -/

section RoundTripProofs

/-- A number below `2 ^ p` has at most `p` binary digits. -/
theorem bitLengthLoop_le (fuel : Nat) :
    ∀ n p : Nat, n < 2 ^ p → bitLengthLoop fuel n ≤ p := by
  induction fuel with
  | zero => intro n p _; exact Nat.zero_le _
  | succ f ih =>
    intro n p h
    rw [bitLengthLoop]
    by_cases h0 : n = 0
    · rw [if_pos h0]
      exact Nat.zero_le _
    · rw [if_neg h0]
      obtain ⟨q, rfl⟩ : ∃ q, p = q + 1 := by
        cases p with
        | zero => exact absurd h (by simp; omega)
        | succ q => exact ⟨q, rfl⟩
      have h2 : n / 2 < 2 ^ q := by
        rw [Nat.pow_succ] at h
        omega
      have := ih (n / 2) q h2
      omega

/-- The trailing zero digits of `n` stand for a power of two that divides `n`. -/
theorem pow_trailingZerosLoop_dvd (fuel : Nat) :
    ∀ n : Nat, 2 ^ trailingZerosLoop fuel n ∣ n := by
  induction fuel with
  | zero => intro n; exact one_dvd n
  | succ f ih =>
    intro n
    rw [trailingZerosLoop]
    by_cases h : n % 2 = 0
    · rw [if_pos h, Nat.pow_succ]
      obtain ⟨c, hc⟩ := ih (n / 2)
      exact ⟨c, by rw [Nat.mul_right_comm, ← hc]; omega⟩
    · rw [if_neg h]
      exact one_dvd n

/-- Rounding leaves a number of at most `p` digits as it is. -/
theorem Binary.round_of_bitLength_le {p : Nat} (m e : Int) (h : bitLength m.natAbs ≤ p) :
    (Binary.round m e : Binary p) = Binary.normal m e := by
  unfold Binary.round
  simp only [Nat.sub_eq_zero_of_le h, if_true]

/-- The integer value of an integer brought to lowest terms. -/
theorem Binary.toInt_normal {p : Nat} (m : Int) : (Binary.normal m 0 : Binary p).toInt = m := by
  unfold Binary.normal
  by_cases h : m = 0
  · rw [if_pos h, h]
    rfl
  · rw [if_neg h]
    unfold Binary.toInt
    have hd : ((2 ^ trailingZeros m.natAbs : Nat) : Int) ∣ m :=
      Int.natCast_dvd.mpr (pow_trailingZerosLoop_dvd _ _)
    simp only [zero_add, Int.toNat_ofNat, Nat.cast_nonneg, if_true]
    exact Int.ediv_mul_cancel hd

set_option maxRecDepth 100000 in
/-- An integer of magnitude at most `2 ^ 53` converts to `double` and back unchanged. -/
theorem Binary.toInt_ofInt (n : Int) (h : |n| ≤ 2 ^ 53) :
    (Binary.ofInt n : Binary64).toInt = n := by
  rcases lt_or_eq_of_le h with hlt | heq
  · have hn : n.natAbs < 2 ^ 53 := by
      rw [Int.abs_eq_natAbs] at hlt
      exact_mod_cast hlt
    unfold Binary.ofInt
    rw [Binary.round_of_bitLength_le n 0 (bitLengthLoop_le _ _ _ hn), Binary.toInt_normal]
  · rcases (abs_eq (by norm_num)).mp heq with h1 | h1
    · rw [h1]
      decide
    · rw [h1]
      decide

/-- The character written for a decimal digit is a digit with that value. -/
theorem digit_char (d : Nat) (hd : d < 10) :
    (Char.ofNat (48 + d)).isDigit = true ∧ (Char.ofNat (48 + d)).toNat - 48 = d := by
  interval_cases d <;> decide

/-- The defining equation of `atofDigitsLoop` on a text that starts with a digit. -/
theorem atofDigitsLoop_digit (d : Nat) (hd : d < 10) (cs : List Char) (value : Nat) :
    atofDigitsLoop (Char.ofNat (48 + d) :: cs) value = atofDigitsLoop cs (value * 10 + d) := by
  rw [atofDigitsLoop, if_pos (digit_char d hd).1, (digit_char d hd).2]

/-- The digits written by `showNat` are not empty, are digits, and `atofDigitsLoop` reads
them back: it goes on after them with the value read so far shifted and `n` added. -/
theorem showNatLoop_spec (fuel : Nat) :
    ∀ n : Nat, n < fuel →
      showNatLoop fuel n ≠ [] ∧ (∀ c ∈ showNatLoop fuel n, c.isDigit = true) ∧
      ∀ (rest : List Char) (value : Nat),
        atofDigitsLoop (showNatLoop fuel n ++ rest) value
          = atofDigitsLoop rest (value * 10 ^ (showNatLoop fuel n).length + n) := by
  induction fuel with
  | zero => intro n h; exact absurd h (Nat.not_lt_zero n)
  | succ f ih =>
    intro n hn
    rw [showNatLoop]
    by_cases h10 : n < 10
    · rw [if_pos h10]
      refine ⟨List.cons_ne_nil _ _, ?_, ?_⟩
      · intro c hc
        rw [List.mem_singleton] at hc
        rw [hc]
        exact (digit_char n h10).1
      · intro rest value
        rw [List.singleton_append, atofDigitsLoop_digit n h10, List.length_singleton,
          Nat.pow_one]
    · rw [if_neg h10]
      have hd : n % 10 < 10 := Nat.mod_lt n (by decide)
      obtain ⟨_, h2, h3⟩ := ih (n / 10) (by omega)
      refine ⟨by simp, ?_, ?_⟩
      · intro c hc
        rcases List.mem_append.mp hc with h | h
        · exact h2 c h
        · rw [List.mem_singleton] at h
          rw [h]
          exact (digit_char _ hd).1
      · intro rest value
        rw [List.append_assoc, h3, List.singleton_append, atofDigitsLoop_digit _ hd,
          List.length_append, List.length_singleton, Nat.pow_succ]
        congr 1
        have := Nat.div_add_mod n 10
        ring_nf
        omega

/-- The loop of `atofDigits` stops at the end of the text and at a character that is not a
digit. -/
theorem atofDigitsLoop_stop (rest : List Char) (value : Nat)
    (h : rest = [] ∨ ∃ c cs, rest = c :: cs ∧ c.isDigit = false) :
    atofDigitsLoop rest value = value := by
  rcases h with h | ⟨c, cs, h, hc⟩
  · rw [h]
    rfl
  · rw [h, atofDigitsLoop, hc]
    rfl

/-- The function `atofInteger` reads the text written by `showInt`, followed by the end of
the text or by a character that is not a digit, as the `double` nearest to the integer. -/
theorem atofInteger_showInt (n : Int) (rest : List Char)
    (h : rest = [] ∨ ∃ c cs, rest = c :: cs ∧ c.isDigit = false) :
    atofInteger (showInt n ++ rest) = Binary.ofInt n := by
  obtain ⟨hne, hdig, hread⟩ := showNatLoop_spec (n.natAbs + 1) n.natAbs (Nat.lt_succ_self _)
  have hval : atofDigits (showNat n.natAbs ++ rest) = (n.natAbs : Int) := by
    unfold atofDigits showNat
    rw [hread, atofDigitsLoop_stop _ _ h, Nat.zero_mul, Nat.zero_add]
  unfold showInt
  by_cases hneg : n < 0
  · rw [if_pos hneg]
    unfold atofInteger
    rw [List.cons_append, List.head?_cons, if_pos rfl, List.tail_cons, hval]
    congr 1
    omega
  · rw [if_neg hneg]
    obtain ⟨c, cs, hcs⟩ := List.exists_cons_of_ne_nil hne
    have hc : c.isDigit = true := hdig c (by rw [hcs]; exact List.mem_cons_self c cs)
    have hminus : c ≠ '-' := by
      intro h2
      rw [h2] at hc
      exact absurd hc (by decide)
    unfold atofInteger
    have hhead : (showNat n.natAbs ++ rest).head? ≠ some '-' := by
      unfold showNat
      rw [hcs, List.cons_append, List.head?_cons]
      intro h2
      exact hminus (Option.some.inj h2)
    rw [if_neg hhead, hval]
    congr 1
    omega

/-- The text written by `showInt` is not empty and holds no blank character of `doParse`. -/
theorem showInt_text (n : Int) :
    showInt n ≠ [] ∧ ∀ c ∈ showInt n, c ∉ doParseBlank := by
  obtain ⟨hne, hdig, _⟩ := showNatLoop_spec (n.natAbs + 1) n.natAbs (Nat.lt_succ_self _)
  have hd : ∀ c ∈ showNat n.natAbs, c ∉ doParseBlank := by
    intro c hc hb
    have h1 := hdig c hc
    rw [isDigit_of_mem_doParseBlank c hb] at h1
    exact Bool.false_ne_true h1
  unfold showInt
  by_cases hneg : n < 0
  · rw [if_pos hneg]
    refine ⟨List.cons_ne_nil _ _, ?_⟩
    intro c hc
    rcases List.mem_cons.mp hc with h | h
    · rw [h]
      decide
    · exact hd c h
  · rw [if_neg hneg]
    exact ⟨hne, hd⟩

/-- The function `atofInteger` reads the text written by `showInt` the same when a space
follows. -/
theorem atofInteger_showInt_space (n : Int) (rest : List Char) :
    atofInteger (showInt n ++ ' ' :: rest) = atofInteger (showInt n) := by
  rw [atofInteger_showInt n _ (Or.inr ⟨' ', rest, rfl, by decide⟩)]
  have h := atofInteger_showInt n [] (Or.inl rfl)
  rw [List.append_nil] at h
  exact h.symm

variable {T : Type} [Zero T] {S : Nat}

/-- Claim C23, amended: round trip.  When the text written for each component is non-empty
and holds none of the blank characters of `doParse`, and `atof` reads a component text
followed by a space as it reads the text alone, every component of `parse(v.asString())` is
what `atof` reads from the text written for that component of `v` (the precision of the
text).  For an integer component type, where `atof` is `std::atof` followed by the
conversion of the `double` to the integer type: if `std::atof` returns the `double` nearest
to the integer written and every component has magnitude at most `2 ^ 53`, then
`parse(v.asString())` is `v`; so it is with the decimal texts of `showInt` read by
`atofInteger`. -/
theorem parse_asString_round_trip (atof : List Char → T) (toText : T → List Char)
    (v : Vec T S)
    (htext : ∀ i, toText (v i) ≠ [] ∧ ∀ c ∈ toText (v i), c ∉ doParseBlank)
    (hatof : ∀ i rest, atof (toText (v i) ++ ' ' :: rest) = atof (toText (v i))) :
    (∀ i, parse atof (v.asString toText) i = atof (toText (v i))) ∧
    (∀ (atofDouble : List Char → Binary64) (intText : Int → List Char) (w : Vec Int S),
      (∀ i, intText (w i) ≠ [] ∧ ∀ c ∈ intText (w i), c ∉ doParseBlank) →
      (∀ i rest, atofDouble (intText (w i) ++ ' ' :: rest) = atofDouble (intText (w i))) →
      (∀ i, atofDouble (intText (w i)) = Binary.ofInt (w i)) →
      (∀ i, |w i| ≤ 2 ^ 53) →
      parse (fun s => (atofDouble s).toInt) (w.asString intText) = w) ∧
    (∀ w : Vec Int S, (∀ i, |w i| ≤ 2 ^ 53) →
      parse (fun s => (atofInteger s).toInt) (w.asString showInt) = w) := by
  have hint : ∀ (atofDouble : List Char → Binary64) (intText : Int → List Char)
      (w : Vec Int S),
      (∀ i, intText (w i) ≠ [] ∧ ∀ c ∈ intText (w i), c ∉ doParseBlank) →
      (∀ i rest, atofDouble (intText (w i) ++ ' ' :: rest) = atofDouble (intText (w i))) →
      (∀ i, atofDouble (intText (w i)) = Binary.ofInt (w i)) →
      (∀ i, |w i| ≤ 2 ^ 53) →
      parse (fun s => (atofDouble s).toInt) (w.asString intText) = w := by
    intro atofDouble intText w hw1 hw2 hw3 hw4
    refine (parse_asString_components (fun s => (atofDouble s).toInt) intText w hw1
      (fun i rest => by simp only [hw2 i rest])).2 (fun i => ?_)
    simp only [hw3 i]
    exact Binary.toInt_ofInt (w i) (hw4 i)
  refine ⟨(parse_asString_components atof toText v htext hatof).1, hint, ?_⟩
  intro w hw
  refine hint atofInteger showInt w (fun i => showInt_text (w i))
    (fun i rest => atofInteger_showInt_space (w i) rest) (fun i => ?_) hw
  have h := atofInteger_showInt (w i) [] (Or.inl rfl)
  rw [List.append_nil] at h
  exact h

set_option maxRecDepth 100000 in
/-- The round trip of claim C23 (as amended) on the integer vector
`(-9007199254740992, 20, 3)`, whose first component is `-2 ^ 53`. -/
theorem parse_asString_round_trip_witness :
    (∀ i : Fin 3, showInt ((Vec.mk3 (-9007199254740992) 20 3 : Vec Int 3) i) ≠ [] ∧
      ∀ c ∈ showInt ((Vec.mk3 (-9007199254740992) 20 3 : Vec Int 3) i), c ∉ doParseBlank) ∧
    (∀ i : Fin 3, |(Vec.mk3 (-9007199254740992) 20 3 : Vec Int 3) i| ≤ 2 ^ 53) ∧
    (Vec.mk3 (-9007199254740992) 20 3 : Vec Int 3).asString showInt
      = "-9007199254740992 20 3".toList ∧
    parse (fun s => (atofInteger s).toInt)
      ((Vec.mk3 (-9007199254740992) 20 3 : Vec Int 3).asString showInt)
      = Vec.mk3 (-9007199254740992) 20 3 :=
  ⟨by decide, by decide, by decide,
    (parse_asString_round_trip (fun s => (atofInteger s).toInt) showInt
      (Vec.mk3 (-9007199254740992) 20 3 : Vec Int 3) (by decide)
      (fun i rest => by simp only [atofInteger_showInt_space])).2.2
      (Vec.mk3 (-9007199254740992) 20 3) (by decide)⟩

set_option maxRecDepth 100000 in
/-- Claim C23, counterexample: for the component type `long`, the vector
`(9007199254740993, 0, 0)`, whose first component is `2 ^ 53 + 1`, is written as
`9007199254740993 0 0`; `std::atof` returns the nearest `double`, `9007199254740992`, and
`parse` returns `(9007199254740992, 0, 0)`. -/
theorem parse_asString_long_counterexample :
    (Vec.mk3 9007199254740993 0 0 : Vec Int 3).asString showInt
      = "9007199254740993 0 0".toList ∧
    atofInteger "9007199254740993 0 0".toList = Binary.ofInt 9007199254740992 ∧
    List.ofFn (parse (fun s => (atofInteger s).toInt)
      ((Vec.mk3 9007199254740993 0 0 : Vec Int 3).asString showInt) : Vec Int 3)
      = [9007199254740992, 0, 0] := by
  decide

end RoundTripProofs

end TrenchBroom
